import Mathlib

/-!
# phpsessgo: the `phpserialize` decoder

A shallow embedding of `phpserialize/unserialize.go` and of the pieces of the
Go standard library it relies on (`strings.Reader`, `unicode/utf8`,
`strconv.Atoi`), followed by theorems about the decoder.

Conventions of the embedding:

* a Go `string` is a list of bytes, each byte a natural number below 256;
* a `strings.Reader` is represented by the part of the string it has not read;
* the Go `int` is the 64-bit one (the constant `UNSERIALIZABLE_OBJECT_MAX_LEN`
  only fits that one);
* a run-time panic and the exhaustion of the recursion budget of the model are
  results of their own (`Fault`), next to the `(value, error)` pair;
* `nil` of the interface type `phptype.Value` is `Value.null`.
-/

set_option autoImplicit false

namespace PhpSerialize

/-- A Go string, as its bytes. -/
abbrev Bytes := List Nat

/-- A Go rune (a Unicode code point). -/
abbrev Rune := Nat

/-- The bytes of an ASCII text. -/
def ascii (s : String) : Bytes := s.data.map Char.toNat

/-! ## unicode/utf8 -/

/-- The constant utf8.RuneError. -/
def RuneError : Rune := 0xFFFD

/-- The constant utf8.RuneSelf. -/
def RuneSelf : Nat := 0x80

/-- Whether a byte is a UTF-8 continuation byte (locb ≤ b ≤ hicb). -/
def isCont (b : Nat) : Bool := decide (0x80 ≤ b) && decide (b ≤ 0xBF)

/-- The function utf8.DecodeRuneInString: the first rune of `s` and its width
in bytes; an invalid or truncated sequence is `(RuneError, 1)`. The table
`first` and `acceptRanges` of the Go source are written out as ranges of the
leading byte. -/
def DecodeRuneInString (s : Bytes) : Rune × Nat :=
  match s with
  | [] => (RuneError, 0)
  | s0 :: t =>
    if s0 < 0x80 then (s0, 1)
    else if s0 < 0xC2 then (RuneError, 1)
    else if s0 ≤ 0xDF then
      match t with
      | s1 :: _ =>
        if isCont s1 then ((s0 % 32) * 64 + s1 % 64, 2) else (RuneError, 1)
      | [] => (RuneError, 1)
    else if s0 ≤ 0xEF then
      let lo := if s0 = 0xE0 then 0xA0 else 0x80
      let hi := if s0 = 0xED then 0x9F else 0xBF
      match t with
      | s1 :: s2 :: _ =>
        if decide (lo ≤ s1) && decide (s1 ≤ hi) && isCont s2 then
          ((s0 % 16) * 4096 + (s1 % 64) * 64 + s2 % 64, 3)
        else (RuneError, 1)
      | _ => (RuneError, 1)
    else if s0 ≤ 0xF4 then
      let lo := if s0 = 0xF0 then 0x90 else 0x80
      let hi := if s0 = 0xF4 then 0x8F else 0xBF
      match t with
      | s1 :: s2 :: s3 :: _ =>
        if decide (lo ≤ s1) && decide (s1 ≤ hi) && isCont s2 && isCont s3 then
          ((s0 % 8) * 262144 + (s1 % 64) * 4096 + (s2 % 64) * 64 + s3 % 64, 4)
        else (RuneError, 1)
      | _ => (RuneError, 1)
    else (RuneError, 1)

/-- The function utf8.AppendRune on an empty slice: the UTF-8 bytes of a rune;
a surrogate or a value above MaxRune is written as RuneError. -/
def EncodeRune (r : Rune) : Bytes :=
  if r ≤ 0x7F then [r]
  else if r ≤ 0x7FF then [0xC0 + r / 64, 0x80 + r % 64]
  else if 0x10FFFF < r ∨ (0xD800 ≤ r ∧ r ≤ 0xDFFF) then [0xEF, 0xBF, 0xBD]
  else if r ≤ 0xFFFF then [0xE0 + r / 4096, 0x80 + (r / 64) % 64, 0x80 + r % 64]
  else [0xF0 + r / 262144, 0x80 + (r / 4096) % 64, 0x80 + (r / 64) % 64, 0x80 + r % 64]

/-! ## strings.Reader -/

/-- The method strings.Reader.ReadRune on the unread part `r`: `none` is
io.EOF, otherwise the rune and the new unread part. -/
def ReadRune (r : Bytes) : Option (Rune × Bytes) :=
  match r with
  | [] => none
  | c :: t =>
    if c < RuneSelf then some (c, t)
    else some ((DecodeRuneInString r).1, r.drop (DecodeRuneInString r).2)

/-- The method strings.Reader.Read into a buffer of `n` bytes: `none` is
io.EOF (nothing left to read), otherwise the bytes copied and the new unread
part. -/
def Read (n : Nat) (r : Bytes) : Option (Bytes × Bytes) :=
  match r with
  | [] => none
  | _ :: _ => some (r.take n, r.drop n)

/-! ## strconv -/

/-- The two errors of strconv: ErrSyntax and ErrRange. -/
inductive NumError where
  | ErrSyntax
  | ErrRange
  deriving DecidableEq, Repr

/-- The value of a run of decimal digits read left to right on top of `acc`;
`none` when a byte is not a digit. -/
def digitsVal : Bytes → Nat → Option Nat
  | [], acc => some acc
  | c :: cs, acc =>
    if 48 ≤ c ∧ c ≤ 57 then digitsVal cs (acc * 10 + (c - 48)) else none

/-- The digit loop of strconv.ParseUint for base 10 and 64 bits on top of the
value `n` read so far: a byte that is not a digit gives 0 with ErrSyntax; as
soon as the digits no longer fit 64 bits the loop stops with the largest
uint64 and ErrRange, whatever bytes follow. -/
def ParseUintLoop : Bytes → Nat → Nat × Option NumError
  | [], n => (n, none)
  | c :: cs, n =>
    if 48 ≤ c ∧ c ≤ 57 then
      if (2 ^ 64 - 1) / 10 + 1 ≤ n then (2 ^ 64 - 1, some .ErrRange)
      else if 2 ^ 64 - 1 < n * 10 + (c - 48) then (2 ^ 64 - 1, some .ErrRange)
      else ParseUintLoop cs (n * 10 + (c - 48))
    else (0, some .ErrSyntax)

/-- The function strconv.Atoi with a 64-bit int, as strconv.ParseInt computes
it (the fast path Atoi takes for texts under 19 bytes returns the same
results): an optional sign and at least one decimal digit; a syntax error gives
0, a value out of range gives the nearest bound, both with an error. -/
def Atoi (s : Bytes) : Int × Option NumError :=
  match s with
  | [] => (0, some .ErrSyntax)
  | c :: t =>
    let neg : Bool := decide (c = 45)
    let ds : Bytes := if c = 43 ∨ c = 45 then t else s
    match ds with
    | [] => (0, some .ErrSyntax)
    | _ :: _ =>
      match ParseUintLoop ds 0 with
      | (_, some .ErrSyntax) => (0, some .ErrSyntax)
      | (un, _) =>
        if neg = false ∧ 2 ^ 63 ≤ un then ((2 : Int) ^ 63 - 1, some .ErrRange)
        else if neg = true ∧ 2 ^ 63 < un then (-(2 : Int) ^ 63, some .ErrRange)
        else (if neg then -(un : Int) else (un : Int), none)

/-- Decimal digits of a number, most significant first, with a budget of
`fuel` digits. -/
def decimalCore : Nat → Nat → Bytes
  | 0, _ => []
  | fuel + 1, n =>
    if n < 10 then [48 + n] else decimalCore fuel (n / 10) ++ [48 + n % 10]

/-- The decimal text of a natural number (strconv.Itoa on a non-negative
int). -/
def decimal (n : Nat) : Bytes := decimalCore (n + 1) n

/-- The decimal text of an integer (strconv.Itoa). -/
def itoa (n : Int) : Bytes :=
  if n < 0 then 45 :: decimal n.natAbs else decimal n.natAbs

/-! ## phptype: the decoded values -/

/-- The interface type phptype.Value with the dynamic types the decoder
produces: nil, bool, int, float64 (kept as its IEEE-754 bit pattern), string,
phptype.Array (a Go map from Value to Value, kept as its entries in the order
of first insertion), and the pointers to phptype.Object,
phptype.ObjectSerialized and phptype.PhpSplArray. `foreign` is any other Go
value, which only a decode hook can produce. -/
inductive Value where
  | null
  | bool (b : Bool)
  | int (n : Int)
  | float (bits : Nat)
  | str (s : Bytes)
  | array (entries : List (Value × Value))
  | object (ClassName : Bytes) (Members : List (Value × Value))
  | objectSerialized (ClassName : Bytes) (Data : Bytes) (Value : Value)
  | splArray (Flags : Int) (Array : Value) (Properties : Value)
  | foreign (id : Nat)

/-- The type phptype.Array: the entries of the Go map. -/
abbrev PArray := List (Value × Value)

/-- Whether a float64 bit pattern is a NaN. -/
def isNaN (bits : Nat) : Bool :=
  decide ((bits / 2 ^ 52) % 2 ^ 11 = 2047) && decide (bits % 2 ^ 52 ≠ 0)

/-- Go's `==` on two interface values used as map keys. Two floats are equal
when neither is a NaN and they have the same bits or are both zeros; a pointer
made by the decoder is a fresh allocation and equals no other key. -/
def keyEq : Value → Value → Bool
  | .null, .null => true
  | .bool a, .bool b => a == b
  | .int a, .int b => decide (a = b)
  | .float a, .float b =>
    !isNaN a && !isNaN b && (decide (a = b) || (decide (a % 2 ^ 63 = 0) && decide (b % 2 ^ 63 = 0)))
  | .str a, .str b => decide (a = b)
  | .foreign a, .foreign b => a == b
  | _, _ => false

/-- Whether the dynamic type of a value can be hashed: a map cannot. -/
def hashable : Value → Bool
  | .array _ => false
  | _ => true

/-- A run-time panic of the Go program, or the exhaustion of the recursion
budget of the model. -/
inductive Fault where
  | makeslice
  | unhashable
  | typeAssertion
  | hook
  | fuel
  deriving DecidableEq, Repr

/-- Overwrite the entry whose key equals `k`, if any, in its place: the Go
runtime stores the new value and, for a map with interface keys, also the new
key (equal keys can differ, as the floats 0 and -0 do). -/
def replaceEntry (k v : Value) : PArray → Option PArray
  | [] => none
  | (k', v') :: rest =>
    if keyEq k' k then some ((k, v) :: rest)
    else (replaceEntry k v rest).map (fun rest' => (k', v') :: rest')

/-- The Go statement `val[k] = v` on a map with interface keys: a panic when
the key cannot be hashed, an overwrite when an equal key is present, a new
entry otherwise. -/
def mapassign (val : PArray) (k v : Value) : Except Fault PArray :=
  if hashable k then
    match replaceEntry k v val with
    | some val' => .ok val'
    | none => .ok (val ++ [(k, v)])
  else .error .unhashable

/-- The Go expression `val[k]` with the comma-ok form: the value stored under
a key equal to `k`. -/
def mapaccess : PArray → Value → Option Value
  | [], _ => none
  | (k', v') :: rest, k => if keyEq k' k then some v' else mapaccess rest k

/-! ## phpserialize: errors and constants -/

/-- The errors the decoder makes, one constructor for each fmt.Errorf of
unserialize.go with the arguments of its format (the wrapped I/O error is
always io.EOF); `external` is an error made by a decode hook. -/
inductive Error where
  | unknownToken (token : Rune)
  | readBool
  | readNumber
  | convFloat (raw : Bytes) (e : NumError)
  | convInt (raw : Bytes) (e : NumError)
  | readString
  | shortString (expected : Int) (got : Int)
  | arrayKeyOrValue
  | readReference
  | expectRead (expected : Rune)
  | expectMismatch (expected : Rune) (token : Rune)
  | readLength
  | tooBig (val : Int)
  | splFlags
  | splArray (e : Error)
  | splProperties (e : Error)
  | external (msg : Bytes)
  deriving DecidableEq, Repr

/-- The constant of unserialize.go, line 12. -/
def UNSERIALIZABLE_OBJECT_MAX_LEN : Int := 10 * 1024 * 1024 * 1024

/-- The largest length the Go runtime allocates on a 64-bit platform
(runtime.maxAlloc); `make` panics above it. -/
def maxAlloc : Int := 2 ^ 48

/-- Modelled from the spec: the constant TOKEN_NULL (declared outside
unserialize.go), tag `N`. -/
def TOKEN_NULL : Rune := 78
/-- Modelled from the spec: the constant TOKEN_BOOL, tag `b`. -/
def TOKEN_BOOL : Rune := 98
/-- Modelled from the spec: the constant TOKEN_INT, tag `i`. -/
def TOKEN_INT : Rune := 105
/-- Modelled from the spec: the constant TOKEN_FLOAT, tag `d`. -/
def TOKEN_FLOAT : Rune := 100
/-- Modelled from the spec: the constant TOKEN_STRING, tag `s`. -/
def TOKEN_STRING : Rune := 115
/-- Modelled from the spec: the constant TOKEN_ARRAY, tag `a`. -/
def TOKEN_ARRAY : Rune := 97
/-- Modelled from the spec: the constant TOKEN_OBJECT, tag `O`. -/
def TOKEN_OBJECT : Rune := 79
/-- Modelled from the spec: the constant TOKEN_OBJECT_SERIALIZED, tag `C`. -/
def TOKEN_OBJECT_SERIALIZED : Rune := 67
/-- Modelled from the spec: the constant TOKEN_REFERENCE, tag `R`. -/
def TOKEN_REFERENCE : Rune := 82
/-- Modelled from the spec: the constant TOKEN_REFERENCE_OBJECT, tag `r`. -/
def TOKEN_REFERENCE_OBJECT : Rune := 114
/-- Modelled from the spec: the constant SEPARATOR_VALUE_TYPE, `:`. -/
def SEPARATOR_VALUE_TYPE : Rune := 58
/-- Modelled from the spec: the constant SEPARATOR_VALUES, `;`. -/
def SEPARATOR_VALUES : Rune := 59
/-- Modelled from the spec: the constant DELIMITER_STRING_LEFT, `"`. -/
def DELIMITER_STRING_LEFT : Rune := 34
/-- Modelled from the spec: the constant DELIMITER_STRING_RIGHT, `"`. -/
def DELIMITER_STRING_RIGHT : Rune := 34
/-- Modelled from the spec: the constant DELIMITER_OBJECT_LEFT, `{`. -/
def DELIMITER_OBJECT_LEFT : Rune := 123
/-- Modelled from the spec: the constant DELIMITER_OBJECT_RIGHT, `}`. -/
def DELIMITER_OBJECT_RIGHT : Rune := 125

/-- The type DecodeFunc: a decode hook from the payload of a `C`-tagged object
to a value and an error; a hook may also panic. -/
abbrev DecodeFunc := Bytes → Except Fault (Value × Option Error)

/-- What a decode run is given and does not change: strconv.ParseFloat (the
float64 as its bit pattern, and the error), the two tag runes of the SPL-array
form (declared outside unserialize.go, and not fixed by the spec), and the
field DecodeFunc of the Unserializer. -/
structure Env where
  ParseFloat : Bytes → Nat × Option NumError
  TOKEN_SPL_ARRAY : Rune
  TOKEN_SPL_ARRAY_MEMBERS : Rune
  DecodeFunc : Option DecodeFunc

/-- The mutable part of the struct Unserializer: the unread part of its
reader `r` (a fresh Unserializer reads `source` from its first byte) and
`lastErr`. -/
structure Unserializer where
  r : Bytes
  lastErr : Option Error
  deriving DecidableEq, Repr

/-- The function NewUnserializer. -/
def NewUnserializer (data : Bytes) : Unserializer :=
  { r := data, lastErr := none }

namespace Unserializer

/-- The method saveError: the error is kept only when none was kept before. -/
def saveError (u : Unserializer) (err : Error) : Unserializer :=
  match u.lastErr with
  | none => { u with lastErr := some err }
  | some _ => u

/-- The method expect: read one rune and record an error when the input has
ended or the rune is another one. -/
def expect (u : Unserializer) (expected : Rune) : Unserializer :=
  match ReadRune u.r with
  | none => saveError u (.expectRead expected)
  | some (token, rest) =>
    if token ≠ expected then saveError { u with r := rest } (.expectMismatch expected token)
    else { u with r := rest }

/-- The loop of readUntil with a budget of `fuel` runes: the runes read before
`stop` written back as UTF-8, the unread part, and whether the input ended
before `stop` was found. -/
def readUntilLoop (stop : Rune) : Nat → Bytes → Bytes → Bytes × Bytes × Bool
  | 0, buf, r => (buf, r, true)
  | fuel + 1, buf, r =>
    match ReadRune r with
    | none => (buf, r, true)
    | some (token, rest) =>
      if token = stop then (buf, rest, false)
      else readUntilLoop stop fuel (buf ++ EncodeRune token) rest

/-- The method readUntil: the text before the next `stop` rune, the state
after it, and whether io.EOF was met first. Every turn of the loop reads at
least one byte, so the number of unread bytes plus one bounds the turns. -/
def readUntil (u : Unserializer) (stop : Rune) : Bytes × Bool × Unserializer :=
  let res := readUntilLoop stop (u.r.length + 1) [] u.r
  (res.1, res.2.2, { u with r := res.2.1 })

/-- The method readLen. -/
def readLen (u : Unserializer) : Int × Unserializer :=
  let u := expect u SEPARATOR_VALUE_TYPE
  match readUntil u SEPARATOR_VALUE_TYPE with
  | (_, true, u) => (0, saveError u .readLength)
  | (raw, false, u) =>
    match Atoi raw with
    | (val, some e) => (val, saveError u (.convInt raw e))
    | (val, none) =>
      if val > UNSERIALIZABLE_OBJECT_MAX_LEN then (0, saveError u (.tooBig val))
      else (val, u)

/-- The method decodeNull. -/
def decodeNull (u : Unserializer) : Value × Unserializer :=
  (.null, expect u SEPARATOR_VALUES)

/-- The method decodeBool. -/
def decodeBool (u : Unserializer) : Value × Unserializer :=
  let u := expect u SEPARATOR_VALUE_TYPE
  match ReadRune u.r with
  | none => (.bool false, expect (saveError u .readBool) SEPARATOR_VALUES)
  | some (raw, rest) => (.bool (decide (raw = 49)), expect { u with r := rest } SEPARATOR_VALUES)

/-- The method decodeNumber. The result variable is of the interface type, so
it holds whatever strconv returned, also next to an error. -/
def decodeNumber (E : Env) (isFloat : Bool) (u : Unserializer) : Value × Unserializer :=
  let u := expect u SEPARATOR_VALUE_TYPE
  match readUntil u SEPARATOR_VALUES with
  | (_, true, u) => (.null, saveError u .readNumber)
  | (raw, false, u) =>
    if isFloat then
      match E.ParseFloat raw with
      | (val, some e) => (.float val, saveError u (.convFloat raw e))
      | (val, none) => (.float val, u)
    else
      match Atoi raw with
      | (val, some e) => (.int val, saveError u (.convInt raw e))
      | (val, none) => (.int val, u)

/-- The method decodeString. -/
def decodeString (u : Unserializer) (left right : Rune) (isFinal : Bool) :
    Except Fault (Value × Unserializer) :=
  let (strLen, u) := readLen u
  let u := expect u left
  let finish (val : Value) (u : Unserializer) : Value × Unserializer :=
    let u := expect u right
    (val, if isFinal then expect u SEPARATOR_VALUES else u)
  if strLen > 0 then
    if strLen > maxAlloc then .error .makeslice
    else
      match Read strLen.toNat u.r with
      | none => .ok (finish .null (saveError u .readString))
      | some (buf, rest) =>
        if (buf.length : Int) ≠ strLen then
          .ok (finish .null (saveError { u with r := rest } (.shortString strLen buf.length)))
        else .ok (finish (.str buf) { u with r := rest })
  else .ok (finish .null u)

/-- The method readClassName: the type assertion to string of a nil value
gives the empty string. -/
def readClassName (u : Unserializer) : Except Fault (Bytes × Unserializer) :=
  match decodeString u DELIMITER_STRING_LEFT DELIMITER_STRING_RIGHT false with
  | .error f => .error f
  | .ok (.str res, u) => .ok (res, u)
  | .ok (_, u) => .ok ([], u)

/-- The method decodeReference. -/
def decodeReference (u : Unserializer) : Value × Unserializer :=
  let u := expect u SEPARATOR_VALUE_TYPE
  match readUntil u SEPARATOR_VALUES with
  | (_, true, u) => (.null, saveError u .readReference)
  | (_, false, u) => (.null, u)

/-- The loop of decodeArray, `n` turns left, over the method Decode given as
`dec`. The two errors compared with nil are the ones Decode returned, that is
lastErr after the key and after the value. -/
def decodeArrayLoop (dec : Unserializer → Except Fault (Value × Unserializer)) :
    Nat → PArray → Unserializer → Except Fault (PArray × Unserializer)
  | 0, val, u => .ok (val, u)
  | n + 1, val, u =>
    match dec u with
    | .error f => .error f
    | .ok (k, u1) =>
      match dec u1 with
      | .error f => .error f
      | .ok (v, u2) =>
        if u1.lastErr = none ∧ u2.lastErr = none then
          match mapassign val k v with
          | .error f => .error f
          | .ok val' => decodeArrayLoop dec n val' u2
        else decodeArrayLoop dec n val (saveError u2 .arrayKeyOrValue)

/-- The method decodeArray, giving the map itself. -/
def decodeArrayMap (dec : Unserializer → Except Fault (Value × Unserializer))
    (u : Unserializer) : Except Fault (PArray × Unserializer) :=
  let (arrLen, u) := readLen u
  let u := expect u DELIMITER_OBJECT_LEFT
  match decodeArrayLoop dec arrLen.toNat [] u with
  | .error f => .error f
  | .ok (val, u) => .ok (val, expect u DELIMITER_OBJECT_RIGHT)

/-- The method decodeArray. -/
def decodeArray (dec : Unserializer → Except Fault (Value × Unserializer))
    (u : Unserializer) : Except Fault (Value × Unserializer) :=
  match decodeArrayMap dec u with
  | .error f => .error f
  | .ok (val, u) => .ok (.array val, u)

/-- The method decodeObject. -/
def decodeObject (dec : Unserializer → Except Fault (Value × Unserializer))
    (u : Unserializer) : Except Fault (Value × Unserializer) :=
  match readClassName u with
  | .error f => .error f
  | .ok (cls, u) =>
    match decodeArrayMap dec u with
    | .error f => .error f
    | .ok (members, u) => .ok (.object cls members, u)

/-- The method decodeSerialized. -/
def decodeSerialized (E : Env) (u : Unserializer) : Except Fault (Value × Unserializer) :=
  match readClassName u with
  | .error f => .error f
  | .ok (cls, u) =>
    match decodeString u DELIMITER_OBJECT_LEFT DELIMITER_OBJECT_RIGHT false with
    | .error f => .error f
    | .ok (rawData, u) =>
      let data : Bytes := match rawData with
        | .str d => d
        | _ => []
      match E.DecodeFunc with
      | none => .ok (.objectSerialized cls data .null, u)
      | some f =>
        if data ≠ [] then
          match f data with
          | .error p => .error p
          | .ok (v, some err) => .ok (.objectSerialized cls data v, saveError u err)
          | .ok (v, none) => .ok (.objectSerialized cls data v, u)
        else .ok (.objectSerialized cls data .null, u)

/-- The method decodeSplArray. -/
def decodeSplArray (E : Env) (dec : Unserializer → Except Fault (Value × Unserializer))
    (u : Unserializer) : Except Fault (Value × Unserializer) :=
  let u := expect u SEPARATOR_VALUE_TYPE
  let u := expect u TOKEN_INT
  match decodeNumber E false u with
  | (.null, u) => .ok (.null, saveError u .splFlags)
  | (.int flags, u) =>
    match dec u with
    | .error f => .error f
    | .ok (arr, u) =>
      match u.lastErr with
      | some err => .ok (.null, saveError u (.splArray err))
      | none =>
        let u := expect u SEPARATOR_VALUES
        let u := expect u E.TOKEN_SPL_ARRAY_MEMBERS
        let u := expect u SEPARATOR_VALUE_TYPE
        match dec u with
        | .error f => .error f
        | .ok (props, u) =>
          match u.lastErr with
          | some err => .ok (.null, saveError u (.splProperties err))
          | none => .ok (.splArray flags arr props, u)
  | (_, _) => .error .typeAssertion

/-- The method Decode with a budget of `fuel` nested calls. The value is
returned with the state, whose lastErr is the error Decode returns. -/
def DecodeFuel (E : Env) : Nat → Unserializer → Except Fault (Value × Unserializer)
  | 0, _ => .error .fuel
  | fuel + 1, u =>
    match ReadRune u.r with
    | none => .ok (.null, u)
    | some (token, rest) =>
      let u : Unserializer := { u with r := rest }
      if token = TOKEN_NULL then .ok (decodeNull u)
      else if token = TOKEN_BOOL then .ok (decodeBool u)
      else if token = TOKEN_INT then .ok (decodeNumber E false u)
      else if token = TOKEN_FLOAT then .ok (decodeNumber E true u)
      else if token = TOKEN_STRING then
        decodeString u DELIMITER_STRING_LEFT DELIMITER_STRING_RIGHT true
      else if token = TOKEN_ARRAY then decodeArray (DecodeFuel E fuel) u
      else if token = TOKEN_OBJECT then decodeObject (DecodeFuel E fuel) u
      else if token = TOKEN_OBJECT_SERIALIZED then decodeSerialized E u
      else if token = TOKEN_REFERENCE ∨ token = TOKEN_REFERENCE_OBJECT then
        .ok (decodeReference u)
      else if token = E.TOKEN_SPL_ARRAY then decodeSplArray E (DecodeFuel E fuel) u
      else .ok (.null, saveError u (.unknownToken token))

/-- The method Decode. A nested call is made only after a rune was read, so
the number of unread bytes plus one bounds the depth of the calls. -/
def Decode (E : Env) (u : Unserializer) : Except Fault (Value × Unserializer) :=
  DecodeFuel E (u.r.length + 1) u

end Unserializer

/-- The function UnSerialize with a budget of `fuel` nested hook calls: a
fresh Unserializer over `s` whose decode hook is UnSerialize itself. -/
def UnSerializeFuel (E : Env) : Nat → DecodeFunc
  | 0 => fun _ => .error .fuel
  | fuel + 1 => fun s =>
    match Unserializer.Decode { E with DecodeFunc := some (UnSerializeFuel E fuel) }
        (NewUnserializer s) with
    | .error f => .error f
    | .ok (v, u) => .ok (v, u.lastErr)

/-- The function UnSerialize. The hook is only applied to a payload inside
`s`, so the length of `s` plus one bounds the nesting of the hook calls. -/
def UnSerialize (E : Env) (s : Bytes) : Except Fault (Value × Option Error) :=
  UnSerializeFuel E (s.length + 1) s

/-! ## The serialize format (spec §4.2): the texts of the encoded values -/

/-- The text `:<len>:` followed by the payload between the delimiters `left`
and `right`, where `<len>` is the decimal byte length of the payload. -/
def encQuoted (left right : Rune) (p : Bytes) : Bytes :=
  SEPARATOR_VALUE_TYPE :: (decimal p.length ++ SEPARATOR_VALUE_TYPE :: left :: (p ++ [right]))

/-- The text `s:<len>:"<payload>";`. -/
def encString (p : Bytes) : Bytes :=
  TOKEN_STRING :: (encQuoted DELIMITER_STRING_LEFT DELIMITER_STRING_RIGHT p ++ [SEPARATOR_VALUES])

/-- The value decodeString gives for the payload `p`: the result variable stays
nil when the declared length is 0. -/
def strValue (p : Bytes) : Value := if p = [] then .null else .str p

/-- An environment for the concrete examples: no decode hook, the SPL tags
`x` and `m` that PHP writes, and a ParseFloat that rejects every text (no
example decodes a float). -/
def sampleEnv : Env :=
  { ParseFloat := fun _ => (0, some .ErrSyntax)
    TOKEN_SPL_ARRAY := 120
    TOKEN_SPL_ARRAY_MEMBERS := 109
    DecodeFunc := none }

/-- The text `N;`. -/
def encNull : Bytes := [TOKEN_NULL, SEPARATOR_VALUES]

/-- The text `b:0;` or `b:1;`. -/
def encBool (b : Bool) : Bytes :=
  [TOKEN_BOOL, SEPARATOR_VALUE_TYPE, if b then 49 else 48, SEPARATOR_VALUES]

/-- The text `i:<n>;` with the decimal text of `n`. -/
def encInt (n : Int) : Bytes :=
  TOKEN_INT :: SEPARATOR_VALUE_TYPE :: (itoa n ++ [SEPARATOR_VALUES])

/-- The text `d:<txt>;`. -/
def encFloat (txt : Bytes) : Bytes :=
  TOKEN_FLOAT :: SEPARATOR_VALUE_TYPE :: (txt ++ [SEPARATOR_VALUES])

/-- The text `r:<digits>;` or `R:<digits>;`, `token` being the tag. -/
def encReference (token : Rune) (digits : Bytes) : Bytes :=
  token :: SEPARATOR_VALUE_TYPE :: (digits ++ [SEPARATOR_VALUES])

/-- The map after the statement `val[k] = v` with a key that can be hashed. -/
def put (val : PArray) (k v : Value) : PArray :=
  match replaceEntry k v val with
  | some val' => val'
  | none => val ++ [(k, v)]

/-- One key/value pair of an array or object body: the text of the key, the
value it decodes to, the text of the value and the value it decodes to. -/
structure Pair where
  key : Bytes
  kval : Value
  val : Bytes
  vval : Value

/-- The body of an array or object: the texts of the pairs one after the
other, with nothing in between. -/
def encPairs : List Pair → Bytes
  | [] => []
  | x :: xs => x.key ++ (x.val ++ encPairs xs)

/-- The map after assigning the pairs in their order. -/
def putAll (val : PArray) : List Pair → PArray
  | [] => val
  | x :: xs => putAll (put val x.kval x.vval) xs

/-- The text `:<n>:{<body>}` that follows the tag of an array and the class
name of an object. -/
def encCounted (n : Nat) (body : Bytes) : Bytes :=
  SEPARATOR_VALUE_TYPE :: (decimal n ++
    SEPARATOR_VALUE_TYPE :: DELIMITER_OBJECT_LEFT :: (body ++ [DELIMITER_OBJECT_RIGHT]))

/-- The text `a:<n>:{<body>}`. -/
def encArray (n : Nat) (body : Bytes) : Bytes := TOKEN_ARRAY :: encCounted n body

/-- The text `O:<len>:"<class>":<n>:{<body>}`. -/
def encObject (cls : Bytes) (n : Nat) (body : Bytes) : Bytes :=
  TOKEN_OBJECT :: (encQuoted DELIMITER_STRING_LEFT DELIMITER_STRING_RIGHT cls ++ encCounted n body)

/-- The text `C:<len>:"<class>":<n>:{<payload>}`. -/
def encSerialized (cls payload : Bytes) : Bytes :=
  TOKEN_OBJECT_SERIALIZED :: (encQuoted DELIMITER_STRING_LEFT DELIMITER_STRING_RIGHT cls ++
    encQuoted DELIMITER_OBJECT_LEFT DELIMITER_OBJECT_RIGHT payload)

/-- The SPL-array text `<spl-tag>:i:<flags>;<A>;<members-tag>:<P>`. -/
def encSplArray (E : Env) (flags : Int) (a p : Bytes) : Bytes :=
  E.TOKEN_SPL_ARRAY :: SEPARATOR_VALUE_TYPE :: TOKEN_INT :: SEPARATOR_VALUE_TYPE ::
    (itoa flags ++ SEPARATOR_VALUES ::
      (a ++ SEPARATOR_VALUES :: E.TOKEN_SPL_ARRAY_MEMBERS :: SEPARATOR_VALUE_TYPE :: p))

/-- What decodeSerialized gets from the hook for a payload: nothing when no
hook is set or the payload is empty, otherwise the result of the hook. -/
def hookResult (E : Env) (payload : Bytes) : Except Fault (Value × Option Error) :=
  match E.DecodeFunc with
  | none => .ok (.null, none)
  | some f => if payload ≠ [] then f payload else .ok (.null, none)

/-- The two SPL tag runes are one-byte runes and the SPL-array tag is none of
the other tags (Go rejects a switch with a repeated case constant). -/
def splTagsOk (E : Env) : Prop :=
  E.TOKEN_SPL_ARRAY < 128 ∧ E.TOKEN_SPL_ARRAY_MEMBERS < 128 ∧
  E.TOKEN_SPL_ARRAY ∉ [TOKEN_NULL, TOKEN_BOOL, TOKEN_INT, TOKEN_FLOAT, TOKEN_STRING, TOKEN_ARRAY,
    TOKEN_OBJECT, TOKEN_OBJECT_SERIALIZED, TOKEN_REFERENCE, TOKEN_REFERENCE_OBJECT]

/-- A well-formed key of an array or object and the key it decodes to: an int
in the 64-bit range or a string of at most the ceiling's length. -/
inductive IsKey : Bytes → Value → Prop where
  | int (n : Int) (hlo : -(2 : Int) ^ 63 ≤ n) (hhi : n < (2 : Int) ^ 63) :
      IsKey (encInt n) (.int n)
  | str (p : Bytes) (hp : (p.length : Int) ≤ UNSERIALIZABLE_OBJECT_MAX_LEN) :
      IsKey (encString p) (strValue p)

/-- The well-formed encodings of one value in the format of spec §4.2, each
with the value the decoder gives for it: every declared length is exact and at
most UNSERIALIZABLE_OBJECT_MAX_LEN, an int is in the 64-bit range, the text of a
float is one ParseFloat accepts, the keys of arrays and objects are ints or
strings, and the hook, when it is applied to the payload of a `C`-tagged
object, succeeds. With `spl = false` the SPL-array form is left out. -/
inductive Encodes (E : Env) (spl : Bool) : Bytes → Value → Prop where
  | null : Encodes E spl encNull .null
  | bool (b : Bool) : Encodes E spl (encBool b) (.bool b)
  | int (n : Int) (hlo : -(2 : Int) ^ 63 ≤ n) (hhi : n < (2 : Int) ^ 63) :
      Encodes E spl (encInt n) (.int n)
  | float (txt : Bytes) (bits : Nat) (htxt : ∀ c ∈ txt, c < 128 ∧ c ≠ SEPARATOR_VALUES)
      (hpf : E.ParseFloat txt = (bits, none)) : Encodes E spl (encFloat txt) (.float bits)
  | str (p : Bytes) (hp : (p.length : Int) ≤ UNSERIALIZABLE_OBJECT_MAX_LEN) :
      Encodes E spl (encString p) (strValue p)
  | array (items : List Pair) (hn : (items.length : Int) ≤ UNSERIALIZABLE_OBJECT_MAX_LEN)
      (hk : ∀ x ∈ items, IsKey x.key x.kval) (hv : ∀ x ∈ items, Encodes E spl x.val x.vval) :
      Encodes E spl (encArray items.length (encPairs items)) (.array (putAll [] items))
  | object (cls : Bytes) (hc : (cls.length : Int) ≤ UNSERIALIZABLE_OBJECT_MAX_LEN)
      (items : List Pair) (hn : (items.length : Int) ≤ UNSERIALIZABLE_OBJECT_MAX_LEN)
      (hk : ∀ x ∈ items, IsKey x.key x.kval) (hv : ∀ x ∈ items, Encodes E spl x.val x.vval) :
      Encodes E spl (encObject cls items.length (encPairs items)) (.object cls (putAll [] items))
  | serialized (cls payload : Bytes) (v : Value)
      (hc : (cls.length : Int) ≤ UNSERIALIZABLE_OBJECT_MAX_LEN)
      (hp : (payload.length : Int) ≤ UNSERIALIZABLE_OBJECT_MAX_LEN)
      (hhook : hookResult E payload = .ok (v, none)) :
      Encodes E spl (encSerialized cls payload) (.objectSerialized cls payload v)
  | reference (token : Rune) (ht : token = TOKEN_REFERENCE ∨ token = TOKEN_REFERENCE_OBJECT)
      (digits : Bytes) (hd : ∀ c ∈ digits, 48 ≤ c ∧ c ≤ 57) :
      Encodes E spl (encReference token digits) .null
  | splArray (hspl : spl = true) (htags : splTagsOk E) (flags : Int)
      (hlo : -(2 : Int) ^ 63 ≤ flags) (hhi : flags < (2 : Int) ^ 63)
      (a p : Bytes) (av pv : Value) (ha : Encodes E spl a av) (hp : Encodes E spl p pv) :
      Encodes E spl (encSplArray E flags a p) (.splArray flags av pv)

/-- The pair `s:5:"test1";b:1;` of the examples. -/
def pairTest1 : Pair :=
  { key := encString (ascii "test1"), kval := .str (ascii "test1"),
    val := encBool true, vval := .bool true }

/-- The pair `i:0;i:5;` of the examples. -/
def pairZeroFive : Pair :=
  { key := encInt 0, kval := .int 0, val := encInt 5, vval := .int 5 }

/-! ## phptype.Object: the member accessors -/

/-- The visibility of an object member. -/
inductive Visibility where
  | Public
  | Protected
  | Private
  deriving DecidableEq, Repr

/-- The rest of `s` after the leading bytes `pre`, when `s` starts with them. -/
def dropLeading : Bytes → Bytes → Option Bytes
  | [], s => some s
  | _ :: _, [] => none
  | a :: as, b :: bs => if a = b then dropLeading as bs else none

/-- Modelled from the spec: the demangling rule of §3 (the code that applies it
is in package phptype, outside the sources at hand): a stored member name
`\0*\0name` is the protected member `name`, `\0ClassName\0name` is the private
member `name`, any other stored name is a public member. -/
def demangle (ClassName : Bytes) (stored : Bytes) : Visibility × Bytes :=
  match dropLeading [0, 42, 0] stored with
  | some name => (.Protected, name)
  | none =>
    match dropLeading (0 :: (ClassName ++ [0])) stored with
    | some name => (.Private, name)
    | none => (.Public, stored)

/-- Modelled from the spec: the accessor helpers of §4.1 over the Members map
that decodeObject fills: look a member up by name and required visibility; the
visibility must match exactly. `none` is not found. -/
def getMember (vis : Visibility) (ClassName : Bytes) (Members : PArray) (name : Bytes) :
    Option Value :=
  match Members with
  | [] => none
  | (.str stored, v) :: rest =>
    if demangle ClassName stored = (vis, name) then some v
    else getMember vis ClassName rest name
  | _ :: rest => getMember vis ClassName rest name

/-- Modelled from the spec: Object.GetPublic. -/
def GetPublic (ClassName : Bytes) (Members : PArray) (name : Bytes) : Option Value :=
  getMember .Public ClassName Members name

/-- Modelled from the spec: Object.GetProtected. -/
def GetProtected (ClassName : Bytes) (Members : PArray) (name : Bytes) : Option Value :=
  getMember .Protected ClassName Members name

/-- Modelled from the spec: Object.GetPrivate. -/
def GetPrivate (ClassName : Bytes) (Members : PArray) (name : Bytes) : Option Value :=
  getMember .Private ClassName Members name

/-- The public member `a` of the example object: `s:1:"a";i:5;`. -/
def memberA : Pair :=
  { key := encString (ascii "a"), kval := .str (ascii "a"), val := encInt 5, vval := .int 5 }

/-- The private member `b` of the example object of class TestObject:
`s:13:"\0TestObject\0b";s:4:"priv";`. -/
def memberB : Pair :=
  { key := encString (0 :: (ascii "TestObject" ++ 0 :: ascii "b")),
    kval := .str (0 :: (ascii "TestObject" ++ 0 :: ascii "b")),
    val := encString (ascii "priv"), vval := .str (ascii "priv") }

/-- The protected member `c` of the example object: `s:4:"\0*\0c";i:8;`. -/
def memberC : Pair :=
  { key := encString (0 :: 42 :: 0 :: ascii "c"), kval := .str (0 :: 42 :: 0 :: ascii "c"),
    val := encInt 8, vval := .int 8 }

/-- The environment of the examples with UnSerialize as the decode hook, as
UnSerialize itself and TestDecodeSerializableObjectValue set it. -/
def hookEnv : Env := { sampleEnv with DecodeFunc := some (UnSerialize sampleEnv) }

/-- The error slot of `u'` still holds the error of `u`, if `u` holds one. -/
def Keeps (u u' : Unserializer) : Prop :=
  ∀ x : Error, u.lastErr = some x → u'.lastErr = some x

/-- The text `i:<raw>;` for any text `raw`, a decimal or not. -/
def encIntText (raw : Bytes) : Bytes :=
  TOKEN_INT :: SEPARATOR_VALUE_TYPE :: (raw ++ [SEPARATOR_VALUES])

/-- The pair `i:1;i:5;` of the examples. -/
def pairOneFive : Pair :=
  { key := encInt 1, kval := .int 1, val := encInt 5, vval := .int 5 }

/-- The member entries of the example object as decodeObject stores them: under
the raw names, marker bytes included. -/
def exampleMembers : PArray :=
  [(.str (ascii "a"), .int 5),
   (.str (0 :: (ascii "TestObject" ++ 0 :: ascii "b")), .str (ascii "priv")),
   (.str (0 :: 42 :: 0 :: ascii "c"), .int 8)]

/-- The integer a text writes in decimal: an optional sign `+` or `-` and at
least one decimal digit; `none` for any other text. -/
def decimalValue : Bytes → Option Int
  | [] => none
  | c :: t =>
    if c = 45 then
      match t with
      | [] => none
      | _ :: _ => (digitsVal t 0).map (fun (n : Nat) => -(n : Int))
    else if c = 43 then
      match t with
      | [] => none
      | _ :: _ => (digitsVal t 0).map (fun (n : Nat) => (n : Int))
    else (digitsVal (c :: t) 0).map (fun (n : Nat) => (n : Int))

/-- The text is the decimal representation of a signed 64-bit integer. -/
def IsDecimalInt64 (raw : Bytes) : Prop :=
  ∃ n : Int, decimalValue raw = some n ∧ -(2 : Int) ^ 63 ≤ n ∧ n < (2 : Int) ^ 63

/-- The keys a well-formed array has: nil (the key an empty string decodes
to), an int or a string. -/
def SimpleKey : Value → Prop
  | .null => True
  | .int _ => True
  | .str _ => True
  | _ => False

/-- The pair `i:0;i:<n>;`. -/
def pairIntZero (n : Int) : Pair :=
  { key := encInt 0, kval := .int 0, val := encInt n, vval := .int n }

/-- The pair `s:1:"0";i:<n>;`. -/
def pairStrZero (n : Int) : Pair :=
  { key := encString (ascii "0"), kval := .str (ascii "0"), val := encInt n, vval := .int n }

/-- Every key of every Array inside the value, and of the members of every
Object inside it, is a value Go can hash (anything but an Array), at every
depth: inside keys, inside values and inside the two parts of an SPL array.
The value a decode hook made for a `C`-tagged object is not looked into. -/
inductive KeysHashable : Value → Prop where
  | null : KeysHashable .null
  | bool (b : Bool) : KeysHashable (.bool b)
  | int (n : Int) : KeysHashable (.int n)
  | float (bits : Nat) : KeysHashable (.float bits)
  | str (s : Bytes) : KeysHashable (.str s)
  | foreign (id : Nat) : KeysHashable (.foreign id)
  | array (entries : List (Value × Value))
      (hkey : ∀ en ∈ entries, hashable en.1 = true)
      (hk : ∀ en ∈ entries, KeysHashable en.1) (hv : ∀ en ∈ entries, KeysHashable en.2) :
      KeysHashable (.array entries)
  | object (cls : Bytes) (members : List (Value × Value))
      (hkey : ∀ en ∈ members, hashable en.1 = true)
      (hk : ∀ en ∈ members, KeysHashable en.1) (hv : ∀ en ∈ members, KeysHashable en.2) :
      KeysHashable (.object cls members)
  | objectSerialized (cls data : Bytes) (v : Value) : KeysHashable (.objectSerialized cls data v)
  | splArray (flags : Int) (a p : Value) (ha : KeysHashable a) (hp : KeysHashable p) :
      KeysHashable (.splArray flags a p)

/-- The entries of a map whose keys can be hashed, with keys and values that
satisfy KeysHashable. -/
def EntriesHashable (m : PArray) : Prop :=
  (∀ en ∈ m, hashable en.1 = true) ∧ (∀ en ∈ m, KeysHashable en.1) ∧
    ∀ en ∈ m, KeysHashable en.2

/-- One run of the Go statement `for k, v := range val` over a phptype.Array:
the entries in the order the run visits them. The array is a Go map (it is
made with `make(phptype.Array)` and filled with `val[k] = v`), and a range over
a map visits every entry once in an order the language leaves unspecified, so
every arrangement of the entries is a possible run. The order in which this
model lists the entries of a map is not something the program can observe. -/
def Ranges (val : PArray) (visit : List (Value × Value)) : Prop :=
  visit.Perm val

/-- The decoded key and value of a pair. -/
def Pair.entry (x : Pair) : Value × Value := (x.kval, x.vval)

/-- The pair `s:4:"test";b:1;` of the examples. -/
def pairTest : Pair :=
  { key := encString (ascii "test"), kval := .str (ascii "test"),
    val := encBool true, vval := .bool true }

/-- The text `s:<n>:"";`: an empty string with the declared length `n`. -/
def encLenString (n : Int) : Bytes :=
  TOKEN_STRING :: SEPARATOR_VALUE_TYPE :: (itoa n ++
    [SEPARATOR_VALUE_TYPE, DELIMITER_STRING_LEFT, DELIMITER_STRING_RIGHT, SEPARATOR_VALUES])

/-- The text `a:<n>:{}`: an empty array body with the declared count `n`. -/
def encLenArray (n : Int) : Bytes :=
  TOKEN_ARRAY :: SEPARATOR_VALUE_TYPE :: (itoa n ++
    [SEPARATOR_VALUE_TYPE, DELIMITER_OBJECT_LEFT, DELIMITER_OBJECT_RIGHT])

/-- The error readLen records for the declared length `n < 0`: none when `n`
fits a 64-bit int, the range error of strconv.Atoi otherwise. -/
def negLenError (n : Int) : Option Error :=
  if -(2 : Int) ^ 63 ≤ n then none else some (.convInt (itoa n) .ErrRange)

/-- The int readLen returns for the declared length `n < 0`: `n` itself when it
fits a 64-bit int, the smallest int otherwise. -/
def negLenValue (n : Int) : Int :=
  if -(2 : Int) ^ 63 ≤ n then n else -(2 : Int) ^ 63

/-! ## phpsessgo: the session manager -/

/-- The two fields of http.Cookie the session manager uses. -/
structure Cookie where
  Name : Bytes
  Value : Bytes
  deriving DecidableEq, Repr

/-- A non-nil Go error value, told apart by its message. -/
abbrev GoError := Bytes

/-- The struct Session: the session ID and the attached value. The type of the
value, phpencode.PhpSession, is declared outside the sources at hand; the
session manager only passes such values along, so it is the parameter `σ`. -/
structure Session (σ : Type) where
  SessionID : Bytes
  Value : σ

/-- The interface SessionHandler, with the one method Start uses: Read gives
the raw session string and an error. -/
structure SessionHandler where
  Read : Bytes → Bytes × Option GoError

/-- The interface SessionIDCreator: CreateSID gives a new session ID. -/
structure SessionIDCreator where
  CreateSID : Unit → Bytes

/-- The struct SessionManager. -/
structure SessionManager where
  SessionName : Bytes
  SIDCreator : SessionIDCreator
  Handler : SessionHandler

/-- A call Start makes to one of its collaborators: the session-ID creator,
the handler, the session decoder phpencode.Decode, and http.SetCookie with the
name and the value of the cookie. -/
inductive Call where
  | CreateSID
  | Read (sessionID : Bytes)
  | Decode (raw : Bytes)
  | SetCookie (name value : Bytes)
  deriving DecidableEq, Repr

/-- What a run of Start leaves behind: the two results `session` and `err`, and
the calls it made, in their order. -/
structure Started (σ : Type) where
  session : Session σ
  err : Option GoError
  calls : List Call

/-- The method getFromCookies: the value of the first cookie named
SessionName, the empty string when there is none. -/
def SessionManager.getFromCookies (m : SessionManager) : List Cookie → Bytes
  | [] => []
  | cookie :: rest =>
    if cookie.Name = m.SessionName then cookie.Value else m.getFromCookies rest

/-- The method Start on the cookies of the request (`r.Cookies()`). The
function phpencode.Decode and the function NewSession are declared outside the
sources at hand: `decode` stands for the first and `fresh`, the session
NewSession returns, for the second. -/
def SessionManager.Start {σ : Type} (m : SessionManager) (decode : Bytes → σ × Option GoError)
    (fresh : Session σ) (cookies : List Cookie) : Started σ :=
  let sessionID := m.getFromCookies cookies
  if sessionID = [] then
    let sessionID := m.SIDCreator.CreateSID ()
    { session := { fresh with SessionID := sessionID }, err := none,
      calls := [.CreateSID, .SetCookie m.SessionName sessionID] }
  else
    match m.Handler.Read sessionID with
    | (_, some err) =>
      { session := { fresh with SessionID := sessionID }, err := some err,
        calls := [.Read sessionID] }
    | (raw, none) =>
      match decode raw with
      | (_, some err) =>
        { session := { fresh with SessionID := sessionID }, err := some err,
          calls := [.Read sessionID, .Decode raw] }
      | (phpSession, none) =>
        { session := { SessionID := sessionID, Value := phpSession }, err := none,
          calls := [.Read sessionID, .Decode raw] }

/-- The manager of the test TestSessionManager_Start_ExistingSessionID, with a
handler whose Read returns `res`. -/
def testManager (res : Bytes × Option GoError) : SessionManager :=
  { SessionName := ascii "some-session-name"
    SIDCreator := { CreateSID := fun _ => ascii "random-hash" }
    Handler := { Read := fun _ => res } }

/-- The cookie of that test. -/
def testCookie : Cookie :=
  { Name := ascii "some-session-name", Value := ascii "some-session-id" }

/-- Two runs of one step of the decoder agree: they give the same result, a
panic they end in satisfies `Q`, and a run that returns leaves at most `n`
unread bytes in the reader. -/
def StepOk {α : Type} (Q : Fault → Prop) (n : Nat)
    (a b : Except Fault (α × Unserializer)) : Prop :=
  a = b ∧ (∀ f, a = .error f → Q f) ∧ ∀ x u', a = .ok (x, u') → u'.r.length ≤ n

/-- Two versions of the method Decode agree on every state with at most `K`
unread bytes, and neither reads backwards. -/
def Stable (Q : Fault → Prop) (K : Nat)
    (dec dec' : Unserializer → Except Fault (Value × Unserializer)) : Prop :=
  ∀ u, u.r.length ≤ K → StepOk Q u.r.length (dec u) (dec' u)

/-- Two settings of the field DecodeFunc agree on every payload shorter than
`L` bytes, and a panic of the hook on such a payload satisfies `Q`. -/
def HookStable (Q : Fault → Prop) (L : Nat) : Option DecodeFunc → Option DecodeFunc → Prop
  | none, none => True
  | some g, some g' =>
    ∀ data : Bytes, data.length < L → g data = g' data ∧ ∀ f, g data = .error f → Q f
  | _, _ => False

/-- Two environments that differ at most in the decode hook, the hooks being
related by HookStable. -/
def EnvStable (Q : Fault → Prop) (L : Nat) (E1 E2 : Env) : Prop :=
  E1.ParseFloat = E2.ParseFloat ∧ E1.TOKEN_SPL_ARRAY = E2.TOKEN_SPL_ARRAY ∧
    E1.TOKEN_SPL_ARRAY_MEMBERS = E2.TOKEN_SPL_ARRAY_MEMBERS ∧
    HookStable Q L E1.DecodeFunc E2.DecodeFunc

/-- The body of an array whose keys and values are all of the form `i:<text>;`,
for any texts: the pairs one after the other. -/
def encIntTexts : List (Bytes × Bytes) → Bytes
  | [] => []
  | p :: ps => encIntText p.1 ++ (encIntText p.2 ++ encIntTexts ps)

/-- The texts of such a body in the order the cursor meets them: key, value,
key, value, and so on. -/
def cursorTexts : List (Bytes × Bytes) → List Bytes
  | [] => []
  | p :: ps => p.1 :: p.2 :: cursorTexts ps

/-- The error decodeNumber records for the int text `raw`, if strconv.Atoi
rejects it. -/
def intTextError (raw : Bytes) : Option Error :=
  (Atoi raw).2.map (Error.convInt raw)

/-- The error of the first text, in the order given, that strconv.Atoi
rejects; none when it accepts them all. -/
def firstRejected : List Bytes → Option Error
  | [] => none
  | raw :: rest =>
    match intTextError raw with
    | some err => some err
    | none => firstRejected rest

/-- The error slot after an error `e'` is offered to a state whose slot is
`e`. -/
def firstOf (e e' : Option Error) : Option Error :=
  match e with
  | some x => some x
  | none => e'

/-- The cookie `some-session-name=` of an empty value. -/
def emptyCookie : Cookie :=
  { Name := ascii "some-session-name", Value := [] }

/-! # Theorems -/

/-! ## strconv: decimal texts -/

theorem decimalCore_digit (fuel n c : Nat) (h : c ∈ decimalCore fuel n) : 48 ≤ c ∧ c ≤ 57 := by
  induction fuel generalizing n with
  | zero => simp [decimalCore] at h
  | succ f ih =>
    unfold decimalCore at h
    split at h
    · simp at h; omega
    · rcases List.mem_append.mp h with h | h
      · exact ih _ h
      · simp at h; omega

theorem decimal_digit (n c : Nat) (h : c ∈ decimal n) : 48 ≤ c ∧ c ≤ 57 :=
  decimalCore_digit _ _ _ h

theorem decimalCore_ne_nil (fuel n : Nat) : decimalCore (fuel + 1) n ≠ [] := by
  unfold decimalCore
  split <;> simp

theorem decimal_ne_nil (n : Nat) : decimal n ≠ [] := decimalCore_ne_nil _ _

theorem digitsVal_append (xs ys : Bytes) (acc : Nat) :
    digitsVal (xs ++ ys) acc = (digitsVal xs acc).bind (fun a => digitsVal ys a) := by
  induction xs generalizing acc with
  | nil => simp [digitsVal]
  | cons c cs ih =>
    simp only [List.cons_append, digitsVal]
    split
    · exact ih _
    · rfl

theorem digitsVal_decimalCore (fuel n : Nat) (h : n < fuel) :
    digitsVal (decimalCore fuel n) 0 = some n := by
  induction fuel generalizing n with
  | zero => omega
  | succ f ih =>
    unfold decimalCore
    split
    · simp [digitsVal]
      omega
    · rw [digitsVal_append, ih (n / 10) (by omega)]
      simp [digitsVal]
      omega

theorem digitsVal_decimal (n : Nat) : digitsVal (decimal n) 0 = some n :=
  digitsVal_decimalCore _ _ (Nat.lt_succ_self n)

theorem digitsVal_ge (s : Bytes) : ∀ (acc v : Nat), digitsVal s acc = some v → acc ≤ v := by
  induction s with
  | nil => intro acc v h; simp only [digitsVal, Option.some.injEq] at h; omega
  | cons c cs ih =>
    intro acc v h
    simp only [digitsVal] at h
    split_ifs at h
    have := ih _ _ h
    omega

theorem ParseUintLoop_fits (s : Bytes) : ∀ (acc v : Nat), digitsVal s acc = some v →
    v < 2 ^ 64 → ParseUintLoop s acc = (v, none) := by
  induction s with
  | nil => intro acc v h _; simp only [digitsVal, Option.some.injEq] at h; simp [ParseUintLoop, h]
  | cons c cs ih =>
    intro acc v h hv
    simp only [digitsVal] at h
    split_ifs at h with hd
    have hge := digitsVal_ge cs _ _ h
    have h1 : ¬ ((2 ^ 64 - 1) / 10 + 1 ≤ acc) := by omega
    have h2 : ¬ (2 ^ 64 - 1 < acc * 10 + (c - 48)) := by omega
    simp only [ParseUintLoop, if_pos hd, if_neg h1, if_neg h2]
    exact ih _ _ h hv

theorem ParseUintLoop_overflow (s : Bytes) : ∀ (acc v : Nat), digitsVal s acc = some v →
    2 ^ 64 ≤ v → acc < 2 ^ 64 → ParseUintLoop s acc = (2 ^ 64 - 1, some .ErrRange) := by
  induction s with
  | nil => intro acc v h hv hacc; simp only [digitsVal, Option.some.injEq] at h; omega
  | cons c cs ih =>
    intro acc v h hv hacc
    simp only [digitsVal] at h
    split_ifs at h with hd
    simp only [ParseUintLoop, if_pos hd]
    by_cases h1 : (2 ^ 64 - 1) / 10 + 1 ≤ acc
    · rw [if_pos h1]
    · rw [if_neg h1]
      by_cases h2 : 2 ^ 64 - 1 < acc * 10 + (c - 48)
      · rw [if_pos h2]
      · rw [if_neg h2]
        exact ih _ _ h hv (by omega)

theorem ParseUintLoop_bad (s : Bytes) : ∀ (acc : Nat), digitsVal s acc = none →
    ParseUintLoop s acc = (0, some .ErrSyntax) ∨
      ParseUintLoop s acc = (2 ^ 64 - 1, some .ErrRange) := by
  induction s with
  | nil => intro acc h; simp [digitsVal] at h
  | cons c cs ih =>
    intro acc h
    simp only [digitsVal] at h
    by_cases hd : 48 ≤ c ∧ c ≤ 57
    · rw [if_pos hd] at h
      simp only [ParseUintLoop, if_pos hd]
      by_cases h1 : (2 ^ 64 - 1) / 10 + 1 ≤ acc
      · rw [if_pos h1]; exact Or.inr rfl
      · rw [if_neg h1]
        by_cases h2 : 2 ^ 64 - 1 < acc * 10 + (c - 48)
        · rw [if_pos h2]; exact Or.inr rfl
        · rw [if_neg h2]
          exact ih _ h
    · left
      simp only [ParseUintLoop, if_neg hd]

/-- strconv.Atoi on a sign and digits (at least one) of the value `un`. -/
theorem Atoi_of_digits (c : Nat) (t : Bytes) (b : Nat) (bs : Bytes) (un : Nat)
    (hds : (if c = 43 ∨ c = 45 then t else c :: t) = b :: bs)
    (hd : digitsVal (b :: bs) 0 = some un) :
    Atoi (c :: t) =
      if decide (c = 45) = false ∧ 2 ^ 63 ≤ un then ((2 : Int) ^ 63 - 1, some .ErrRange)
      else if decide (c = 45) = true ∧ 2 ^ 63 < un then (-(2 : Int) ^ 63, some .ErrRange)
      else (if decide (c = 45) then -(un : Int) else (un : Int), none) := by
  simp only [Atoi, hds]
  by_cases hfit : un < 2 ^ 64
  · rw [ParseUintLoop_fits _ _ _ hd hfit]
  · rw [ParseUintLoop_overflow _ _ _ hd (by omega) (by omega)]
    by_cases hneg : c = 45
    · have h1 : (2 : Nat) ^ 63 < 2 ^ 64 - 1 := by norm_num
      have h2 : 2 ^ 63 < un := by omega
      simp only [hneg, decide_True, Bool.true_eq_false, false_and, if_false, true_and,
        if_pos h1, if_pos h2]
    · have h1 : (2 : Nat) ^ 63 ≤ 2 ^ 64 - 1 := by norm_num
      have h2 : 2 ^ 63 ≤ un := by omega
      simp only [hneg, decide_False, true_and, if_pos h1, if_pos h2]

/-- strconv.Atoi returns an error on a text with a byte that is not a digit
after the sign. -/
theorem Atoi_of_nondigit (c : Nat) (t : Bytes) (b : Nat) (bs : Bytes)
    (hds : (if c = 43 ∨ c = 45 then t else c :: t) = b :: bs)
    (hd : digitsVal (b :: bs) 0 = none) :
    ∃ (z : Int) (err : NumError), Atoi (c :: t) = (z, some err) := by
  simp only [Atoi, hds]
  rcases ParseUintLoop_bad _ _ hd with h | h
  · rw [h]; exact ⟨0, .ErrSyntax, rfl⟩
  · rw [h]
    by_cases hneg : c = 45
    · have h1 : (2 : Nat) ^ 63 < 2 ^ 64 - 1 := by norm_num
      exact ⟨-(2 : Int) ^ 63, .ErrRange, by simp [hneg, h1]⟩
    · have h1 : (2 : Nat) ^ 63 ≤ 2 ^ 64 - 1 := by norm_num
      exact ⟨(2 : Int) ^ 63 - 1, .ErrRange, by simp [hneg, h1]⟩

theorem Atoi_decimal (n : Nat) (h : n < 2 ^ 63) : Atoi (decimal n) = ((n : Int), none) := by
  have hne := decimal_ne_nil n
  have hd := decimal_digit n
  have hv := digitsVal_decimal n
  cases hs : decimal n with
  | nil => exact absurd hs hne
  | cons c t =>
    rw [hs] at hd hv
    have hc := hd c (by simp)
    have h1 : ¬ (c = 43 ∨ c = 45) := by omega
    have h2 : ¬ (c = 45) := by omega
    have h3 : ¬ (2 ^ 63 ≤ n) := by omega
    rw [Atoi_of_digits c t c t n (if_neg h1) hv]
    simp only [h2, decide_False, true_and, if_neg h3, Bool.false_eq_true, false_and, if_false]

theorem Atoi_itoa (z : Int) (hlo : -(2 : Int) ^ 63 ≤ z) (hhi : z < (2 : Int) ^ 63) :
    Atoi (itoa z) = (z, none) := by
  unfold itoa
  split
  · rename_i hneg
    have hne := decimal_ne_nil z.natAbs
    have hv := digitsVal_decimal z.natAbs
    cases hs : decimal z.natAbs with
    | nil => exact absurd hs hne
    | cons c t =>
      rw [hs] at hv
      rw [Atoi_of_digits 45 (c :: t) c t z.natAbs (if_pos (Or.inr rfl)) hv]
      have h3 : ¬ (2 ^ 63 < z.natAbs) := by omega
      have h4 : -((z.natAbs : Nat) : Int) = z := by omega
      simp only [decide_True, Bool.true_eq_false, false_and, if_false, true_and, if_neg h3,
        if_true, h4]
  · rename_i hneg
    rw [Atoi_decimal _ (by omega)]
    congr 1
    omega

/-! ## The reader and the length fields -/

section Primitives
open Unserializer

theorem ReadRune_ascii (c : Nat) (t : Bytes) (h : c < 128) : ReadRune (c :: t) = some (c, t) := by
  simp [ReadRune, RuneSelf, h]

theorem expect_ascii (c : Nat) (t : Bytes) (e : Option Error) (h : c < 128) :
    expect ⟨c :: t, e⟩ c = ⟨t, e⟩ := by
  simp [expect, ReadRune_ascii c t h]

theorem EncodeRune_ascii (c : Nat) (h : c < 128) : EncodeRune c = [c] := by
  have : c ≤ 127 := by omega
  simp [EncodeRune, this]

theorem readUntilLoop_ascii (stop : Rune) (rest : Bytes) (ds : Bytes)
    (hds : ∀ c ∈ ds, c < 128 ∧ c ≠ stop) (hstop : stop < 128) :
    ∀ (fuel : Nat) (buf : Bytes), ds.length < fuel →
      readUntilLoop stop fuel buf (ds ++ stop :: rest) = (buf ++ ds, rest, false) := by
  induction ds with
  | nil =>
    intro fuel buf hf
    cases fuel with
    | zero => simp at hf
    | succ f => simp [readUntilLoop, ReadRune_ascii stop rest hstop]
  | cons c cs ih =>
    intro fuel buf hf
    cases fuel with
    | zero => simp at hf
    | succ f =>
      have hc := hds c (by simp)
      have hcs : ∀ x ∈ cs, x < 128 ∧ x ≠ stop := fun x hx => hds x (by simp [hx])
      simp only [List.cons_append, readUntilLoop, ReadRune_ascii c _ hc.1, if_neg hc.2,
        EncodeRune_ascii c hc.1]
      rw [ih hcs f _ (by simpa using hf)]
      simp

theorem readUntil_ascii (stop : Rune) (ds rest : Bytes) (e : Option Error)
    (hds : ∀ c ∈ ds, c < 128 ∧ c ≠ stop) (hstop : stop < 128) :
    readUntil ⟨ds ++ stop :: rest, e⟩ stop = (ds, false, ⟨rest, e⟩) := by
  have h := readUntilLoop_ascii stop rest ds hds hstop ((ds ++ stop :: rest).length + 1) []
    (by simp only [List.length_append, List.length_cons]; omega)
  simp only [readUntil, h, List.nil_append]

theorem readLen_decimal (n : Nat) (rest : Bytes) (e : Option Error)
    (hn : (n : Int) ≤ UNSERIALIZABLE_OBJECT_MAX_LEN) :
    readLen ⟨SEPARATOR_VALUE_TYPE :: (decimal n ++ SEPARATOR_VALUE_TYPE :: rest), e⟩ = ((n : Int), ⟨rest, e⟩) := by
  have hds : ∀ c ∈ decimal n, c < 128 ∧ c ≠ SEPARATOR_VALUE_TYPE := by
    intro c hc
    have := decimal_digit n c hc
    simp [SEPARATOR_VALUE_TYPE]; omega
  have hn' : n < 2 ^ 63 := by
    simp [UNSERIALIZABLE_OBJECT_MAX_LEN] at hn; omega
  simp only [readLen]
  rw [expect_ascii _ _ _ (by simp [SEPARATOR_VALUE_TYPE]),
    readUntil_ascii _ _ _ _ hds (by simp [SEPARATOR_VALUE_TYPE])]
  simp only [Atoi_decimal n hn']
  rw [if_neg (by omega)]


theorem Read_prefix (p rest : Bytes) (h : p ≠ []) :
    Read p.length (p ++ rest) = some (p, rest) := by
  cases p with
  | nil => exact absurd rfl h
  | cons c cs => simp [Read]

theorem decodeString_quoted (left right : Rune) (hl : left < 128) (hr : right < 128)
    (p rest : Bytes) (e : Option Error) (isFinal : Bool)
    (hp : (p.length : Int) ≤ UNSERIALIZABLE_OBJECT_MAX_LEN) :
    decodeString ⟨encQuoted left right p ++
        (if isFinal then SEPARATOR_VALUES :: rest else rest), e⟩ left right isFinal
      = .ok (strValue p, ⟨rest, e⟩) := by
  have hp' : ¬ ((p.length : Int) > maxAlloc) := by
    simp [UNSERIALIZABLE_OBJECT_MAX_LEN] at hp; simp [maxAlloc]; omega
  have hfin : ∀ (v : Value),
      (v, if isFinal then
          expect (expect ⟨right :: (if isFinal then SEPARATOR_VALUES :: rest else rest), e⟩ right)
            SEPARATOR_VALUES
        else expect ⟨right :: (if isFinal then SEPARATOR_VALUES :: rest else rest), e⟩ right)
        = (v, (⟨rest, e⟩ : Unserializer)) := by
    intro v
    cases isFinal
    · simp [expect_ascii right _ _ hr]
    · simp [expect_ascii right _ _ hr, expect_ascii SEPARATOR_VALUES _ _ (by simp [SEPARATOR_VALUES])]
  simp only [decodeString, encQuoted, List.cons_append, List.append_assoc, List.singleton_append]
  rw [readLen_decimal _ _ _ hp]
  simp only [expect_ascii left _ _ hl]
  by_cases hnil : p = []
  · subst hnil
    simp only [List.length_nil, Nat.cast_zero, gt_iff_lt, lt_self_iff_false, if_false,
      List.nil_append, strValue, if_true]
    rw [hfin]
  · have hpos : (p.length : Int) > 0 := by
      have := List.length_pos.mpr hnil
      omega
    rw [if_pos hpos, if_neg hp']
    simp only [Int.toNat_ofNat, Read_prefix p _ hnil, ne_eq, not_true_eq_false, if_false,
      strValue, if_neg hnil, List.nil_append]
    rw [hfin]


theorem readLen_tooBig (n : Nat) (rest : Bytes) (e : Option Error)
    (hlo : UNSERIALIZABLE_OBJECT_MAX_LEN < (n : Int)) (hhi : n < 2 ^ 63) :
    readLen ⟨SEPARATOR_VALUE_TYPE :: (decimal n ++ SEPARATOR_VALUE_TYPE :: rest), e⟩
      = (0, saveError ⟨rest, e⟩ (.tooBig n)) := by
  have hds : ∀ c ∈ decimal n, c < 128 ∧ c ≠ SEPARATOR_VALUE_TYPE := by
    intro c hc
    have := decimal_digit n c hc
    simp [SEPARATOR_VALUE_TYPE]; omega
  simp only [readLen]
  rw [expect_ascii _ _ _ (by simp [SEPARATOR_VALUE_TYPE]),
    readUntil_ascii _ _ _ _ hds (by simp [SEPARATOR_VALUE_TYPE])]
  simp only [Atoi_decimal n hhi]
  rw [if_pos (by omega)]

theorem Decode_string (E : Env) (p rest : Bytes) (e : Option Error)
    (hp : (p.length : Int) ≤ UNSERIALIZABLE_OBJECT_MAX_LEN) (fuel : Nat) :
    DecodeFuel E (fuel + 1) ⟨encString p ++ rest, e⟩ = .ok (strValue p, ⟨rest, e⟩) := by
  have h := decodeString_quoted DELIMITER_STRING_LEFT DELIMITER_STRING_RIGHT
    (by simp [DELIMITER_STRING_LEFT]) (by simp [DELIMITER_STRING_RIGHT]) p rest e true hp
  simp only [if_true] at h
  simp only [DecodeFuel, encString, List.cons_append, List.append_assoc, List.singleton_append,
    ReadRune_ascii TOKEN_STRING _ (by simp [TOKEN_STRING])]
  simp only [TOKEN_STRING, TOKEN_NULL, TOKEN_BOOL, TOKEN_INT, TOKEN_FLOAT, Nat.reduceEqDiff,
    if_false, if_true]
  exact h

/-- C1 (amended): for every non-empty byte sequence `p` of at most
UNSERIALIZABLE_OBJECT_MAX_LEN bytes (any bytes: multi-byte UTF-8, NUL, quote,
semicolon, braces), Decode on `s:<n>:"p";` with `n` the decimal byte length of
`p` returns the string `p` byte for byte with a nil error, the input read to its
end. -/
theorem C1_string_round_trip (E : Env) (p : Bytes) (hne : p ≠ [])
    (hlen : (p.length : Int) ≤ UNSERIALIZABLE_OBJECT_MAX_LEN) :
    Decode E (NewUnserializer (encString p)) = .ok (.str p, ⟨[], none⟩) := by
  have h := Decode_string E p [] none hlen (encString p).length
  simp only [List.append_nil, strValue, if_neg hne] at h
  exact h

/-- C1, an instance: a payload with a two-byte UTF-8 letter, a NUL, a quote, a
semicolon and both braces. -/
theorem C1_string_round_trip_witness :
    Decode sampleEnv (NewUnserializer (encString [209, 130, 0, 34, 59, 123, 125]))
      = .ok (.str [209, 130, 0, 34, 59, 123, 125], ⟨[], none⟩) :=
  C1_string_round_trip sampleEnv [209, 130, 0, 34, 59, 123, 125] (by decide) (by decide)



/-- A string whose declared length is above the ceiling (and fits an int)
decodes to nil with the error of a too big length: no byte of the payload is
read as such. -/
theorem Decode_string_tooBig (E : Env) (a b : Nat) (q : Bytes) (n : Nat)
    (ha : a < 128) (hb : b < 128) (hn : (a :: b :: q).length = n)
    (hlo : UNSERIALIZABLE_OBJECT_MAX_LEN < (n : Int)) (hhi : n < 2 ^ 63) :
    Decode E (NewUnserializer (encString (a :: b :: q)))
      = .ok (.null, ⟨q ++ [DELIMITER_STRING_RIGHT, SEPARATOR_VALUES], some (.tooBig n)⟩) := by
  simp only [Decode, NewUnserializer, DecodeFuel, encString, encQuoted, hn, List.cons_append,
    List.append_assoc, ReadRune_ascii TOKEN_STRING _ (by simp [TOKEN_STRING])]
  simp only [TOKEN_STRING, TOKEN_NULL, TOKEN_BOOL, TOKEN_INT, TOKEN_FLOAT, Nat.reduceEqDiff,
    if_false, if_true]
  simp only [decodeString]
  rw [readLen_tooBig n _ _ hlo hhi]
  simp [saveError, expect, ReadRune_ascii, ha, hb, DELIMITER_STRING_LEFT, DELIMITER_STRING_RIGHT,
    SEPARATOR_VALUES]

/-- C1 as stated fails above the ceiling: for the non-empty payload of
10737418241 bytes `A` (one more than UNSERIALIZABLE_OBJECT_MAX_LEN), readLen
records the error of a too big length and gives 0, so Decode returns nil and
that error, not the payload. -/
theorem C1_string_over_ceiling :
    List.replicate 10737418241 65 ≠ [] ∧
    Decode sampleEnv (NewUnserializer (encString (List.replicate 10737418241 65)))
      = .ok (.null, ⟨List.replicate 10737418239 65 ++ [34, 59], some (.tooBig 10737418241)⟩) := by
  have hrep : List.replicate 10737418241 65 = 65 :: 65 :: List.replicate 10737418239 65 := by
    rw [show (10737418241 : Nat) = 10737418239 + 1 + 1 from rfl, List.replicate_succ,
      List.replicate_succ]
  rw [hrep]
  refine ⟨List.cons_ne_nil _ _, ?_⟩
  exact Decode_string_tooBig sampleEnv 65 65 (List.replicate 10737418239 65) 10737418241
    (by decide) (by decide) (by rw [List.length_cons, List.length_cons, List.length_replicate])
    (by simp [UNSERIALIZABLE_OBJECT_MAX_LEN]) (by decide)


end Primitives

/-! ## Scalars -/

section Scalars
open Unserializer

theorem itoa_ascii (n : Int) (c : Nat) (h : c ∈ itoa n) : c < 128 ∧ c ≠ SEPARATOR_VALUES := by
  unfold itoa at h
  split at h
  · rcases List.mem_cons.mp h with h | h
    · subst h; simp [SEPARATOR_VALUES]
    · have := decimal_digit _ _ h
      simp [SEPARATOR_VALUES]; omega
  · have := decimal_digit _ _ h
    simp [SEPARATOR_VALUES]; omega

theorem Decode_null (E : Env) (rest : Bytes) (e : Option Error) (fuel : Nat) :
    DecodeFuel E (fuel + 1) ⟨encNull ++ rest, e⟩ = .ok (.null, ⟨rest, e⟩) := by
  simp [DecodeFuel, encNull, ReadRune_ascii, TOKEN_NULL, decodeNull, expect, SEPARATOR_VALUES]

theorem Decode_bool (E : Env) (b : Bool) (rest : Bytes) (e : Option Error) (fuel : Nat) :
    DecodeFuel E (fuel + 1) ⟨encBool b ++ rest, e⟩ = .ok (.bool b, ⟨rest, e⟩) := by
  cases b <;>
    simp [DecodeFuel, encBool, ReadRune_ascii, TOKEN_NULL, TOKEN_BOOL, decodeBool, expect,
      SEPARATOR_VALUES, SEPARATOR_VALUE_TYPE]

theorem decodeNumber_int (E : Env) (n : Int) (rest : Bytes) (e : Option Error)
    (hlo : -(2 : Int) ^ 63 ≤ n) (hhi : n < (2 : Int) ^ 63) :
    decodeNumber E false ⟨SEPARATOR_VALUE_TYPE :: (itoa n ++ SEPARATOR_VALUES :: rest), e⟩
      = (.int n, ⟨rest, e⟩) := by
  simp only [decodeNumber]
  rw [expect_ascii _ _ _ (by simp [SEPARATOR_VALUE_TYPE]),
    readUntil_ascii _ _ _ _ (itoa_ascii n) (by simp [SEPARATOR_VALUES])]
  simp [Atoi_itoa n hlo hhi]

theorem Decode_int (E : Env) (n : Int) (rest : Bytes) (e : Option Error) (fuel : Nat)
    (hlo : -(2 : Int) ^ 63 ≤ n) (hhi : n < (2 : Int) ^ 63) :
    DecodeFuel E (fuel + 1) ⟨encInt n ++ rest, e⟩ = .ok (.int n, ⟨rest, e⟩) := by
  simp only [DecodeFuel, encInt, List.cons_append, List.append_assoc, List.singleton_append,
    List.nil_append, ReadRune_ascii TOKEN_INT _ (by simp [TOKEN_INT])]
  simp only [TOKEN_NULL, TOKEN_BOOL, TOKEN_INT, Nat.reduceEqDiff, if_false, if_true]
  rw [decodeNumber_int E n rest e hlo hhi]

theorem Decode_float (E : Env) (txt : Bytes) (bits : Nat) (rest : Bytes) (e : Option Error)
    (fuel : Nat) (htxt : ∀ c ∈ txt, c < 128 ∧ c ≠ SEPARATOR_VALUES)
    (hpf : E.ParseFloat txt = (bits, none)) :
    DecodeFuel E (fuel + 1) ⟨encFloat txt ++ rest, e⟩ = .ok (.float bits, ⟨rest, e⟩) := by
  simp only [DecodeFuel, encFloat, List.cons_append, List.append_assoc, List.singleton_append,
    List.nil_append, ReadRune_ascii TOKEN_FLOAT _ (by simp [TOKEN_FLOAT])]
  simp only [TOKEN_NULL, TOKEN_BOOL, TOKEN_INT, TOKEN_FLOAT, Nat.reduceEqDiff, if_false, if_true]
  simp only [decodeNumber]
  rw [expect_ascii _ _ _ (by simp [SEPARATOR_VALUE_TYPE]),
    readUntil_ascii _ _ _ _ htxt (by simp [SEPARATOR_VALUES])]
  simp [hpf]

theorem Decode_reference (E : Env) (token : Rune)
    (ht : token = TOKEN_REFERENCE ∨ token = TOKEN_REFERENCE_OBJECT) (digits rest : Bytes)
    (e : Option Error) (fuel : Nat) (hd : ∀ c ∈ digits, c < 128 ∧ c ≠ SEPARATOR_VALUES) :
    DecodeFuel E (fuel + 1) ⟨encReference token digits ++ rest, e⟩ = .ok (.null, ⟨rest, e⟩) := by
  have hdec : decodeReference ⟨SEPARATOR_VALUE_TYPE :: (digits ++ SEPARATOR_VALUES :: rest), e⟩
      = (.null, ⟨rest, e⟩) := by
    simp only [decodeReference]
    rw [expect_ascii _ _ _ (by simp [SEPARATOR_VALUE_TYPE]),
      readUntil_ascii _ _ _ _ hd (by simp [SEPARATOR_VALUES])]
  rcases ht with ht | ht <;> subst ht
  · simp only [DecodeFuel, encReference, List.cons_append, List.append_assoc,
      List.singleton_append, List.nil_append, ReadRune_ascii TOKEN_REFERENCE _ (by simp [TOKEN_REFERENCE])]
    simp only [TOKEN_NULL, TOKEN_BOOL, TOKEN_INT, TOKEN_FLOAT, TOKEN_STRING, TOKEN_ARRAY,
      TOKEN_OBJECT, TOKEN_OBJECT_SERIALIZED, TOKEN_REFERENCE, Nat.reduceEqDiff, if_false,
      true_or, if_true] at hdec ⊢
    rw [hdec]
  · simp only [DecodeFuel, encReference, List.cons_append, List.append_assoc,
      List.singleton_append, List.nil_append,
      ReadRune_ascii TOKEN_REFERENCE_OBJECT _ (by simp [TOKEN_REFERENCE_OBJECT])]
    simp only [TOKEN_NULL, TOKEN_BOOL, TOKEN_INT, TOKEN_FLOAT, TOKEN_STRING, TOKEN_ARRAY,
      TOKEN_OBJECT, TOKEN_OBJECT_SERIALIZED, TOKEN_REFERENCE, TOKEN_REFERENCE_OBJECT,
      Nat.reduceEqDiff, if_false, or_true, if_true] at hdec ⊢
    rw [hdec]

/-- C10: Decode returns a nil error and exactly nil on `N;`, false on `b:0;`,
true on `b:1;`, and the int `n` on `i:<decimal text of n>;` for every signed
64-bit integer `n`; each input is read to its end. -/
theorem C10_scalars (E : Env) (n : Int) (hlo : -(2 : Int) ^ 63 ≤ n) (hhi : n < (2 : Int) ^ 63) :
    Decode E (NewUnserializer encNull) = .ok (.null, ⟨[], none⟩) ∧
    Decode E (NewUnserializer (encBool false)) = .ok (.bool false, ⟨[], none⟩) ∧
    Decode E (NewUnserializer (encBool true)) = .ok (.bool true, ⟨[], none⟩) ∧
    Decode E (NewUnserializer (encInt n)) = .ok (.int n, ⟨[], none⟩) := by
  refine ⟨?_, ?_, ?_, ?_⟩
  · simpa using Decode_null E [] none encNull.length
  · simpa using Decode_bool E false [] none (encBool false).length
  · simpa using Decode_bool E true [] none (encBool true).length
  · simpa [Decode, NewUnserializer] using Decode_int E n [] none (encInt n).length hlo hhi

/-- C10, an instance: the smallest 64-bit integer. -/
theorem C10_scalars_witness :
    (-(2 : Int) ^ 63 ≤ -9223372036854775808 ∧ (-9223372036854775808 : Int) < (2 : Int) ^ 63) ∧
    Decode sampleEnv (NewUnserializer (encInt (-9223372036854775808)))
      = .ok (.int (-9223372036854775808), ⟨[], none⟩) :=
  ⟨⟨by norm_num, by norm_num⟩,
    (C10_scalars sampleEnv (-9223372036854775808) (by norm_num) (by norm_num)).2.2.2⟩

end Scalars

/-! ## Arrays, objects and the well-formed encodings -/

section WellFormed
open Unserializer

theorem IsKey.hashable {k : Bytes} {kv : Value} (h : IsKey k kv) : hashable kv = true := by
  cases h with
  | int n hlo hhi => rfl
  | str p hp => unfold strValue; split <;> rfl

theorem IsKey.length_pos {k : Bytes} {kv : Value} (h : IsKey k kv) : 0 < k.length := by
  cases h <;> simp [encInt, encString]

theorem Decode_isKey (E : Env) {k : Bytes} {kv : Value} (h : IsKey k kv) (rest : Bytes)
    (e : Option Error) (fuel : Nat) :
    DecodeFuel E (fuel + 1) ⟨k ++ rest, e⟩ = .ok (kv, ⟨rest, e⟩) := by
  cases h with
  | int n hlo hhi => exact Decode_int E n rest e fuel hlo hhi
  | str p hp => exact Decode_string E p rest e hp fuel

theorem mapassign_hashable (val : PArray) (k v : Value) (h : hashable k = true) :
    mapassign val k v = .ok (put val k v) := by
  unfold mapassign put
  rw [if_pos h]
  cases replaceEntry k v val <;> rfl

theorem saveError_some (r : Bytes) (x err : Error) :
    saveError ⟨r, some x⟩ err = ⟨r, some x⟩ := rfl

/-- The loop of decodeArray over the texts of well-formed pairs, in a state
whose error slot is `e`: without an error every pair is assigned in turn; once
an error is recorded no pair is assigned; in both cases the cursor ends right
after the last pair. -/
theorem decodeArrayLoop_pairs (dec : Unserializer → Except Fault (Value × Unserializer))
    (e : Option Error) (items : List Pair)
    (hkey : ∀ x ∈ items, ∀ (t : Bytes), dec ⟨x.key ++ t, e⟩ = .ok (x.kval, ⟨t, e⟩))
    (hhash : ∀ x ∈ items, hashable x.kval = true)
    (hval : ∀ x ∈ items, ∀ (t : Bytes),
      ∃ v', dec ⟨x.val ++ t, e⟩ = .ok (v', ⟨t, e⟩) ∧ (e = none → v' = x.vval)) :
    ∀ (val : PArray) (t : Bytes),
      decodeArrayLoop dec items.length val ⟨encPairs items ++ t, e⟩
        = .ok (if e = none then putAll val items else val, ⟨t, e⟩) := by
  induction items with
  | nil =>
    intro val t
    simp [decodeArrayLoop, encPairs, putAll]
  | cons x xs ih =>
    intro val t
    have ih' := ih (fun y hy => hkey y (List.mem_cons_of_mem _ hy))
      (fun y hy => hhash y (List.mem_cons_of_mem _ hy))
      (fun y hy => hval y (List.mem_cons_of_mem _ hy))
    obtain ⟨v', hv', hvv⟩ := hval x (List.mem_cons_self _ _) (encPairs xs ++ t)
    simp only [List.length_cons, decodeArrayLoop, encPairs, List.append_assoc,
      hkey x (List.mem_cons_self _ _), hv']
    cases e with
    | none =>
      simp only [and_self, if_true]
      rw [mapassign_hashable _ _ _ (hhash x (List.mem_cons_self _ _)), hvv rfl]
      simp only [ih' _ t, if_true, putAll]
    | some err =>
      have hne : ¬ ((some err : Option Error) = none ∧ (some err : Option Error) = none) := by
        simp
      rw [if_neg hne, saveError_some, ih' val t]
      simp

theorem encPairs_length_ge (items : List Pair) (x : Pair) (hx : x ∈ items) :
    x.key.length + x.val.length ≤ (encPairs items).length := by
  induction items with
  | nil => simp at hx
  | cons y ys ih =>
    simp only [encPairs, List.length_append]
    rcases List.mem_cons.mp hx with h | h
    · subst h; omega
    · have := ih h; omega

/-- The method decodeArray after the tag, on `:<n>:{<pairs>}` with `n` the
number of the pairs. -/
theorem decodeArrayMap_counted (dec : Unserializer → Except Fault (Value × Unserializer))
    (e : Option Error) (items : List Pair)
    (hn : (items.length : Int) ≤ UNSERIALIZABLE_OBJECT_MAX_LEN)
    (hkey : ∀ x ∈ items, ∀ (t : Bytes), dec ⟨x.key ++ t, e⟩ = .ok (x.kval, ⟨t, e⟩))
    (hhash : ∀ x ∈ items, hashable x.kval = true)
    (hval : ∀ x ∈ items, ∀ (t : Bytes),
      ∃ v', dec ⟨x.val ++ t, e⟩ = .ok (v', ⟨t, e⟩) ∧ (e = none → v' = x.vval))
    (t : Bytes) :
    decodeArrayMap dec ⟨encCounted items.length (encPairs items) ++ t, e⟩
      = .ok (if e = none then putAll [] items else [], ⟨t, e⟩) := by
  simp only [decodeArrayMap, encCounted, List.cons_append, List.append_assoc,
    List.singleton_append]
  rw [readLen_decimal _ _ _ hn]
  simp only [expect_ascii DELIMITER_OBJECT_LEFT _ _ (by simp [DELIMITER_OBJECT_LEFT]),
    Int.toNat_ofNat]
  rw [decodeArrayLoop_pairs dec e items hkey hhash hval]
  simp only [expect_ascii DELIMITER_OBJECT_RIGHT _ _ (by simp [DELIMITER_OBJECT_RIGHT]),
    List.nil_append]

theorem readClassName_quoted (cls rest : Bytes) (e : Option Error)
    (hc : (cls.length : Int) ≤ UNSERIALIZABLE_OBJECT_MAX_LEN) :
    readClassName ⟨encQuoted DELIMITER_STRING_LEFT DELIMITER_STRING_RIGHT cls ++ rest, e⟩
      = .ok (cls, ⟨rest, e⟩) := by
  have h := decodeString_quoted DELIMITER_STRING_LEFT DELIMITER_STRING_RIGHT
    (by simp [DELIMITER_STRING_LEFT]) (by simp [DELIMITER_STRING_RIGHT]) cls rest e false hc
  simp only [Bool.false_eq_true, if_false] at h
  simp only [readClassName, h, strValue]
  by_cases hnil : cls = []
  · simp [hnil]
  · simp [hnil]

/-- The method decodeSerialized after the tag, on a class name and a payload
with exact lengths: the payload is taken verbatim and the hook, when it
applies, is run once on it; its value is stored and its error recorded. -/
theorem decodeSerialized_enc (E : Env) (cls payload rest : Bytes) (e : Option Error)
    (hc : (cls.length : Int) ≤ UNSERIALIZABLE_OBJECT_MAX_LEN)
    (hp : (payload.length : Int) ≤ UNSERIALIZABLE_OBJECT_MAX_LEN) :
    decodeSerialized E ⟨encQuoted DELIMITER_STRING_LEFT DELIMITER_STRING_RIGHT cls ++
        (encQuoted DELIMITER_OBJECT_LEFT DELIMITER_OBJECT_RIGHT payload ++ rest), e⟩
      = match hookResult E payload with
        | .error p => .error p
        | .ok (v, some err) => .ok (.objectSerialized cls payload v, saveError ⟨rest, e⟩ err)
        | .ok (v, none) => .ok (.objectSerialized cls payload v, ⟨rest, e⟩) := by
  have h := decodeString_quoted DELIMITER_OBJECT_LEFT DELIMITER_OBJECT_RIGHT
    (by simp [DELIMITER_OBJECT_LEFT]) (by simp [DELIMITER_OBJECT_RIGHT]) payload rest e false hp
  simp only [Bool.false_eq_true, if_false] at h
  simp only [decodeSerialized, readClassName_quoted cls _ e hc, h, hookResult]
  have hdata : (match strValue payload with
      | .str d => d
      | _ => ([] : Bytes)) = payload := by
    unfold strValue
    by_cases hnil : payload = []
    · simp [hnil]
    · simp [hnil]
  rw [hdata]
  cases E.DecodeFunc with
  | none => rfl
  | some f =>
    by_cases hnil : payload = []
    · simp [hnil]
    · simp only [ne_eq, hnil, not_false_eq_true, if_true]

end WellFormed

section Central
open Unserializer

theorem encCounted_length (n : Nat) (body : Bytes) :
    body.length + 4 ≤ (encCounted n body).length := by
  have := List.length_pos.mpr (decimal_ne_nil n)
  simp only [encCounted, List.length_cons, List.length_append, List.length_nil]
  omega

theorem DecodeFuel_array (E : Env) (fuel : Nat) (rest : Bytes) (e : Option Error) :
    DecodeFuel E (fuel + 1) ⟨TOKEN_ARRAY :: rest, e⟩
      = decodeArray (DecodeFuel E fuel) ⟨rest, e⟩ := by
  simp only [DecodeFuel, ReadRune_ascii TOKEN_ARRAY _ (by simp [TOKEN_ARRAY])]
  simp only [TOKEN_NULL, TOKEN_BOOL, TOKEN_INT, TOKEN_FLOAT, TOKEN_STRING, TOKEN_ARRAY,
    Nat.reduceEqDiff, if_false, if_true]

theorem DecodeFuel_object (E : Env) (fuel : Nat) (rest : Bytes) (e : Option Error) :
    DecodeFuel E (fuel + 1) ⟨TOKEN_OBJECT :: rest, e⟩
      = decodeObject (DecodeFuel E fuel) ⟨rest, e⟩ := by
  simp only [DecodeFuel, ReadRune_ascii TOKEN_OBJECT _ (by simp [TOKEN_OBJECT])]
  simp only [TOKEN_NULL, TOKEN_BOOL, TOKEN_INT, TOKEN_FLOAT, TOKEN_STRING, TOKEN_ARRAY,
    TOKEN_OBJECT, Nat.reduceEqDiff, if_false, if_true]

theorem DecodeFuel_serialized (E : Env) (fuel : Nat) (rest : Bytes) (e : Option Error) :
    DecodeFuel E (fuel + 1) ⟨TOKEN_OBJECT_SERIALIZED :: rest, e⟩
      = decodeSerialized E ⟨rest, e⟩ := by
  simp only [DecodeFuel,
    ReadRune_ascii TOKEN_OBJECT_SERIALIZED _ (by simp [TOKEN_OBJECT_SERIALIZED])]
  simp only [TOKEN_NULL, TOKEN_BOOL, TOKEN_INT, TOKEN_FLOAT, TOKEN_STRING, TOKEN_ARRAY,
    TOKEN_OBJECT, TOKEN_OBJECT_SERIALIZED, Nat.reduceEqDiff, if_false, if_true]

theorem DecodeFuel_splArray (E : Env) (htags : splTagsOk E) (fuel : Nat) (rest : Bytes)
    (e : Option Error) :
    DecodeFuel E (fuel + 1) ⟨E.TOKEN_SPL_ARRAY :: rest, e⟩
      = decodeSplArray E (DecodeFuel E fuel) ⟨rest, e⟩ := by
  obtain ⟨h1, _, h3⟩ := htags
  simp only [List.mem_cons, List.mem_singleton, not_or, List.not_mem_nil, or_false] at h3
  obtain ⟨n1, n2, n3, n4, n5, n6, n7, n8, n9, n10⟩ := h3
  simp only [DecodeFuel, ReadRune_ascii E.TOKEN_SPL_ARRAY _ h1, if_neg n1, if_neg n2, if_neg n3,
    if_neg n4, if_neg n5, if_neg n6, if_neg n7, if_neg n8, n9, n10, or_self, if_false, if_true]

/-- Decode on a well-formed encoding followed by any bytes `t`, with enough
budget for the nesting: the cursor stops right before `t` and the error slot is
left as it was; when no error was recorded before, the value is the one of the
encoding. In a state that already holds an error the SPL-array form is left
out, since decodeSplArray then returns before its properties. -/
theorem DecodeFuel_encodes (E : Env) (spl : Bool) {enc : Bytes} {v : Value}
    (h : Encodes E spl enc v) :
    ∀ (fuel : Nat) (t : Bytes) (e : Option Error), enc.length ≤ fuel →
      (e = none ∨ spl = false) →
      ∃ v', DecodeFuel E fuel ⟨enc ++ t, e⟩ = .ok (v', ⟨t, e⟩) ∧ (e = none → v' = v) := by
  induction h with
  | null =>
    intro fuel t e hf _
    cases fuel with
    | zero => simp [encNull] at hf
    | succ f => exact ⟨_, Decode_null E t e f, fun _ => rfl⟩
  | bool b =>
    intro fuel t e hf _
    cases fuel with
    | zero => simp [encBool] at hf
    | succ f => exact ⟨_, Decode_bool E b t e f, fun _ => rfl⟩
  | int n hlo hhi =>
    intro fuel t e hf _
    cases fuel with
    | zero => simp [encInt] at hf
    | succ f => exact ⟨_, Decode_int E n t e f hlo hhi, fun _ => rfl⟩
  | float txt bits htxt hpf =>
    intro fuel t e hf _
    cases fuel with
    | zero => simp [encFloat] at hf
    | succ f => exact ⟨_, Decode_float E txt bits t e f htxt hpf, fun _ => rfl⟩
  | str p hp =>
    intro fuel t e hf _
    cases fuel with
    | zero => simp [encString] at hf
    | succ f => exact ⟨_, Decode_string E p t e hp f, fun _ => rfl⟩
  | array items hn hk hv ih =>
    intro fuel t e hf hs
    cases fuel with
    | zero => simp [encArray] at hf
    | succ f =>
      have hlen := encCounted_length items.length (encPairs items)
      simp only [encArray, List.length_cons] at hf
      cases f with
      | zero => omega
      | succ f' =>
        have hmap := decodeArrayMap_counted (DecodeFuel E (f' + 1)) e items hn
          (fun x hx t' => Decode_isKey E (hk x hx) t' e f')
          (fun x hx => (hk x hx).hashable)
          (fun x hx t' => ih x hx (f' + 1) t' e
            (by have := encPairs_length_ge items x hx; omega) hs) t
        refine ⟨.array (if e = none then putAll [] items else []), ?_, ?_⟩
        · rw [encArray, List.cons_append, DecodeFuel_array]
          simp only [decodeArray, hmap]
        · intro he; simp [he]
  | object cls hc items hn hk hv ih =>
    intro fuel t e hf hs
    cases fuel with
    | zero => simp [encObject] at hf
    | succ f =>
      have hlen := encCounted_length items.length (encPairs items)
      simp only [encObject, List.length_cons, List.length_append] at hf
      cases f with
      | zero => omega
      | succ f' =>
        have hmap := decodeArrayMap_counted (DecodeFuel E (f' + 1)) e items hn
          (fun x hx t' => Decode_isKey E (hk x hx) t' e f')
          (fun x hx => (hk x hx).hashable)
          (fun x hx t' => ih x hx (f' + 1) t' e
            (by have := encPairs_length_ge items x hx; omega) hs) t
        refine ⟨.object cls (if e = none then putAll [] items else []), ?_, ?_⟩
        · rw [encObject, List.cons_append, List.append_assoc, DecodeFuel_object]
          simp only [decodeObject, readClassName_quoted cls _ e hc, hmap]
        · intro he; simp [he]
  | serialized cls payload v hc hp hhook =>
    intro fuel t e hf _
    cases fuel with
    | zero => simp [encSerialized] at hf
    | succ f =>
      refine ⟨.objectSerialized cls payload v, ?_, fun _ => rfl⟩
      rw [encSerialized, List.cons_append, List.append_assoc, DecodeFuel_serialized,
        decodeSerialized_enc E cls payload t e hc hp, hhook]
  | reference token ht digits hd =>
    intro fuel t e hf _
    cases fuel with
    | zero => simp [encReference] at hf
    | succ f =>
      refine ⟨_, Decode_reference E token ht digits t e f ?_, fun _ => rfl⟩
      intro c hc
      have := hd c hc
      simp [SEPARATOR_VALUES]; omega
  | splArray hspl htags flags hlo hhi a p av pv ha hp iha ihp =>
    intro fuel t e hf hs
    have he : e = none := by
      rcases hs with hs | hs
      · exact hs
      · rw [hspl] at hs; exact absurd hs (by simp)
    subst he
    cases fuel with
    | zero => simp [encSplArray] at hf
    | succ f =>
      simp only [encSplArray, List.length_cons, List.length_append] at hf
      have h2 := htags.2.1
      obtain ⟨av', hav, hav'⟩ := iha f
        (SEPARATOR_VALUES :: E.TOKEN_SPL_ARRAY_MEMBERS :: SEPARATOR_VALUE_TYPE :: (p ++ t)) none
        (by omega) (Or.inl rfl)
      obtain ⟨pv', hpv, hpv'⟩ := ihp f t none (by omega) (Or.inl rfl)
      refine ⟨.splArray flags av pv, ?_, fun _ => rfl⟩
      rw [encSplArray, List.cons_append, DecodeFuel_splArray E htags]
      simp only [List.cons_append, List.append_assoc]
      simp only [decodeSplArray,
        expect_ascii SEPARATOR_VALUE_TYPE _ _ (by simp [SEPARATOR_VALUE_TYPE]),
        expect_ascii TOKEN_INT _ _ (by simp [TOKEN_INT]),
        decodeNumber_int E flags _ none hlo hhi, hav,
        expect_ascii SEPARATOR_VALUES _ _ (by simp [SEPARATOR_VALUES]),
        expect_ascii E.TOKEN_SPL_ARRAY_MEMBERS _ _ h2, hpv, hav' rfl, hpv' rfl]

end Central

section ArrayLookup
open Unserializer

/-- C2: for every well-formed encoding `enc` of one value (any tag, any
nesting, the value being `v`) and every byte string `t`, Decode on a reader
over `enc` followed by `t` returns the same value and nil error as on `enc`
alone, and the unread remainder is exactly `t`. -/
theorem C2_one_value_consumed (E : Env) {enc : Bytes} {v : Value} (h : Encodes E true enc v)
    (t : Bytes) :
    Decode E (NewUnserializer (enc ++ t)) = .ok (v, ⟨t, none⟩) ∧
    Decode E (NewUnserializer enc) = .ok (v, ⟨[], none⟩) ∧
    (enc ++ t).drop enc.length = t := by
  refine ⟨?_, ?_, by simp⟩
  · obtain ⟨v', hd, hv⟩ := DecodeFuel_encodes E true h ((enc ++ t).length + 1) t none
      (by simp only [List.length_append]; omega) (Or.inl rfl)
    rw [hv rfl] at hd
    exact hd
  · obtain ⟨v', hd, hv⟩ := DecodeFuel_encodes E true h (enc.length + 1) [] none
      (by omega) (Or.inl rfl)
    rw [hv rfl, List.append_nil] at hd
    exact hd

theorem keyEq_of_keys_ne {k1 k2 : Bytes} {v1 v2 : Value} (h1 : IsKey k1 v1) (h2 : IsKey k2 v2)
    (hne : k1 ≠ k2) : keyEq v1 v2 = false := by
  cases h1 with
  | int n1 _ _ =>
    cases h2 with
    | int n2 _ _ =>
      have : n1 ≠ n2 := fun h => hne (by rw [h])
      simp [keyEq, this]
    | str p2 _ => unfold strValue; split <;> rfl
  | str p1 _ =>
    cases h2 with
    | int n2 _ _ => unfold strValue; split <;> rfl
    | str p2 _ =>
      have : p1 ≠ p2 := fun h => hne (by rw [h])
      unfold strValue
      by_cases e1 : p1 = [] <;> by_cases e2 : p2 = []
      · exact absurd (e1.trans e2.symm) this
      · simp [e1, e2, keyEq]
      · simp [e1, e2, keyEq]
      · simp [e1, e2, keyEq, this]

theorem keyEq_self_of_isKey {k : Bytes} {v : Value} (h : IsKey k v) : keyEq v v = true := by
  cases h with
  | int n _ _ => simp [keyEq]
  | str p _ => unfold strValue; split <;> simp [keyEq]

theorem replaceEntry_none (k v : Value) (m : PArray)
    (h : ∀ en ∈ m, keyEq en.1 k = false) : replaceEntry k v m = none := by
  induction m with
  | nil => rfl
  | cons en rest ih =>
    obtain ⟨k', v'⟩ := en
    have h1 : keyEq k' k = false := h (k', v') (List.mem_cons_self _ _)
    simp only [replaceEntry, h1, Bool.false_eq_true, if_false,
      ih (fun en hen => h en (List.mem_cons_of_mem _ hen)), Option.map_none']

theorem putAll_distinct (items : List Pair)
    (hk : ∀ x ∈ items, IsKey x.key x.kval) (hd : (items.map Pair.key).Nodup) :
    ∀ (m : PArray), (∀ x ∈ items, ∀ en ∈ m, keyEq en.1 x.kval = false) →
      putAll m items = m ++ items.map (fun x => (x.kval, x.vval)) := by
  induction items with
  | nil => intro m _; simp [putAll]
  | cons x xs ih =>
    intro m hm
    simp only [List.map_cons, List.nodup_cons, List.mem_map, not_exists, not_and] at hd
    have hx := hk x (List.mem_cons_self _ _)
    have hnone := replaceEntry_none x.kval x.vval m (hm x (List.mem_cons_self _ _))
    simp only [putAll, put, hnone]
    rw [ih (fun y hy => hk y (List.mem_cons_of_mem _ hy)) hd.2]
    · simp
    · intro y hy en hen
      rcases List.mem_append.mp hen with hen | hen
      · exact hm y (List.mem_cons_of_mem _ hy) en hen
      · simp only [List.mem_singleton] at hen
        subst hen
        exact keyEq_of_keys_ne hx (hk y (List.mem_cons_of_mem _ hy))
          (fun h => hd.1 y hy h.symm)

theorem mapaccess_distinct (items : List Pair)
    (hk : ∀ x ∈ items, IsKey x.key x.kval) (hd : (items.map Pair.key).Nodup) :
    ∀ x ∈ items, mapaccess (items.map (fun y => (y.kval, y.vval))) x.kval = some x.vval := by
  induction items with
  | nil => intro x hx; simp at hx
  | cons y ys ih =>
    intro x hx
    simp only [List.map_cons, List.nodup_cons, List.mem_map, not_exists, not_and] at hd
    rcases List.mem_cons.mp hx with h | h
    · subst h
      simp [mapaccess, keyEq_self_of_isKey (hk x (List.mem_cons_self _ _))]
    · have hne : keyEq y.kval x.kval = false :=
        keyEq_of_keys_ne (hk y (List.mem_cons_self _ _)) (hk x hx) (fun e => hd.1 x h e.symm)
      simp only [List.map_cons, mapaccess, hne, Bool.false_eq_true, if_false]
      exact ih (fun z hz => hk z (List.mem_cons_of_mem _ hz)) hd.2 x h

/-- C3: for every well-formed array encoding `a:<n>:{k1 v1 ... kn vn}` whose
keys are pairwise distinct int or string encodings and whose values are
well-formed encodings (nested arrays included), Decode returns a nil error and
an Array with exactly `n` entries in which looking up the decoded key of a pair
gives the decoded value of that pair. -/
theorem C3_array_entries (E : Env) (items : List Pair)
    (hn : (items.length : Int) ≤ UNSERIALIZABLE_OBJECT_MAX_LEN)
    (hk : ∀ x ∈ items, IsKey x.key x.kval) (hv : ∀ x ∈ items, Encodes E true x.val x.vval)
    (hd : (items.map Pair.key).Nodup) :
    ∃ m : PArray,
      Decode E (NewUnserializer (encArray items.length (encPairs items)))
        = .ok (.array m, ⟨[], none⟩) ∧
      m.length = items.length ∧
      ∀ x ∈ items,
        Decode E (NewUnserializer x.key) = .ok (x.kval, ⟨[], none⟩) ∧
        Decode E (NewUnserializer x.val) = .ok (x.vval, ⟨[], none⟩) ∧
        mapaccess m x.kval = some x.vval := by
  have hput := putAll_distinct items hk hd [] (fun _ _ en hen => by simp at hen)
  rw [List.nil_append] at hput
  refine ⟨items.map (fun x => (x.kval, x.vval)), ?_, by simp, ?_⟩
  · obtain ⟨v', hdec, hval⟩ := DecodeFuel_encodes E true (Encodes.array items hn hk hv)
      ((encArray items.length (encPairs items)).length + 1) [] none (by omega) (Or.inl rfl)
    rw [hval rfl, List.append_nil, hput] at hdec
    exact hdec
  · intro x hx
    refine ⟨?_, ?_, mapaccess_distinct items hk hd x hx⟩
    · have := Decode_isKey E (hk x hx) [] none x.key.length
      rw [List.append_nil] at this
      exact this
    · obtain ⟨v', hdec, hval⟩ := DecodeFuel_encodes E true (hv x hx) (x.val.length + 1) [] none
        (by omega) (Or.inl rfl)
      rw [hval rfl, List.append_nil] at hdec
      exact hdec

end ArrayLookup

section Examples
open Unserializer

theorem isKey_pairTest1 : IsKey pairTest1.key pairTest1.kval :=
  IsKey.str (ascii "test1") (by decide)

theorem isKey_pairZeroFive : IsKey pairZeroFive.key pairZeroFive.kval :=
  IsKey.int 0 (by norm_num) (by norm_num)

theorem encodes_pairTest1 (E : Env) (spl : Bool) : Encodes E spl pairTest1.val pairTest1.vval :=
  Encodes.bool true

theorem encodes_pairZeroFive (E : Env) (spl : Bool) :
    Encodes E spl pairZeroFive.val pairZeroFive.vval :=
  Encodes.int 5 (by norm_num) (by norm_num)

theorem encodes_arrayTest1 (E : Env) (spl : Bool) :
    Encodes E spl (ascii "a:1:\x7bs:5:\"test1\";b:1;\x7d") (.array [(.str (ascii "test1"), .bool true)]) :=
  Encodes.array [pairTest1] (by decide)
    (fun x hx => by rw [List.mem_singleton.mp hx]; exact isKey_pairTest1)
    (fun x hx => by rw [List.mem_singleton.mp hx]; exact encodes_pairTest1 E spl)

/-- C2, an instance (TestDecodeMultipleArraysWithoutSemicolons): the first
array of `a:1:{s:5:"test1";b:1;}array2|a:1:{s:5:"test2";b:1;}` is decoded and
the reader is left right after its closing brace. -/
theorem C2_one_value_consumed_witness :
    Encodes sampleEnv true (ascii "a:1:\x7bs:5:\"test1\";b:1;\x7d")
      (.array [(.str (ascii "test1"), .bool true)]) ∧
    Decode sampleEnv (NewUnserializer
        (ascii "a:1:\x7bs:5:\"test1\";b:1;\x7d" ++ ascii "array2|a:1:\x7bs:5:\"test2\";b:1;\x7d"))
      = .ok (.array [(.str (ascii "test1"), .bool true)],
          ⟨ascii "array2|a:1:\x7bs:5:\"test2\";b:1;\x7d", none⟩) :=
  ⟨encodes_arrayTest1 sampleEnv true,
    (C2_one_value_consumed sampleEnv (encodes_arrayTest1 sampleEnv true)
      (ascii "array2|a:1:\x7bs:5:\"test2\";b:1;\x7d")).1⟩

/-- C3, an instance: `a:2:{s:5:"test1";b:1;i:0;i:5;}`. -/
theorem C3_array_entries_witness :
    encArray 2 (encPairs [pairTest1, pairZeroFive]) = ascii "a:2:\x7bs:5:\"test1\";b:1;i:0;i:5;\x7d" ∧
    ∃ m : PArray,
      Decode sampleEnv (NewUnserializer (encArray 2 (encPairs [pairTest1, pairZeroFive])))
        = .ok (.array m, ⟨[], none⟩) ∧
      m.length = 2 ∧
      ∀ x ∈ [pairTest1, pairZeroFive],
        Decode sampleEnv (NewUnserializer x.key) = .ok (x.kval, ⟨[], none⟩) ∧
        Decode sampleEnv (NewUnserializer x.val) = .ok (x.vval, ⟨[], none⟩) ∧
        mapaccess m x.kval = some x.vval :=
  ⟨by decide,
    C3_array_entries sampleEnv [pairTest1, pairZeroFive] (by decide)
      (fun x hx => by
        rcases List.mem_cons.mp hx with h | h
        · rw [h]; exact isKey_pairTest1
        · rw [List.mem_singleton.mp h]; exact isKey_pairZeroFive)
      (fun x hx => by
        rcases List.mem_cons.mp hx with h | h
        · rw [h]; exact encodes_pairTest1 sampleEnv true
        · rw [List.mem_singleton.mp h]; exact encodes_pairZeroFive sampleEnv true)
      (by decide)⟩

end Examples

section Objects
open Unserializer

theorem dropLeading_eq_some (pre s r : Bytes) : dropLeading pre s = some r ↔ s = pre ++ r := by
  induction pre generalizing s with
  | nil => simp [dropLeading, eq_comm]
  | cons a as ih =>
    cases s with
    | nil => simp [dropLeading]
    | cons b bs =>
      simp only [dropLeading, List.cons_append, List.cons.injEq]
      by_cases h : a = b
      · simp [h, ih]
      · simp [h]; intro h'; exact absurd h'.symm h

theorem demangle_inj (cls k1 k2 : Bytes) (h : demangle cls k1 = demangle cls k2) : k1 = k2 := by
  unfold demangle at h
  cases h1 : dropLeading [0, 42, 0] k1 with
  | some n1 =>
    cases h2 : dropLeading [0, 42, 0] k2 with
    | some n2 =>
      simp only [h1, h2, Prod.mk.injEq, true_and] at h
      rw [(dropLeading_eq_some _ _ _).mp h1, (dropLeading_eq_some _ _ _).mp h2, h]
    | none =>
      simp only [h1, h2] at h
      cases h3 : dropLeading (0 :: (cls ++ [0])) k2 <;> simp [h3] at h
  | none =>
    cases h2 : dropLeading [0, 42, 0] k2 with
    | some n2 =>
      simp only [h1, h2] at h
      cases h3 : dropLeading (0 :: (cls ++ [0])) k1 <;> simp [h3] at h
    | none =>
      simp only [h1, h2] at h
      cases h3 : dropLeading (0 :: (cls ++ [0])) k1 with
      | some n1 =>
        cases h4 : dropLeading (0 :: (cls ++ [0])) k2 with
        | some n2 =>
          simp only [h3, h4, Prod.mk.injEq, true_and] at h
          rw [(dropLeading_eq_some _ _ _).mp h3, (dropLeading_eq_some _ _ _).mp h4, h]
        | none => simp [h3, h4] at h
      | none =>
        cases h4 : dropLeading (0 :: (cls ++ [0])) k2 with
        | some n2 => simp [h3, h4] at h
        | none =>
          simp only [h3, h4, Prod.mk.injEq, true_and] at h
          exact h

theorem demangle_private (cls name : Bytes) (hstar : ∀ c ∈ cls, c ≠ 42) :
    demangle cls (0 :: (cls ++ 0 :: name)) = (.Private, name) := by
  have h1 : dropLeading [0, 42, 0] (0 :: (cls ++ 0 :: name)) = none := by
    cases cls with
    | nil => simp [dropLeading]
    | cons c cs =>
      have hc : ¬ (42 = c) := fun h => hstar c (List.mem_cons_self _ _) h.symm
      simp [dropLeading, hc]
  have h2 : dropLeading (0 :: (cls ++ [0])) (0 :: (cls ++ 0 :: name)) = some name :=
    (dropLeading_eq_some _ _ _).mpr (by simp)
  simp only [demangle, h1, h2]

theorem demangle_protected (cls name : Bytes) :
    demangle cls (0 :: 42 :: 0 :: name) = (.Protected, name) := by
  simp [demangle, dropLeading]

theorem demangle_public (cls name : Bytes) (h : name.head? ≠ some 0) :
    demangle cls name = (.Public, name) := by
  cases name with
  | nil => simp [demangle, dropLeading]
  | cons a as =>
    have ha : ¬ (0 = a) := fun e => h (by simp [e.symm])
    simp [demangle, dropLeading, ha]

theorem demangle_public_eq (cls stored name : Bytes)
    (h : demangle cls stored = (.Public, name)) : stored = name := by
  unfold demangle at h
  cases h1 : dropLeading [0, 42, 0] stored with
  | some n => simp [h1] at h
  | none =>
    cases h2 : dropLeading (0 :: (cls ++ [0])) stored with
    | some n => simp [h1, h2] at h
    | none => simpa [h1, h2] using h

theorem split_unique (c : Nat) (ds ds' r r' : Bytes) (h1 : ∀ x ∈ ds, x ≠ c)
    (h2 : ∀ x ∈ ds', x ≠ c) (h : ds ++ c :: r = ds' ++ c :: r') : ds = ds' ∧ r = r' := by
  induction ds generalizing ds' with
  | nil =>
    cases ds' with
    | nil => simpa using h
    | cons y ys =>
      simp only [List.nil_append, List.cons_append, List.cons.injEq] at h
      exact absurd h.1.symm (h2 y (List.mem_cons_self _ _))
  | cons x xs ih =>
    cases ds' with
    | nil =>
      simp only [List.nil_append, List.cons_append, List.cons.injEq] at h
      exact absurd h.1 (h1 x (List.mem_cons_self _ _))
    | cons y ys =>
      simp only [List.cons_append, List.cons.injEq] at h
      obtain ⟨e1, e2⟩ := ih ys (fun z hz => h1 z (List.mem_cons_of_mem _ hz))
        (fun z hz => h2 z (List.mem_cons_of_mem _ hz)) h.2
      exact ⟨by rw [h.1, e1], e2⟩

theorem encString_inj (p q : Bytes) (h : encString p = encString q) : p = q := by
  simp only [encString, encQuoted, List.cons_append, List.append_assoc, List.cons.injEq,
    true_and] at h
  have hd : ∀ n, ∀ x ∈ decimal n, x ≠ SEPARATOR_VALUE_TYPE := by
    intro n x hx
    have := decimal_digit n x hx
    simp [SEPARATOR_VALUE_TYPE]; omega
  have h2 := (split_unique _ _ _ _ _ (hd _) (hd _) h).2
  simp only [List.cons.injEq, true_and] at h2
  exact List.append_cancel_right h2

theorem isKey_encString {p : Bytes} {kv : Value} (h : IsKey (encString p) kv) :
    kv = strValue p ∧ (p.length : Int) ≤ UNSERIALIZABLE_OBJECT_MAX_LEN := by
  generalize hk : encString p = k at h
  cases h with
  | int n _ _ => simp [encString, encInt, TOKEN_STRING, TOKEN_INT] at hk
  | str q hq =>
    have := encString_inj p q hk
    subst this
    exact ⟨rfl, hq⟩

theorem isKey_str {k p : Bytes} (h : IsKey k (.str p)) : k = encString p := by
  generalize hv : Value.str p = kv at h
  cases h with
  | int n _ _ => cases hv
  | str q _ =>
    unfold strValue at hv
    split at hv
    · cases hv
    · cases hv; rfl

/-- A member stored under a non-empty name is found by the accessor of the
visibility its stored name demangles to. -/
theorem getMember_found (vis : Visibility) (cls : Bytes) (items : List Pair)
    (hk : ∀ x ∈ items, IsKey x.key x.kval) (hd : (items.map Pair.key).Nodup) :
    ∀ x ∈ items, ∀ (stored name : Bytes), x.key = encString stored → stored ≠ [] →
      demangle cls stored = (vis, name) →
      getMember vis cls (items.map (fun y => (y.kval, y.vval))) name = some x.vval := by
  induction items with
  | nil => intro x hx; simp at hx
  | cons y ys ih =>
    intro x hx stored name hkey hne hdm
    simp only [List.map_cons, List.nodup_cons, List.mem_map, not_exists, not_and] at hd
    rcases List.mem_cons.mp hx with h | h
    · subst h
      have hkx := hk x (List.mem_cons_self _ _)
      rw [hkey] at hkx
      have hkv := (isKey_encString hkx).1
      simp only [strValue, if_neg hne] at hkv
      simp only [List.map_cons, hkv, getMember, hdm, if_true]
    · have hrec := ih (fun z hz => hk z (List.mem_cons_of_mem _ hz)) hd.2 x h stored name hkey
        hne hdm
      have hky := hk y (List.mem_cons_self _ _)
      simp only [List.map_cons]
      cases hyv : y.kval with
      | str p =>
        rw [hyv] at hky
        have hyk := isKey_str hky
        have hdiff : demangle cls p ≠ (vis, name) := by
          intro e
          have : p = stored := demangle_inj cls p stored (e.trans hdm.symm)
          exact hd.1 x h (by rw [hkey, hyk, this])
        simp only [getMember, if_neg hdiff]
        exact hrec
      | _ => simp only [getMember]; exact hrec

/-- No public member is found under a name that no member is stored under. -/
theorem getMember_public_none (cls : Bytes) (items : List Pair)
    (hk : ∀ x ∈ items, IsKey x.key x.kval) (name : Bytes)
    (hno : ∀ x ∈ items, x.key ≠ encString name) :
    getMember .Public cls (items.map (fun y => (y.kval, y.vval))) name = none := by
  induction items with
  | nil => rfl
  | cons y ys ih =>
    have hrec := ih (fun z hz => hk z (List.mem_cons_of_mem _ hz))
      (fun z hz => hno z (List.mem_cons_of_mem _ hz))
    have hky := hk y (List.mem_cons_self _ _)
    simp only [List.map_cons]
    cases hyv : y.kval with
    | str p =>
      rw [hyv] at hky
      have hyk := isKey_str hky
      have hdiff : demangle cls p ≠ (.Public, name) := by
        intro e
        have : p = name := demangle_public_eq cls p name e
        exact hno y (List.mem_cons_self _ _) (by rw [hyk, this])
      simp only [getMember, if_neg hdiff]
      exact hrec
    | _ => simp only [getMember]; exact hrec

/-- C4: for every well-formed object encoding `O:<len>:"<Class>":<m>:{...}`
(members under pairwise distinct names, the class name without `*`), Decode
returns an Object whose ClassName is `<Class>`; a member encoded under
`\0<Class>\0b` is returned by GetPrivate("b"), a member encoded under `\0*\0c`
by GetProtected("c"), a member encoded under a plain name `a` by
GetPublic("a"), each with its decoded value, and GetPublic of a name under
which no member is encoded (such as the `b` of a private member only) is not
found. -/
theorem C4_object_members (E : Env) (cls : Bytes)
    (hc : (cls.length : Int) ≤ UNSERIALIZABLE_OBJECT_MAX_LEN) (hstar : ∀ c ∈ cls, c ≠ 42)
    (items : List Pair) (hn : (items.length : Int) ≤ UNSERIALIZABLE_OBJECT_MAX_LEN)
    (hk : ∀ x ∈ items, IsKey x.key x.kval) (hv : ∀ x ∈ items, Encodes E true x.val x.vval)
    (hd : (items.map Pair.key).Nodup) :
    ∃ Members : PArray,
      Decode E (NewUnserializer (encObject cls items.length (encPairs items)))
        = .ok (.object cls Members, ⟨[], none⟩) ∧
      (∀ x ∈ items, Decode E (NewUnserializer x.val) = .ok (x.vval, ⟨[], none⟩)) ∧
      (∀ x ∈ items, ∀ b : Bytes, x.key = encString (0 :: (cls ++ 0 :: b)) →
        GetPrivate cls Members b = some x.vval) ∧
      (∀ x ∈ items, ∀ c : Bytes, x.key = encString (0 :: 42 :: 0 :: c) →
        GetProtected cls Members c = some x.vval) ∧
      (∀ x ∈ items, ∀ a : Bytes, x.key = encString a → a ≠ [] → a.head? ≠ some 0 →
        GetPublic cls Members a = some x.vval) ∧
      (∀ b : Bytes, (∀ x ∈ items, x.key ≠ encString b) → GetPublic cls Members b = none) := by
  have hput := putAll_distinct items hk hd [] (fun _ _ en hen => by simp at hen)
  rw [List.nil_append] at hput
  refine ⟨items.map (fun x => (x.kval, x.vval)), ?_, ?_, ?_, ?_, ?_, ?_⟩
  · obtain ⟨v', hdec, hval⟩ := DecodeFuel_encodes E true (Encodes.object cls hc items hn hk hv)
      ((encObject cls items.length (encPairs items)).length + 1) [] none (by omega) (Or.inl rfl)
    rw [hval rfl, List.append_nil, hput] at hdec
    exact hdec
  · intro x hx
    obtain ⟨v', hdec, hval⟩ := DecodeFuel_encodes E true (hv x hx) (x.val.length + 1) [] none
      (by omega) (Or.inl rfl)
    rw [hval rfl, List.append_nil] at hdec
    exact hdec
  · intro x hx b hkey
    exact getMember_found .Private cls items hk hd x hx _ b hkey (List.cons_ne_nil _ _)
      (demangle_private cls b hstar)
  · intro x hx c hkey
    exact getMember_found .Protected cls items hk hd x hx _ c hkey (List.cons_ne_nil _ _)
      (demangle_protected cls c)
  · intro x hx a hkey hne hhead
    exact getMember_found .Public cls items hk hd x hx a a hkey hne (demangle_public cls a hhead)
  · intro b hno
    exact getMember_public_none cls items hk b hno

theorem isKey_members : ∀ x ∈ [memberA, memberB, memberC], IsKey x.key x.kval := by
  intro x hx
  simp only [List.mem_cons, List.mem_singleton, List.not_mem_nil, or_false] at hx
  rcases hx with h | h | h <;> rw [h]
  · exact IsKey.str (ascii "a") (by decide)
  · exact IsKey.str (0 :: (ascii "TestObject" ++ 0 :: ascii "b")) (by decide)
  · exact IsKey.str (0 :: 42 :: 0 :: ascii "c") (by decide)

theorem encodes_members (E : Env) :
    ∀ x ∈ [memberA, memberB, memberC], Encodes E true x.val x.vval := by
  intro x hx
  simp only [List.mem_cons, List.mem_singleton, List.not_mem_nil, or_false] at hx
  rcases hx with h | h | h <;> rw [h]
  · exact Encodes.int 5 (by norm_num) (by norm_num)
  · exact Encodes.str (ascii "priv") (by decide)
  · exact Encodes.int 8 (by norm_num) (by norm_num)

/-- C4, an instance (TestDecodeObjectValue): the object
`O:10:"TestObject":3:{s:1:"a";i:5;s:13:"\0TestObject\0b";s:4:"priv";s:4:"\0*\0c";i:8;}`. -/
theorem C4_object_members_witness :
    ∃ Members : PArray,
      Decode sampleEnv (NewUnserializer (ascii
        "O:10:\"TestObject\":3:\x7bs:1:\"a\";i:5;s:13:\"\x00TestObject\x00b\";s:4:\"priv\";s:4:\"\x00*\x00c\";i:8;\x7d"))
        = .ok (.object (ascii "TestObject") Members, ⟨[], none⟩) ∧
      GetPublic (ascii "TestObject") Members (ascii "a") = some (.int 5) ∧
      GetPrivate (ascii "TestObject") Members (ascii "b") = some (.str (ascii "priv")) ∧
      GetProtected (ascii "TestObject") Members (ascii "c") = some (.int 8) ∧
      GetPublic (ascii "TestObject") Members (ascii "b") = none := by
  obtain ⟨m, hdec, _, hpriv, hprot, hpub, hnone⟩ :=
    C4_object_members sampleEnv (ascii "TestObject") (by decide) (by decide)
      [memberA, memberB, memberC] (by decide) isKey_members (encodes_members sampleEnv)
      (by decide)
  exact ⟨m, hdec,
    hpub memberA (by simp) (ascii "a") rfl (by decide) (by decide),
    hpriv memberB (by simp) (ascii "b") rfl,
    hprot memberC (by simp) (ascii "c") rfl,
    hnone (ascii "b") (by decide)⟩

end Objects

section Serialized
open Unserializer

theorem Decode_serialized (E : Env) (cls payload t : Bytes) (e : Option Error) (fuel : Nat)
    (hc : (cls.length : Int) ≤ UNSERIALIZABLE_OBJECT_MAX_LEN)
    (hp : (payload.length : Int) ≤ UNSERIALIZABLE_OBJECT_MAX_LEN) :
    DecodeFuel E (fuel + 1) ⟨encSerialized cls payload ++ t, e⟩
      = match hookResult E payload with
        | .error p => .error p
        | .ok (v, some err) => .ok (.objectSerialized cls payload v, saveError ⟨t, e⟩ err)
        | .ok (v, none) => .ok (.objectSerialized cls payload v, ⟨t, e⟩) := by
  rw [encSerialized, List.cons_append, List.append_assoc, DecodeFuel_serialized,
    decodeSerialized_enc E cls payload t e hc hp]

/-- C5: for every well-formed input `C:<len>:"<Class>":<n>:{<payload>}` (any
payload bytes, braces and semicolons included, followed by any bytes `t`)
Decode returns an ObjectSerialized with that class name and the payload bytes
verbatim as Data; its Value is nil when no DecodeFunc is set or the payload is
empty, and otherwise it is the value the DecodeFunc returns for Data, whose
error is the error of Decode. -/
theorem C5_serialized_object (E : Env) (cls payload t : Bytes)
    (hc : (cls.length : Int) ≤ UNSERIALIZABLE_OBJECT_MAX_LEN)
    (hp : (payload.length : Int) ≤ UNSERIALIZABLE_OBJECT_MAX_LEN) :
    ((E.DecodeFunc = none ∨ payload = []) →
      Decode E (NewUnserializer (encSerialized cls payload ++ t))
        = .ok (.objectSerialized cls payload .null, ⟨t, none⟩)) ∧
    (∀ (f : DecodeFunc) (hv : Value) (herr : Option Error),
      E.DecodeFunc = some f → payload ≠ [] → f payload = .ok (hv, herr) →
      Decode E (NewUnserializer (encSerialized cls payload ++ t))
        = .ok (.objectSerialized cls payload hv, ⟨t, herr⟩)) := by
  have h := Decode_serialized E cls payload t none (encSerialized cls payload ++ t).length hc hp
  constructor
  · intro hno
    have hh : hookResult E payload = .ok (.null, none) := by
      unfold hookResult
      rcases hno with h1 | h1
      · rw [h1]
      · cases E.DecodeFunc with
        | none => rfl
        | some f => simp [h1]
    rw [hh] at h
    exact h
  · intro f hv herr hf hne hres
    have hh : hookResult E payload = .ok (hv, herr) := by
      unfold hookResult
      rw [hf]
      simp only [ne_eq, hne, not_false_eq_true, if_true, hres]
    rw [hh] at h
    cases herr with
    | none => exact h
    | some err => exact h

/-- C5, an instance (TestDecodeSerializableObjectValueNoFunc and, with
UnSerialize as the hook, the same input): without a hook the Value is nil, with
the hook it is the decoded array of the payload. -/
theorem C5_serialized_object_witness :
    encSerialized (ascii "TestObject")
        (ascii "a:3:\x7bs:1:\"a\";i:5;s:1:\"b\";s:4:\"priv\";s:1:\"c\";i:8;\x7d")
      = ascii "C:10:\"TestObject\":49:\x7ba:3:\x7bs:1:\"a\";i:5;s:1:\"b\";s:4:\"priv\";s:1:\"c\";i:8;\x7d\x7d" ∧
    Decode sampleEnv (NewUnserializer (encSerialized (ascii "TestObject")
        (ascii "a:3:\x7bs:1:\"a\";i:5;s:1:\"b\";s:4:\"priv\";s:1:\"c\";i:8;\x7d") ++ []))
      = .ok (.objectSerialized (ascii "TestObject")
          (ascii "a:3:\x7bs:1:\"a\";i:5;s:1:\"b\";s:4:\"priv\";s:1:\"c\";i:8;\x7d") .null, ⟨[], none⟩) ∧
    Decode hookEnv (NewUnserializer (encSerialized (ascii "TestObject")
        (ascii "a:3:\x7bs:1:\"a\";i:5;s:1:\"b\";s:4:\"priv\";s:1:\"c\";i:8;\x7d") ++ []))
      = .ok (.objectSerialized (ascii "TestObject")
          (ascii "a:3:\x7bs:1:\"a\";i:5;s:1:\"b\";s:4:\"priv\";s:1:\"c\";i:8;\x7d")
          (.array [(.str (ascii "a"), .int 5), (.str (ascii "b"), .str (ascii "priv")),
            (.str (ascii "c"), .int 8)]), ⟨[], none⟩) :=
  ⟨by decide,
    (C5_serialized_object sampleEnv (ascii "TestObject")
      (ascii "a:3:\x7bs:1:\"a\";i:5;s:1:\"b\";s:4:\"priv\";s:1:\"c\";i:8;\x7d") [] (by decide)
      (by decide)).1 (Or.inl rfl),
    (C5_serialized_object hookEnv (ascii "TestObject")
      (ascii "a:3:\x7bs:1:\"a\";i:5;s:1:\"b\";s:4:\"priv\";s:1:\"c\";i:8;\x7d") [] (by decide)
      (by decide)).2 (UnSerialize sampleEnv) _ none rfl (by decide) rfl⟩

end Serialized

section HookErrors
open Unserializer

/-- C6 as stated fails: with UnSerialize as the hook and the payload `i:x;`,
on which the hook returns the int 0 next to its error, the Value of the node is
that int 0, not nil. -/
theorem C6_hook_value_kept :
    UnSerialize sampleEnv (ascii "i:x;")
      = .ok (.int 0, some (.convInt (ascii "x") .ErrSyntax)) ∧
    Decode hookEnv (NewUnserializer (ascii "C:1:\"A\":4:\x7bi:x;\x7d"))
      = .ok (.objectSerialized (ascii "A") (ascii "i:x;") (.int 0),
          ⟨[], some (.convInt (ascii "x") .ErrSyntax)⟩) ∧
    Value.int 0 ≠ Value.null :=
  ⟨rfl, rfl, fun h => Value.noConfusion h⟩

/-- C6 (amended): for every `C`-tagged input with a non-empty payload and every
DecodeFunc that returns a value `hv` and an error on that payload, Decode still
returns the ObjectSerialized node with ClassName and Data populated; the Value
of the node is `hv`, whatever the hook returned next to its error (nil only
when that is nil); the returned error is the error of the hook when no earlier
error was recorded, and the earlier error otherwise. -/
theorem C6_hook_error (E : Env) (cls payload t : Bytes) (e : Option Error)
    (hc : (cls.length : Int) ≤ UNSERIALIZABLE_OBJECT_MAX_LEN)
    (hp : (payload.length : Int) ≤ UNSERIALIZABLE_OBJECT_MAX_LEN)
    (f : DecodeFunc) (hv : Value) (herr : Error)
    (hf : E.DecodeFunc = some f) (hne : payload ≠ []) (hres : f payload = .ok (hv, some herr)) :
    Decode E ⟨encSerialized cls payload ++ t, e⟩
      = .ok (.objectSerialized cls payload hv, ⟨t, some (e.getD herr)⟩) := by
  have h := Decode_serialized E cls payload t e (encSerialized cls payload ++ t).length hc hp
  have hh : hookResult E payload = .ok (hv, some herr) := by
    unfold hookResult
    rw [hf]
    simp only [ne_eq, hne, not_false_eq_true, if_true, hres]
  rw [hh] at h
  cases e with
  | none => exact h
  | some x => exact h

/-- C6 (amended), an instance: the payload `i:x;` under UnSerialize as the
hook, first with no earlier error, then after one. -/
theorem C6_hook_error_witness :
    Decode hookEnv ⟨encSerialized (ascii "A") (ascii "i:x;") ++ [], none⟩
      = .ok (.objectSerialized (ascii "A") (ascii "i:x;") (.int 0),
          ⟨[], some (.convInt (ascii "x") .ErrSyntax)⟩) ∧
    Decode hookEnv ⟨encSerialized (ascii "A") (ascii "i:x;") ++ [], some .readBool⟩
      = .ok (.objectSerialized (ascii "A") (ascii "i:x;") (.int 0), ⟨[], some .readBool⟩) :=
  ⟨C6_hook_error hookEnv (ascii "A") (ascii "i:x;") [] none (by decide) (by decide)
      (UnSerialize sampleEnv) (.int 0) (.convInt (ascii "x") .ErrSyntax) rfl (by decide) rfl,
    C6_hook_error hookEnv (ascii "A") (ascii "i:x;") [] (some .readBool) (by decide) (by decide)
      (UnSerialize sampleEnv) (.int 0) (.convInt (ascii "x") .ErrSyntax) rfl (by decide) rfl⟩

/-- C7, the failing input: on `s:9223372036854775808:"x";` the declared length
does not fit a 64-bit int; strconv.Atoi gives the largest int next to its
range error, readLen records the error and returns that int, not 0, and
decodeString asks `make` for that many bytes, which panics. -/
theorem C7_length_beyond_int64 :
    readLen ⟨ascii ":9223372036854775808:\"x\";", none⟩
      = (9223372036854775807,
          ⟨ascii "\"x\";", some (.convInt (ascii "9223372036854775808") .ErrRange)⟩) ∧
    Decode sampleEnv (NewUnserializer (ascii "s:9223372036854775808:\"x\";"))
      = .error .makeslice :=
  ⟨rfl, rfl⟩

end HookErrors

section FirstError
open Unserializer

theorem Keeps.refl (u : Unserializer) : Keeps u u := fun _ h => h

theorem Keeps.trans {u v w : Unserializer} (h1 : Keeps u v) (h2 : Keeps v w) : Keeps u w :=
  fun x h => h2 x (h1 x h)

theorem Keeps.of_lastErr {u u' : Unserializer} (h : u'.lastErr = u.lastErr) : Keeps u u' :=
  fun x hx => by rw [h, hx]

theorem saveError_keeps (u : Unserializer) (err : Error) : Keeps u (saveError u err) := by
  intro x hx
  simp [saveError, hx]

theorem expect_keeps (u : Unserializer) (c : Rune) : Keeps u (expect u c) := by
  unfold expect
  split
  · exact saveError_keeps u _
  · split
    · intro x hx; simp [saveError, hx]
    · exact Keeps.of_lastErr rfl

theorem readUntil_lastErr (u : Unserializer) (stop : Rune) :
    (readUntil u stop).2.2.lastErr = u.lastErr := rfl

theorem readLen_keeps (u : Unserializer) : Keeps u (readLen u).2 := by
  have h1 := expect_keeps u SEPARATOR_VALUE_TYPE
  have h2 := readUntil_lastErr (expect u SEPARATOR_VALUE_TYPE) SEPARATOR_VALUE_TYPE
  unfold readLen
  generalize expect u SEPARATOR_VALUE_TYPE = u1 at h1 h2 ⊢
  rcases hr : readUntil u1 SEPARATOR_VALUE_TYPE with ⟨raw, eof, u2⟩
  rw [hr] at h2
  have h12 : Keeps u u2 := Keeps.trans h1 (Keeps.of_lastErr h2)
  cases eof with
  | true => simp only [hr]; exact Keeps.trans h12 (saveError_keeps _ _)
  | false =>
    simp only [hr]
    rcases ha : Atoi raw with ⟨val, err⟩
    cases err with
    | some e => simp only; exact Keeps.trans h12 (saveError_keeps _ _)
    | none =>
      simp only
      split
      · exact Keeps.trans h12 (saveError_keeps _ _)
      · exact h12

theorem decodeNull_keeps (u : Unserializer) : Keeps u (decodeNull u).2 :=
  expect_keeps u _

theorem decodeBool_keeps (u : Unserializer) : Keeps u (decodeBool u).2 := by
  have h1 := expect_keeps u SEPARATOR_VALUE_TYPE
  unfold decodeBool
  generalize expect u SEPARATOR_VALUE_TYPE = u1 at h1 ⊢
  cases hr : ReadRune u1.r with
  | none =>
    simp only [hr]
    exact Keeps.trans h1 (Keeps.trans (saveError_keeps _ _) (expect_keeps _ _))
  | some p =>
    obtain ⟨raw, rest⟩ := p
    simp only [hr]
    exact Keeps.trans h1 (Keeps.trans (Keeps.of_lastErr rfl) (expect_keeps ⟨rest, u1.lastErr⟩ _))

theorem decodeNumber_keeps (E : Env) (isFloat : Bool) (u : Unserializer) :
    Keeps u (decodeNumber E isFloat u).2 := by
  have h1 := expect_keeps u SEPARATOR_VALUE_TYPE
  have h2 := readUntil_lastErr (expect u SEPARATOR_VALUE_TYPE) SEPARATOR_VALUES
  unfold decodeNumber
  generalize expect u SEPARATOR_VALUE_TYPE = u1 at h1 h2 ⊢
  rcases hr : readUntil u1 SEPARATOR_VALUES with ⟨raw, eof, u2⟩
  rw [hr] at h2
  have h12 : Keeps u u2 := Keeps.trans h1 (Keeps.of_lastErr h2)
  cases eof with
  | true => simp only [hr]; exact Keeps.trans h12 (saveError_keeps _ _)
  | false =>
    simp only [hr]
    cases isFloat with
    | true =>
      simp only [if_true]
      rcases hp : E.ParseFloat raw with ⟨val, err⟩
      cases err with
      | some e => simp only; exact Keeps.trans h12 (saveError_keeps _ _)
      | none => exact h12
    | false =>
      simp only [Bool.false_eq_true, if_false]
      rcases ha : Atoi raw with ⟨val, err⟩
      cases err with
      | some e => simp only; exact Keeps.trans h12 (saveError_keeps _ _)
      | none => exact h12

theorem decodeReference_keeps (u : Unserializer) : Keeps u (decodeReference u).2 := by
  have h1 := expect_keeps u SEPARATOR_VALUE_TYPE
  have h2 := readUntil_lastErr (expect u SEPARATOR_VALUE_TYPE) SEPARATOR_VALUES
  unfold decodeReference
  generalize expect u SEPARATOR_VALUE_TYPE = u1 at h1 h2 ⊢
  rcases hr : readUntil u1 SEPARATOR_VALUES with ⟨raw, eof, u2⟩
  rw [hr] at h2
  have h12 : Keeps u u2 := Keeps.trans h1 (Keeps.of_lastErr h2)
  cases eof with
  | true => simp only [hr]; exact Keeps.trans h12 (saveError_keeps _ _)
  | false => simp only [hr]; exact h12

theorem decodeString_keeps (u : Unserializer) (left right : Rune) (isFinal : Bool)
    (v : Value) (u' : Unserializer) (h : decodeString u left right isFinal = .ok (v, u')) :
    Keeps u u' := by
  have h1 := readLen_keeps u
  unfold decodeString at h
  rcases hr : readLen u with ⟨strLen, u1⟩
  rw [hr] at h1
  simp only [hr] at h
  have h2 : Keeps u (expect u1 left) := Keeps.trans h1 (expect_keeps _ _)
  generalize expect u1 left = u2 at h h2
  have hfin : ∀ w : Unserializer, Keeps u w →
      Keeps u (if isFinal = true then expect (expect w right) SEPARATOR_VALUES
        else expect w right) := by
    intro w hw
    split
    · exact Keeps.trans hw (Keeps.trans (expect_keeps _ _) (expect_keeps _ _))
    · exact Keeps.trans hw (expect_keeps _ _)
  split at h
  · split at h
    · cases h
    · split at h
      · simp only [Except.ok.injEq, Prod.mk.injEq] at h
        rw [← h.2]
        exact hfin _ (Keeps.trans h2 (saveError_keeps _ _))
      · split at h
        · simp only [Except.ok.injEq, Prod.mk.injEq] at h
          rw [← h.2]
          refine hfin _ (Keeps.trans h2 ?_)
          intro x hx; simp [saveError, hx]
        · simp only [Except.ok.injEq, Prod.mk.injEq] at h
          rw [← h.2]
          exact hfin _ (Keeps.trans h2 (Keeps.of_lastErr rfl))
  · simp only [Except.ok.injEq, Prod.mk.injEq] at h
    rw [← h.2]
    exact hfin _ h2

theorem readClassName_keeps (u : Unserializer) (cls : Bytes) (u' : Unserializer)
    (h : readClassName u = .ok (cls, u')) : Keeps u u' := by
  unfold readClassName at h
  split at h
  · cases h
  · rename_i res u1 heq
    simp only [Except.ok.injEq, Prod.mk.injEq] at h
    rw [← h.2]
    exact decodeString_keeps u _ _ _ _ _ heq
  · rename_i v1 u1 hne heq
    simp only [Except.ok.injEq, Prod.mk.injEq] at h
    rw [← h.2]
    exact decodeString_keeps u _ _ _ _ _ heq

/-- The loop of decodeArray keeps a recorded error, and once an error is
recorded it assigns no pair. -/
theorem decodeArrayLoop_keeps (dec : Unserializer → Except Fault (Value × Unserializer))
    (hdec : ∀ u v u', dec u = .ok (v, u') → Keeps u u') :
    ∀ (n : Nat) (val : PArray) (u : Unserializer) (val' : PArray) (u' : Unserializer),
      decodeArrayLoop dec n val u = .ok (val', u') →
      Keeps u u' ∧ (u.lastErr ≠ none → val' = val) := by
  intro n
  induction n with
  | zero =>
    intro val u val' u' h
    simp only [decodeArrayLoop, Except.ok.injEq, Prod.mk.injEq] at h
    rw [← h.1, ← h.2]
    exact ⟨Keeps.refl u, fun _ => rfl⟩
  | succ n ih =>
    intro val u val' u' h
    unfold decodeArrayLoop at h
    split at h
    · cases h
    · rename_i k u1 hk
      have k1 := hdec _ _ _ hk
      split at h
      · cases h
      · rename_i v u2 hv
        have k2 := hdec _ _ _ hv
        split at h
        · rename_i hnone
          split at h
          · cases h
          · rename_i m' hm
            obtain ⟨k3, _⟩ := ih _ _ _ _ h
            refine ⟨Keeps.trans k1 (Keeps.trans k2 k3), ?_⟩
            intro hne
            cases hu : u.lastErr with
            | none => exact absurd hu hne
            | some x => rw [k1 x hu] at hnone; exact absurd hnone.1 (by simp)
        · obtain ⟨k3, hval⟩ := ih _ _ _ _ h
          refine ⟨Keeps.trans k1 (Keeps.trans k2 (Keeps.trans (saveError_keeps _ _) k3)), ?_⟩
          intro _
          apply hval
          unfold saveError
          split
          · simp
          · rename_i x hx; rw [hx]; simp

theorem decodeArrayMap_keeps (dec : Unserializer → Except Fault (Value × Unserializer))
    (hdec : ∀ u v u', dec u = .ok (v, u') → Keeps u u')
    (u : Unserializer) (val : PArray) (u' : Unserializer)
    (h : decodeArrayMap dec u = .ok (val, u')) :
    Keeps u u' ∧ (u.lastErr ≠ none → val = []) := by
  have h1 := readLen_keeps u
  unfold decodeArrayMap at h
  rcases hr : readLen u with ⟨arrLen, u1⟩
  rw [hr] at h1
  simp only [hr] at h
  have h2 : Keeps u (expect u1 DELIMITER_OBJECT_LEFT) := Keeps.trans h1 (expect_keeps _ _)
  generalize expect u1 DELIMITER_OBJECT_LEFT = u2 at h h2
  split at h
  · cases h
  · rename_i val1 u3 hloop
    obtain ⟨k3, hval⟩ := decodeArrayLoop_keeps dec hdec _ _ _ _ _ hloop
    simp only [Except.ok.injEq, Prod.mk.injEq] at h
    rw [← h.1, ← h.2]
    refine ⟨Keeps.trans h2 (Keeps.trans k3 (expect_keeps _ _)), ?_⟩
    intro hne
    apply hval
    cases hu : u.lastErr with
    | none => exact absurd hu hne
    | some x => rw [h2 x hu]; simp

theorem decodeSerialized_keeps (E : Env) (u : Unserializer) (v : Value) (u' : Unserializer)
    (h : decodeSerialized E u = .ok (v, u')) : Keeps u u' := by
  unfold decodeSerialized at h
  split at h
  · cases h
  · rename_i cls u1 hcls
    have k1 := readClassName_keeps _ _ _ hcls
    split at h
    · cases h
    · rename_i rawData u2 hraw
      have k2 := Keeps.trans k1 (decodeString_keeps _ _ _ _ _ _ hraw)
      simp only at h
      split at h
      · simp only [Except.ok.injEq, Prod.mk.injEq] at h
        rw [← h.2]; exact k2
      · split at h
        · split at h
          · cases h
          · simp only [Except.ok.injEq, Prod.mk.injEq] at h
            rw [← h.2]; exact Keeps.trans k2 (saveError_keeps _ _)
          · simp only [Except.ok.injEq, Prod.mk.injEq] at h
            rw [← h.2]; exact k2
        · simp only [Except.ok.injEq, Prod.mk.injEq] at h
          rw [← h.2]; exact k2

theorem decodeSplArray_keeps (E : Env) (dec : Unserializer → Except Fault (Value × Unserializer))
    (hdec : ∀ u v u', dec u = .ok (v, u') → Keeps u u')
    (u : Unserializer) (v : Value) (u' : Unserializer)
    (h : decodeSplArray E dec u = .ok (v, u')) : Keeps u u' := by
  unfold decodeSplArray at h
  simp only at h
  rcases hn : decodeNumber E false (expect (expect u SEPARATOR_VALUE_TYPE) TOKEN_INT)
    with ⟨flags, u1⟩
  have k1 : Keeps u u1 := by
    have h1 := decodeNumber_keeps E false (expect (expect u SEPARATOR_VALUE_TYPE) TOKEN_INT)
    rw [hn] at h1
    exact Keeps.trans (Keeps.trans (expect_keeps _ _) (expect_keeps _ _)) h1
  rw [hn] at h
  cases flags with
  | null =>
    dsimp only at h
    simp only [Except.ok.injEq, Prod.mk.injEq] at h
    rw [← h.2]; exact Keeps.trans k1 (saveError_keeps _ _)
  | int n =>
    dsimp only at h
    split at h
    · cases h
    · rename_i arr u2 harr
      have k2 := Keeps.trans k1 (hdec _ _ _ harr)
      split at h
      · simp only [Except.ok.injEq, Prod.mk.injEq] at h
        rw [← h.2]; exact Keeps.trans k2 (saveError_keeps _ _)
      · split at h
        · cases h
        · rename_i props u3 hprops
          have k3 := Keeps.trans k2 (Keeps.trans (Keeps.trans (Keeps.trans (expect_keeps _ _)
            (expect_keeps _ _)) (expect_keeps _ _)) (hdec _ _ _ hprops))
          split at h
          · simp only [Except.ok.injEq, Prod.mk.injEq] at h
            rw [← h.2]; exact Keeps.trans k3 (saveError_keeps _ _)
          · simp only [Except.ok.injEq, Prod.mk.injEq] at h
            rw [← h.2]; exact k3
  | _ => simp at h

theorem decodeArray_keeps (dec : Unserializer → Except Fault (Value × Unserializer))
    (hdec : ∀ u v u', dec u = .ok (v, u') → Keeps u u')
    (u : Unserializer) (v : Value) (u' : Unserializer)
    (h : decodeArray dec u = .ok (v, u')) : Keeps u u' := by
  unfold decodeArray at h
  split at h
  · cases h
  · rename_i val u1 hmap
    simp only [Except.ok.injEq, Prod.mk.injEq] at h
    rw [← h.2]
    exact (decodeArrayMap_keeps dec hdec _ _ _ hmap).1

theorem decodeObject_keeps (dec : Unserializer → Except Fault (Value × Unserializer))
    (hdec : ∀ u v u', dec u = .ok (v, u') → Keeps u u')
    (u : Unserializer) (v : Value) (u' : Unserializer)
    (h : decodeObject dec u = .ok (v, u')) : Keeps u u' := by
  unfold decodeObject at h
  split at h
  · cases h
  · rename_i cls u1 hcls
    split at h
    · cases h
    · rename_i val u2 hmap
      simp only [Except.ok.injEq, Prod.mk.injEq] at h
      rw [← h.2]
      exact Keeps.trans (readClassName_keeps _ _ _ hcls) (decodeArrayMap_keeps dec hdec _ _ _ hmap).1

/-- Decode never replaces a recorded error: if the state holds an error before
the call, it holds the same error after it. -/
theorem DecodeFuel_keeps (E : Env) :
    ∀ (fuel : Nat) (u : Unserializer) (v : Value) (u' : Unserializer),
      DecodeFuel E fuel u = .ok (v, u') → Keeps u u' := by
  intro fuel
  induction fuel with
  | zero => intro u v u' h; cases h
  | succ fuel ih =>
    intro u v u' h
    unfold DecodeFuel at h
    split at h
    · simp only [Except.ok.injEq, Prod.mk.injEq] at h
      rw [← h.2]; exact Keeps.refl u
    · rename_i token rest hread
      have k0 : Keeps u ⟨rest, u.lastErr⟩ := Keeps.of_lastErr rfl
      simp only at h
      split at h
      · simp only [Except.ok.injEq] at h
        have := decodeNull_keeps ⟨rest, u.lastErr⟩
        rw [h] at this; exact Keeps.trans k0 this
      split at h
      · simp only [Except.ok.injEq] at h
        have := decodeBool_keeps ⟨rest, u.lastErr⟩
        rw [h] at this; exact Keeps.trans k0 this
      split at h
      · simp only [Except.ok.injEq] at h
        have := decodeNumber_keeps E false ⟨rest, u.lastErr⟩
        rw [h] at this; exact Keeps.trans k0 this
      split at h
      · simp only [Except.ok.injEq] at h
        have := decodeNumber_keeps E true ⟨rest, u.lastErr⟩
        rw [h] at this; exact Keeps.trans k0 this
      split at h
      · exact Keeps.trans k0 (decodeString_keeps _ _ _ _ _ _ h)
      split at h
      · exact Keeps.trans k0 (decodeArray_keeps _ ih _ _ _ h)
      split at h
      · exact Keeps.trans k0 (decodeObject_keeps _ ih _ _ _ h)
      split at h
      · exact Keeps.trans k0 (decodeSerialized_keeps E _ _ _ h)
      split at h
      · simp only [Except.ok.injEq] at h
        have := decodeReference_keeps ⟨rest, u.lastErr⟩
        rw [h] at this; exact Keeps.trans k0 this
      split at h
      · exact Keeps.trans k0 (decodeSplArray_keeps E _ ih _ _ _ h)
      · simp only [Except.ok.injEq, Prod.mk.injEq] at h
        rw [← h.2]; exact Keeps.trans k0 (saveError_keeps _ _)

end FirstError

section BestEffort
open Unserializer

theorem decodeArrayLoop_add (dec : Unserializer → Except Fault (Value × Unserializer))
    (a b : Nat) : ∀ (val : PArray) (u : Unserializer),
    decodeArrayLoop dec (a + b) val u
      = match decodeArrayLoop dec a val u with
        | .error f => .error f
        | .ok (val', u') => decodeArrayLoop dec b val' u' := by
  induction a with
  | zero => intro val u; simp [decodeArrayLoop]
  | succ a ih =>
    intro val u
    rw [show a + 1 + b = (a + b) + 1 by omega]
    simp only [decodeArrayLoop]
    cases dec u with
    | error f => rfl
    | ok p =>
      obtain ⟨k, u1⟩ := p
      simp only
      cases dec u1 with
      | error f => rfl
      | ok q =>
        obtain ⟨v, u2⟩ := q
        simp only
        split
        · cases mapassign val k v with
          | error f => rfl
          | ok val' => simp only [ih]
        · simp only [ih]

theorem Decode_int_bad (E : Env) (raw : Bytes) (z : Int) (err : NumError) (rest : Bytes)
    (fuel : Nat) (hraw : ∀ c ∈ raw, c < 128 ∧ c ≠ SEPARATOR_VALUES)
    (hbad : Atoi raw = (z, some err)) :
    DecodeFuel E (fuel + 1) ⟨encIntText raw ++ rest, none⟩
      = .ok (.int z, ⟨rest, some (.convInt raw err)⟩) := by
  simp only [DecodeFuel, encIntText, List.cons_append, List.append_assoc, List.singleton_append,
    List.nil_append, ReadRune_ascii TOKEN_INT _ (by simp [TOKEN_INT])]
  simp only [TOKEN_NULL, TOKEN_BOOL, TOKEN_INT, Nat.reduceEqDiff, if_false, if_true]
  simp only [decodeNumber]
  rw [expect_ascii _ _ _ (by simp [SEPARATOR_VALUE_TYPE]),
    readUntil_ascii _ _ _ _ hraw (by simp [SEPARATOR_VALUES])]
  simp [hbad, saveError]

/-- The method decodeArray after the tag, on well-formed pairs `pre`, one pair
with a well-formed key and an int of a bad text, and well-formed pairs `post`:
the pairs of `pre` are stored, the error of the bad text is recorded, no later
pair is stored, and the cursor ends after the closing brace. -/
theorem decodeArrayMap_partial (E : Env) (fuel : Nat) (pre post : List Pair) (k : Bytes)
    (kv : Value) (raw : Bytes) (z : Int) (err : NumError) (t : Bytes)
    (hn : ((pre.length + (1 + post.length) : Nat) : Int) ≤ UNSERIALIZABLE_OBJECT_MAX_LEN)
    (hprek : ∀ x ∈ pre, IsKey x.key x.kval) (hprev : ∀ x ∈ pre, Encodes E true x.val x.vval)
    (hpostk : ∀ x ∈ post, IsKey x.key x.kval) (hpostv : ∀ x ∈ post, Encodes E false x.val x.vval)
    (hfuel : ∀ x ∈ pre ++ post, x.val.length ≤ fuel + 1)
    (hk : IsKey k kv) (hraw : ∀ c ∈ raw, c < 128 ∧ c ≠ SEPARATOR_VALUES)
    (hbad : Atoi raw = (z, some err)) :
    decodeArrayMap (DecodeFuel E (fuel + 1))
        ⟨encCounted (pre.length + (1 + post.length))
          (encPairs pre ++ (k ++ (encIntText raw ++ encPairs post))) ++ t, none⟩
      = .ok (putAll [] pre, ⟨t, some (.convInt raw err)⟩) := by
  have hpre := decodeArrayLoop_pairs (DecodeFuel E (fuel + 1)) none pre
    (fun x hx t' => Decode_isKey E (hprek x hx) t' none fuel)
    (fun x hx => (hprek x hx).hashable)
    (fun x hx t' => DecodeFuel_encodes E true (hprev x hx) (fuel + 1) t' none
      (hfuel x (List.mem_append_left _ hx)) (Or.inl rfl)) []
  have hpost := decodeArrayLoop_pairs (DecodeFuel E (fuel + 1)) (some (.convInt raw err)) post
    (fun x hx t' => Decode_isKey E (hpostk x hx) t' _ fuel)
    (fun x hx => (hpostk x hx).hashable)
    (fun x hx t' => DecodeFuel_encodes E false (hpostv x hx) (fuel + 1) t' _
      (hfuel x (List.mem_append_right _ hx)) (Or.inr rfl)) (putAll [] pre)
  simp only [decodeArrayMap, encCounted, List.cons_append, List.append_assoc,
    List.singleton_append]
  rw [readLen_decimal _ _ _ hn]
  simp only [expect_ascii DELIMITER_OBJECT_LEFT _ _ (by simp [DELIMITER_OBJECT_LEFT]),
    Int.toNat_ofNat]
  rw [decodeArrayLoop_add, hpre]
  simp only [if_true]
  rw [decodeArrayLoop_add]
  simp only [decodeArrayLoop, Decode_isKey E hk _ none fuel,
    Decode_int_bad E raw z err _ fuel hraw hbad]
  simp only [reduceCtorEq, and_false, if_false, saveError_some, hpost,
    expect_ascii DELIMITER_OBJECT_RIGHT _ _ (by simp [DELIMITER_OBJECT_RIGHT]), List.nil_append]

/-- C9 as stated fails on its own example: for `a:2:{i:0;i:x;i:1;i:5;}` Decode
returns the error of the text `x` and the empty Array; the well-formed sibling
pair 1 -> 5, which comes after the error, is not in it. -/
theorem C9_sibling_pair_dropped :
    Decode sampleEnv (NewUnserializer (ascii "a:2:\x7bi:0;i:x;i:1;i:5;\x7d"))
      = .ok (.array [], ⟨[], some (.convInt (ascii "x") .ErrSyntax)⟩) ∧
    mapaccess [] (.int 1) = none :=
  ⟨rfl, rfl⟩

/-- C9 (amended): for an array encoding with intact framing whose pairs are
well-formed pairs `pre`, then one pair with a well-formed key and an int value
of a text `raw` that strconv.Atoi rejects, then well-formed pairs `post`
(without the SPL form), Decode reads the input to its end and returns the error
of `raw`, the first one, with the partial Array that holds exactly the pairs
of `pre`: the pairs after the malformed element are not stored. In general,
once an error is recorded the loop of decodeArray stores no further pair, in
this array or any other. -/
theorem C9_partial_array (E : Env) (pre post : List Pair) (k : Bytes) (kv : Value)
    (raw : Bytes) (z : Int) (err : NumError)
    (hn : ((pre.length + (1 + post.length) : Nat) : Int) ≤ UNSERIALIZABLE_OBJECT_MAX_LEN)
    (hprek : ∀ x ∈ pre, IsKey x.key x.kval) (hprev : ∀ x ∈ pre, Encodes E true x.val x.vval)
    (hpostk : ∀ x ∈ post, IsKey x.key x.kval) (hpostv : ∀ x ∈ post, Encodes E false x.val x.vval)
    (hk : IsKey k kv) (hraw : ∀ c ∈ raw, c < 128 ∧ c ≠ SEPARATOR_VALUES)
    (hbad : Atoi raw = (z, some err)) :
    Decode E (NewUnserializer (encArray (pre.length + (1 + post.length))
        (encPairs pre ++ (k ++ (encIntText raw ++ encPairs post)))))
      = .ok (.array (putAll [] pre), ⟨[], some (.convInt raw err)⟩) ∧
    (∀ (fuel n : Nat) (val val' : PArray) (u u' : Unserializer), u.lastErr ≠ none →
      decodeArrayLoop (DecodeFuel E fuel) n val u = .ok (val', u') → val' = val) := by
  constructor
  · have hlen := encCounted_length (pre.length + (1 + post.length))
      (encPairs pre ++ (k ++ (encIntText raw ++ encPairs post)))
    simp only [List.length_append] at hlen
    have hfuel : ∀ x ∈ pre ++ post, x.val.length ≤
        (encCounted (pre.length + (1 + post.length))
          (encPairs pre ++ (k ++ (encIntText raw ++ encPairs post)))).length + 1 := by
      intro x hx
      rcases List.mem_append.mp hx with h | h
      · have := encPairs_length_ge pre x h; omega
      · have := encPairs_length_ge post x h; omega
    have hmap := decodeArrayMap_partial E _ pre post k kv raw z err [] hn hprek hprev hpostk
      hpostv hfuel hk hraw hbad
    rw [List.append_nil] at hmap
    simp only [Decode, NewUnserializer, encArray, List.length_cons]
    rw [DecodeFuel_array]
    simp only [decodeArray, hmap]
  · intro fuel n val val' u u' hne h
    exact (decodeArrayLoop_keeps _ (DecodeFuel_keeps E fuel) n val u val' u' h).2 hne

/-- C9 (amended), an instance: in `a:3:{i:1;i:5;i:0;i:x;s:5:"test1";b:1;}` the
pair 1 -> 5 before the malformed element is kept and the pair after it is
not. -/
theorem C9_partial_array_witness :
    encArray (1 + (1 + 1)) (encPairs [pairOneFive] ++
        (encInt 0 ++ (encIntText (ascii "x") ++ encPairs [pairTest1])))
      = ascii "a:3:\x7bi:1;i:5;i:0;i:x;s:5:\"test1\";b:1;\x7d" ∧
    Decode sampleEnv (NewUnserializer (encArray ([pairOneFive].length + (1 + [pairTest1].length))
        (encPairs [pairOneFive] ++ (encInt 0 ++ (encIntText (ascii "x") ++ encPairs [pairTest1])))))
      = .ok (.array (putAll [] [pairOneFive]), ⟨[], some (.convInt (ascii "x") .ErrSyntax)⟩) ∧
    putAll [] [pairOneFive] = [(.int 1, .int 5)] :=
  ⟨by decide,
    (C9_partial_array sampleEnv [pairOneFive] [pairTest1] (encInt 0) (.int 0) (ascii "x") 0
      .ErrSyntax (by decide)
      (fun x hx => by
        rw [List.mem_singleton.mp hx]; exact IsKey.int 1 (by norm_num) (by norm_num))
      (fun x hx => by
        rw [List.mem_singleton.mp hx]; exact Encodes.int 5 (by norm_num) (by norm_num))
      (fun x hx => by rw [List.mem_singleton.mp hx]; exact isKey_pairTest1)
      (fun x hx => by rw [List.mem_singleton.mp hx]; exact encodes_pairTest1 sampleEnv false)
      (IsKey.int 0 (by norm_num) (by norm_num)) (by decide) rfl).1,
    rfl⟩

end BestEffort

section UnknownToken
open Unserializer

/-- C12: for every input whose first rune is none of the recognised type tags
(`N`, `b`, `i`, `d`, `s`, `a`, `O`, `C`, `R`, `r`, the SPL-array tag), Decode
returns a nil value and the error of an unknown token, that rune. -/
theorem C12_unknown_token (E : Env) (input rest : Bytes) (token : Rune)
    (hread : ReadRune input = some (token, rest))
    (htag : token ∉ [TOKEN_NULL, TOKEN_BOOL, TOKEN_INT, TOKEN_FLOAT, TOKEN_STRING, TOKEN_ARRAY,
      TOKEN_OBJECT, TOKEN_OBJECT_SERIALIZED, TOKEN_REFERENCE, TOKEN_REFERENCE_OBJECT,
      E.TOKEN_SPL_ARRAY]) :
    Decode E (NewUnserializer input) = .ok (.null, ⟨rest, some (.unknownToken token)⟩) := by
  simp only [List.mem_cons, List.mem_singleton, not_or, List.not_mem_nil, or_false] at htag
  obtain ⟨n1, n2, n3, n4, n5, n6, n7, n8, n9, n10, n11⟩ := htag
  simp only [Decode, NewUnserializer, DecodeFuel, hread, if_neg n1, if_neg n2, if_neg n3,
    if_neg n4, if_neg n5, if_neg n6, if_neg n7, if_neg n8, n9, n10, if_neg n11, or_self,
    if_false, saveError]

/-- C12, an instance: the input `X:1;`, and an input that starts with a byte
that is not valid UTF-8, read as the rune U+FFFD. -/
theorem C12_unknown_token_witness :
    Decode sampleEnv (NewUnserializer (ascii "X:1;"))
      = .ok (.null, ⟨ascii ":1;", some (.unknownToken 88)⟩) ∧
    Decode sampleEnv (NewUnserializer [255, 59])
      = .ok (.null, ⟨[59], some (.unknownToken RuneError)⟩) :=
  ⟨C12_unknown_token sampleEnv (ascii "X:1;") (ascii ":1;") 88 rfl (by decide),
    C12_unknown_token sampleEnv [255, 59] [59] RuneError rfl (by decide)⟩

end UnknownToken

section FurtherForms
open Unserializer

theorem splTagsOk_sampleEnv : splTagsOk sampleEnv :=
  ⟨by decide, by decide, by decide⟩

/-- C11, the failing input: `x:i:0;a:0:{};m:` is a non-empty proper prefix of
the well-formed SPL-array encoding `x:i:0;a:0:{};m:a:0:{}`; the Decode call for
the properties finds the input at its end and returns nil without recording
anything, so Decode on the prefix is a success with nil properties. A cut one
value earlier, `x:i:0;a:0:{}`, does give an error. -/
theorem C11_truncated_spl_accepted :
    Encodes sampleEnv true (ascii "x:i:0;a:0:\x7b\x7d;m:" ++ ascii "a:0:\x7b\x7d")
      (.splArray 0 (.array []) (.array [])) ∧
    Decode sampleEnv (NewUnserializer (ascii "x:i:0;a:0:\x7b\x7d;m:"))
      = .ok (.splArray 0 (.array []) .null, ⟨[], none⟩) ∧
    Decode sampleEnv (NewUnserializer (ascii "x:i:0;a:0:\x7b\x7d"))
      = .ok (.null, ⟨[], some (.expectRead SEPARATOR_VALUES)⟩) ∧
    Decode sampleEnv (NewUnserializer []) = .ok (.null, ⟨[], none⟩) :=
  ⟨Encodes.splArray rfl splTagsOk_sampleEnv 0 (by norm_num) (by norm_num)
      (encArray 0 (encPairs [])) (encArray 0 (encPairs [])) (.array (putAll [] []))
      (.array (putAll [] []))
      (Encodes.array [] (by decide) (fun _ h => absurd h (List.not_mem_nil _))
        (fun _ h => absurd h (List.not_mem_nil _)))
      (Encodes.array [] (by decide) (fun _ h => absurd h (List.not_mem_nil _))
        (fun _ h => absurd h (List.not_mem_nil _))),
    rfl, rfl, rfl⟩

theorem Decode_of_encodes (E : Env) {enc : Bytes} {v : Value} (h : Encodes E true enc v) :
    Decode E (NewUnserializer enc) = .ok (v, ⟨[], none⟩) := by
  obtain ⟨v', hd, hv⟩ := DecodeFuel_encodes E true h (enc.length + 1) [] none
    (by omega) (Or.inl rfl)
  rw [hv rfl, List.append_nil] at hd
  exact hd

/-- C14 as stated fails: Decode on `s:0:"";` returns nil, the value it returns
on `N;`, not an empty string. -/
theorem C14_empty_string_is_nil :
    Decode sampleEnv (NewUnserializer (ascii "s:0:\"\";")) = .ok (.null, ⟨[], none⟩) ∧
    Decode sampleEnv (NewUnserializer (ascii "N;")) = .ok (.null, ⟨[], none⟩) ∧
    Value.null ≠ Value.str [] :=
  ⟨rfl, rfl, fun h => Value.noConfusion h⟩

/-- C14 (amended): Decode on `s:0:"";`, whatever follows it, reads exactly
these bytes and returns nil without recording an error: the result variable of
decodeString is only set when the declared length is positive. It is the
result Decode gives on `N;`. -/
theorem C14_empty_string (E : Env) (t : Bytes) (e : Option Error) :
    encString [] = ascii "s:0:\"\";" ∧
    Decode E ⟨encString [] ++ t, e⟩ = .ok (.null, ⟨t, e⟩) ∧
    Decode E ⟨encNull ++ t, e⟩ = .ok (.null, ⟨t, e⟩) :=
  ⟨by decide, Decode_string E [] t e (by decide) _, Decode_null E t e _⟩

/-- C19: for every well-formed SPL-array input
`<spl-tag>:i:<flags>;<A>;<members-tag>:<P>` Decode returns nil error and a
PhpSplArray whose Flags is the integer `<flags>`, whose Array is the result of
Decode on `A` and whose Properties is the result of Decode on `P`. -/
theorem C19_spl_array (E : Env) (htags : splTagsOk E) (flags : Int)
    (hlo : -(2 : Int) ^ 63 ≤ flags) (hhi : flags < (2 : Int) ^ 63) (a p : Bytes)
    (av pv : Value) (ha : Encodes E true a av) (hp : Encodes E true p pv) :
    Decode E (NewUnserializer (encSplArray E flags a p))
      = .ok (.splArray flags av pv, ⟨[], none⟩) ∧
    Decode E (NewUnserializer a) = .ok (av, ⟨[], none⟩) ∧
    Decode E (NewUnserializer p) = .ok (pv, ⟨[], none⟩) :=
  ⟨Decode_of_encodes E (Encodes.splArray rfl htags flags hlo hhi a p av pv ha hp),
    Decode_of_encodes E ha, Decode_of_encodes E hp⟩

/-- C19, an instance: `x:i:3;a:1:{s:5:"test1";b:1;};m:a:0:{}`. -/
theorem C19_spl_array_witness :
    encSplArray sampleEnv 3 (ascii "a:1:\x7bs:5:\"test1\";b:1;\x7d") (encArray 0 (encPairs []))
      = ascii "x:i:3;a:1:\x7bs:5:\"test1\";b:1;\x7d;m:a:0:\x7b\x7d" ∧
    Decode sampleEnv (NewUnserializer
        (encSplArray sampleEnv 3 (ascii "a:1:\x7bs:5:\"test1\";b:1;\x7d")
          (encArray 0 (encPairs []))))
      = .ok (.splArray 3 (.array [(.str (ascii "test1"), .bool true)]) (.array (putAll [] [])),
          ⟨[], none⟩) :=
  ⟨by decide,
    (C19_spl_array sampleEnv splTagsOk_sampleEnv 3 (by norm_num) (by norm_num)
      (ascii "a:1:\x7bs:5:\"test1\";b:1;\x7d") (encArray 0 (encPairs []))
      (.array [(.str (ascii "test1"), .bool true)]) (.array (putAll [] []))
      (encodes_arrayTest1 sampleEnv true)
      (Encodes.array [] (by decide) (fun _ h => absurd h (List.not_mem_nil _))
        (fun _ h => absurd h (List.not_mem_nil _)))).1⟩

theorem mapaccess_str_none (items : List Pair) (hk : ∀ x ∈ items, IsKey x.key x.kval)
    (name : Bytes) (hno : ∀ x ∈ items, x.key ≠ encString name) :
    mapaccess (items.map (fun y => (y.kval, y.vval))) (.str name) = none := by
  induction items with
  | nil => rfl
  | cons y ys ih =>
    have hrec := ih (fun z hz => hk z (List.mem_cons_of_mem _ hz))
      (fun z hz => hno z (List.mem_cons_of_mem _ hz))
    have hky := hk y (List.mem_cons_self _ _)
    have hne : keyEq y.kval (.str name) = false := by
      cases hyv : y.kval with
      | str p =>
        rw [hyv] at hky
        have hyk := isKey_str hky
        have : p ≠ name := fun e => hno y (List.mem_cons_self _ _) (by rw [hyk, e])
        simp [keyEq, this]
      | _ => rfl
    simp only [List.map_cons, mapaccess, hne, Bool.false_eq_true, if_false]
    exact hrec

/-- C13 as stated fails on the object of TestDecodeObjectValue: its Members are
stored under the raw names; the private member is found under
`\0TestObject\0b` and the protected one under `\0*\0c`, and nothing is stored
under the bare names `b` and `c`. -/
theorem C13_members_raw :
    Decode sampleEnv (NewUnserializer (ascii
      "O:10:\"TestObject\":3:\x7bs:1:\"a\";i:5;s:13:\"\x00TestObject\x00b\";s:4:\"priv\";s:4:\"\x00*\x00c\";i:8;\x7d"))
      = .ok (.object (ascii "TestObject") exampleMembers, ⟨[], none⟩) ∧
    mapaccess exampleMembers (.str (0 :: (ascii "TestObject" ++ 0 :: ascii "b")))
      = some (.str (ascii "priv")) ∧
    mapaccess exampleMembers (.str (0 :: 42 :: 0 :: ascii "c")) = some (.int 8) ∧
    mapaccess exampleMembers (.str (ascii "b")) = none ∧
    mapaccess exampleMembers (.str (ascii "c")) = none :=
  ⟨rfl, rfl, rfl, rfl, rfl⟩

/-- C13 (amended): the parser does not demangle. For every well-formed object
encoding with members under pairwise distinct names, each member is stored in
Members under its encoded name as it is, so a member encoded under
`\0<Class>\0name` or `\0*\0name` is stored under that raw byte string, marker
bytes included; and no entry is stored under a name, bare or not, that no
member is encoded under. -/
theorem C13_members_stored_raw (E : Env) (cls : Bytes)
    (hc : (cls.length : Int) ≤ UNSERIALIZABLE_OBJECT_MAX_LEN)
    (items : List Pair) (hn : (items.length : Int) ≤ UNSERIALIZABLE_OBJECT_MAX_LEN)
    (hk : ∀ x ∈ items, IsKey x.key x.kval) (hv : ∀ x ∈ items, Encodes E true x.val x.vval)
    (hd : (items.map Pair.key).Nodup) :
    ∃ Members : PArray,
      Decode E (NewUnserializer (encObject cls items.length (encPairs items)))
        = .ok (.object cls Members, ⟨[], none⟩) ∧
      (∀ x ∈ items, ∀ stored : Bytes, x.key = encString stored → stored ≠ [] →
        mapaccess Members (.str stored) = some x.vval) ∧
      (∀ x ∈ items, ∀ name : Bytes, x.key = encString (0 :: (cls ++ 0 :: name)) →
        mapaccess Members (.str (0 :: (cls ++ 0 :: name))) = some x.vval) ∧
      (∀ x ∈ items, ∀ name : Bytes, x.key = encString (0 :: 42 :: 0 :: name) →
        mapaccess Members (.str (0 :: 42 :: 0 :: name)) = some x.vval) ∧
      (∀ name : Bytes, (∀ x ∈ items, x.key ≠ encString name) →
        mapaccess Members (.str name) = none) := by
  have hput := putAll_distinct items hk hd [] (fun _ _ en hen => by simp at hen)
  rw [List.nil_append] at hput
  have hraw : ∀ x ∈ items, ∀ stored : Bytes, x.key = encString stored → stored ≠ [] →
      mapaccess (items.map (fun y => (y.kval, y.vval))) (.str stored) = some x.vval := by
    intro x hx stored hkey hne
    have hkx := hk x hx
    rw [hkey] at hkx
    have hkv := (isKey_encString hkx).1
    simp only [strValue, if_neg hne] at hkv
    rw [← hkv]
    exact mapaccess_distinct items hk hd x hx
  refine ⟨items.map (fun x => (x.kval, x.vval)), ?_, hraw, ?_, ?_, ?_⟩
  · have h := Decode_of_encodes E (Encodes.object cls hc items hn hk hv)
    rw [hput] at h
    exact h
  · intro x hx name hkey
    exact hraw x hx _ hkey (List.cons_ne_nil _ _)
  · intro x hx name hkey
    exact hraw x hx _ hkey (List.cons_ne_nil _ _)
  · intro name hno
    exact mapaccess_str_none items hk name hno

/-- C13 (amended), an instance: the object of TestDecodeObjectValue. -/
theorem C13_members_stored_raw_witness :
    ∃ Members : PArray,
      Decode sampleEnv (NewUnserializer (ascii
        "O:10:\"TestObject\":3:\x7bs:1:\"a\";i:5;s:13:\"\x00TestObject\x00b\";s:4:\"priv\";s:4:\"\x00*\x00c\";i:8;\x7d"))
        = .ok (.object (ascii "TestObject") Members, ⟨[], none⟩) ∧
      mapaccess Members (.str (0 :: (ascii "TestObject" ++ 0 :: ascii "b")))
        = some (.str (ascii "priv")) ∧
      mapaccess Members (.str (0 :: 42 :: 0 :: ascii "c")) = some (.int 8) ∧
      mapaccess Members (.str (ascii "b")) = none := by
  obtain ⟨m, hdec, _, hpriv, hprot, hnone⟩ :=
    C13_members_stored_raw sampleEnv (ascii "TestObject") (by decide)
      [memberA, memberB, memberC] (by decide) isKey_members (encodes_members sampleEnv)
      (by decide)
  exact ⟨m, hdec, hpriv memberB (by simp) (ascii "b") rfl,
    hprot memberC (by simp) (ascii "c") rfl, hnone (ascii "b") (by decide)⟩

end FurtherForms

section AnyText
open Unserializer

/-- The shapes of utf8.DecodeRuneInString on a first byte that is not ASCII:
the error rune of width 1, or a rune of width 2, 3 or 4 that is not ASCII and
whose further bytes are not ASCII either. -/
theorem DecodeRuneInString_cases (c : Nat) (t : Bytes) (hc : 128 ≤ c) :
    DecodeRuneInString (c :: t) = (RuneError, 1) ∨
    (∃ s1 t1 r, t = s1 :: t1 ∧ 128 ≤ s1 ∧ 128 ≤ r ∧ DecodeRuneInString (c :: t) = (r, 2)) ∨
    (∃ s1 s2 t2 r, t = s1 :: s2 :: t2 ∧ 128 ≤ s1 ∧ 128 ≤ s2 ∧ 128 ≤ r ∧
      DecodeRuneInString (c :: t) = (r, 3)) ∨
    (∃ s1 s2 s3 t3 r, t = s1 :: s2 :: s3 :: t3 ∧ 128 ≤ s1 ∧ 128 ≤ s2 ∧ 128 ≤ s3 ∧ 128 ≤ r ∧
      DecodeRuneInString (c :: t) = (r, 4)) := by
  have h1 : ¬ c < 128 := by omega
  by_cases h2 : c < 194
  · left; simp only [DecodeRuneInString, if_neg h1, if_pos h2]
  by_cases h3 : c ≤ 223
  · cases t with
    | nil => left; simp only [DecodeRuneInString, if_neg h1, if_neg h2, if_pos h3]
    | cons s1 t1 =>
      by_cases hs : isCont s1 = true
      · right; left
        have hr : 128 ≤ c % 32 * 64 + s1 % 64 := by omega
        refine ⟨s1, t1, c % 32 * 64 + s1 % 64, rfl, ?_, hr, ?_⟩
        · simp only [isCont, Bool.and_eq_true, decide_eq_true_eq] at hs; omega
        · simp only [DecodeRuneInString, if_neg h1, if_neg h2, if_pos h3, if_pos hs]
      · left; simp only [DecodeRuneInString, if_neg h1, if_neg h2, if_pos h3, if_neg hs]
  by_cases h4 : c ≤ 239
  · rcases t with _ | ⟨s1, _ | ⟨s2, t2⟩⟩
    · left; simp only [DecodeRuneInString, if_neg h1, if_neg h2, if_neg h3, if_pos h4]
    · left; simp only [DecodeRuneInString, if_neg h1, if_neg h2, if_neg h3, if_pos h4]
    · by_cases hs : (decide ((if c = 224 then 160 else 128) ≤ s1) &&
          decide (s1 ≤ (if c = 237 then 159 else 191)) && isCont s2) = true
      · right; right; left
        have hs' := hs
        simp only [isCont, Bool.and_eq_true, decide_eq_true_eq] at hs'
        have hr : 128 ≤ c % 16 * 4096 + s1 % 64 * 64 + s2 % 64 := by
          split_ifs at hs' <;> omega
        refine ⟨s1, s2, t2, c % 16 * 4096 + s1 % 64 * 64 + s2 % 64, rfl, ?_, ?_, hr, ?_⟩
        · split_ifs at hs' <;> omega
        · omega
        · simp only [DecodeRuneInString, if_neg h1, if_neg h2, if_neg h3, if_pos h4, if_pos hs]
      · left
        simp only [DecodeRuneInString, if_neg h1, if_neg h2, if_neg h3, if_pos h4, if_neg hs]
  by_cases h5 : c ≤ 244
  · rcases t with _ | ⟨s1, _ | ⟨s2, _ | ⟨s3, t3⟩⟩⟩
    · left; simp only [DecodeRuneInString, if_neg h1, if_neg h2, if_neg h3, if_neg h4, if_pos h5]
    · left; simp only [DecodeRuneInString, if_neg h1, if_neg h2, if_neg h3, if_neg h4, if_pos h5]
    · left; simp only [DecodeRuneInString, if_neg h1, if_neg h2, if_neg h3, if_neg h4, if_pos h5]
    · by_cases hs : (decide ((if c = 240 then 144 else 128) ≤ s1) &&
          decide (s1 ≤ (if c = 244 then 143 else 191)) && isCont s2 && isCont s3) = true
      · right; right; right
        have hs' := hs
        simp only [isCont, Bool.and_eq_true, decide_eq_true_eq] at hs'
        have hr : 128 ≤ c % 8 * 262144 + s1 % 64 * 4096 + s2 % 64 * 64 + s3 % 64 := by
          split_ifs at hs' <;> omega
        refine ⟨s1, s2, s3, t3, c % 8 * 262144 + s1 % 64 * 4096 + s2 % 64 * 64 + s3 % 64, rfl,
          ?_, ?_, ?_, hr, ?_⟩
        · split_ifs at hs' <;> omega
        · omega
        · omega
        · simp only [DecodeRuneInString, if_neg h1, if_neg h2, if_neg h3, if_neg h4, if_pos h5,
            if_pos hs]
      · left
        simp only [DecodeRuneInString, if_neg h1, if_neg h2, if_neg h3, if_neg h4, if_pos h5,
          if_neg hs]
  left; simp only [DecodeRuneInString, if_neg h1, if_neg h2, if_neg h3, if_neg h4, if_neg h5]

theorem ReadRune_high (c : Nat) (t : Bytes) (hc : 128 ≤ c) :
    ∃ (r n : Nat), ReadRune (c :: t) = some (r, t.drop n) ∧ 128 ≤ r ∧
      n ≤ t.length ∧ ∀ b ∈ t.take n, 128 ≤ b := by
  have hself : ¬ (c < RuneSelf) := by simp [RuneSelf]; omega
  simp only [ReadRune, if_neg hself]
  rcases DecodeRuneInString_cases c t hc with h | ⟨s1, t1, r, ht, h1, hr, h⟩ |
    ⟨s1, s2, t2, r, ht, h1, h2, hr, h⟩ | ⟨s1, s2, s3, t3, r, ht, h1, h2, h3, hr, h⟩
  · exact ⟨RuneError, 0, by rw [h]; simp, by simp [RuneError], by simp, by simp⟩
  · subst ht
    refine ⟨r, 1, by rw [h]; simp, hr, by simp, ?_⟩
    intro b hb; simp at hb; omega
  · subst ht
    refine ⟨r, 2, by rw [h]; simp, hr, by simp, ?_⟩
    intro b hb; simp at hb; rcases hb with hb | hb <;> omega
  · subst ht
    refine ⟨r, 3, by rw [h]; simp, hr, by simp, ?_⟩
    intro b hb; simp at hb; rcases hb with hb | hb | hb <;> omega

theorem EncodeRune_high (r : Nat) (hr : 128 ≤ r) : ∃ b ∈ EncodeRune r, 128 ≤ b := by
  unfold EncodeRune
  split_ifs with h1
  · exact absurd h1 (Nat.not_le.mpr (by omega))
  · exact ⟨_, List.mem_cons_self _ _, Nat.le_trans (by decide : 128 ≤ 0xC0) (Nat.le_add_right _ _)⟩
  · exact ⟨_, List.mem_cons_self _ _, by decide⟩
  · exact ⟨_, List.mem_cons_self _ _, Nat.le_trans (by decide : 128 ≤ 0xE0) (Nat.le_add_right _ _)⟩
  · exact ⟨_, List.mem_cons_self _ _, Nat.le_trans (by decide : 128 ≤ 0xF0) (Nat.le_add_right _ _)⟩

/-- The loop of readUntil over any text without the stop rune, a one-byte rune:
it stops right after the first stop byte; the text it returns is the text read
when that is ASCII, and has a byte that is not ASCII when the text read has
one. -/
theorem readUntilLoop_any (stop : Nat) (hstop : stop < 128) (rest : Bytes) :
    ∀ (fuel : Nat) (raw buf : Bytes), raw.length < fuel → stop ∉ raw →
      ∃ raw' : Bytes, readUntilLoop stop fuel buf (raw ++ stop :: rest) = (buf ++ raw', rest, false) ∧
        ((∀ c ∈ raw, c < 128) → raw' = raw) ∧
        ((∃ c ∈ raw, 128 ≤ c) → ∃ c ∈ raw', 128 ≤ c) := by
  intro fuel
  induction fuel with
  | zero => intro raw buf h; omega
  | succ fuel ih =>
    intro raw buf hlen hno
    cases raw with
    | nil =>
      refine ⟨[], ?_, fun _ => rfl, fun ⟨c, hc, _⟩ => absurd hc (List.not_mem_nil _)⟩
      simp [readUntilLoop, ReadRune_ascii stop rest hstop]
    | cons c cs =>
      have hcs : stop ∉ cs := fun h => hno (List.mem_cons_of_mem _ h)
      have hc : c ≠ stop := fun h => hno (by rw [h]; exact List.mem_cons_self _ _)
      simp only [List.length_cons] at hlen
      by_cases hlow : c < 128
      · obtain ⟨raw', hrun, hascii, hhigh⟩ := ih cs (buf ++ [c]) (by omega) hcs
        refine ⟨c :: raw', ?_, ?_, ?_⟩
        · simp only [List.cons_append, readUntilLoop, ReadRune_ascii c _ hlow, if_neg hc,
            EncodeRune_ascii c hlow, hrun]
          simp
        · intro hall
          rw [hascii (fun x hx => hall x (List.mem_cons_of_mem _ hx))]
        · rintro ⟨x, hx, hx128⟩
          rcases List.mem_cons.mp hx with h | h
          · omega
          · obtain ⟨y, hy, hy128⟩ := hhigh ⟨x, h, hx128⟩
            exact ⟨y, List.mem_cons_of_mem _ hy, hy128⟩
      · obtain ⟨r, n, hread, hr, hn, htake⟩ := ReadRune_high c (cs ++ stop :: rest) (by omega)
        have hncs : n ≤ cs.length := by
          by_contra hgt
          have hmem : stop ∈ (cs ++ stop :: rest).take n := by
            rw [List.take_append_eq_append_take]
            apply List.mem_append_right
            have : n - cs.length = (n - cs.length - 1) + 1 := by omega
            rw [this, List.take_succ_cons]
            exact List.mem_cons_self _ _
          have := htake stop hmem
          omega
        have hdrop : (cs ++ stop :: rest).drop n = cs.drop n ++ stop :: rest :=
          List.drop_append_of_le_length hncs
        have hrs : r ≠ stop := by omega
        obtain ⟨raw', hrun, _, _⟩ := ih (cs.drop n) (buf ++ EncodeRune r)
          (by simp only [List.length_drop]; omega) (fun h => hcs (List.mem_of_mem_drop h))
        obtain ⟨b, hb, hb128⟩ := EncodeRune_high r hr
        refine ⟨EncodeRune r ++ raw', ?_, ?_, ?_⟩
        · simp only [List.cons_append, readUntilLoop, hread, if_neg hrs, hdrop, hrun]
          simp
        · intro hall
          have := hall c (List.mem_cons_self _ _)
          omega
        · intro _
          exact ⟨b, List.mem_append_left _ hb, hb128⟩

/-- The method readUntil over any text without the stop rune. -/
theorem readUntil_any (stop : Nat) (hstop : stop < 128) (raw rest : Bytes) (e : Option Error)
    (hno : stop ∉ raw) :
    ∃ raw' : Bytes, readUntil ⟨raw ++ stop :: rest, e⟩ stop = (raw', false, ⟨rest, e⟩) ∧
      ((∀ c ∈ raw, c < 128) → raw' = raw) ∧
      ((∃ c ∈ raw, 128 ≤ c) → ∃ c ∈ raw', 128 ≤ c) := by
  obtain ⟨raw', hrun, h1, h2⟩ := readUntilLoop_any stop hstop rest
    ((raw ++ stop :: rest).length + 1) raw []
    (by simp only [List.length_append, List.length_cons]; omega) hno
  refine ⟨raw', ?_, h1, h2⟩
  simp only [readUntil, hrun, List.nil_append]

end AnyText

section BadNumbers
open Unserializer

theorem digitsVal_some_digit (s : Bytes) : ∀ (acc v : Nat), digitsVal s acc = some v →
    ∀ c ∈ s, 48 ≤ c ∧ c ≤ 57 := by
  induction s with
  | nil => intro _ _ _ c hc; exact absurd hc (List.not_mem_nil _)
  | cons a as ih =>
    intro acc v h c hc
    simp only [digitsVal] at h
    split_ifs at h with hd
    rcases List.mem_cons.mp hc with e | e
    · rw [e]; exact hd
    · exact ih _ _ h c e

theorem decimalValue_ascii (s : Bytes) (n : Int) (h : decimalValue s = some n) :
    ∀ c ∈ s, c < 128 := by
  cases s with
  | nil => intro c hc; exact absurd hc (List.not_mem_nil _)
  | cons a t =>
    have key : ∀ (l : Bytes) (m : Nat), digitsVal l 0 = some m → ∀ c ∈ l, c < 128 :=
      fun l m hl c hc => by have := digitsVal_some_digit l 0 m hl c hc; omega
    simp only [decimalValue] at h
    intro c hc
    split_ifs at h with h1 h2
    · cases t with
      | nil => simp at h
      | cons b bs =>
        simp only [Option.map_eq_some'] at h
        obtain ⟨m, hm, _⟩ := h
        rcases List.mem_cons.mp hc with e | e
        · omega
        · exact key _ m hm c e
    · cases t with
      | nil => simp at h
      | cons b bs =>
        simp only [Option.map_eq_some'] at h
        obtain ⟨m, hm, _⟩ := h
        rcases List.mem_cons.mp hc with e | e
        · omega
        · exact key _ m hm c e
    · simp only [Option.map_eq_some'] at h
      obtain ⟨m, hm, _⟩ := h
      exact key _ m hm c hc

/-- strconv.Atoi returns an error on every text that is not the decimal
representation of a signed 64-bit integer. -/
theorem Atoi_error_of_not_decimal (raw : Bytes) (h : ¬ IsDecimalInt64 raw) :
    ∃ (z : Int) (err : NumError), Atoi raw = (z, some err) := by
  cases raw with
  | nil => exact ⟨0, .ErrSyntax, rfl⟩
  | cons c t =>
    by_cases h45 : c = 45
    · subst h45
      cases t with
      | nil => exact ⟨0, .ErrSyntax, rfl⟩
      | cons b bs =>
        cases hd : digitsVal (b :: bs) 0 with
        | none => exact Atoi_of_nondigit 45 (b :: bs) b bs (if_pos (Or.inr rfl)) hd
        | some un =>
          by_cases hr : 2 ^ 63 < un
          · exact ⟨-(2 : Int) ^ 63, .ErrRange, by
              rw [Atoi_of_digits 45 (b :: bs) b bs un (if_pos (Or.inr rfl)) hd]
              simp only [decide_True, Bool.true_eq_false, false_and, if_false, true_and,
                if_pos hr]⟩
          · exfalso
            apply h
            refine ⟨-(un : Int), by simp [decimalValue, hd], by omega, by omega⟩
    · by_cases h43 : c = 43
      · subst h43
        cases t with
        | nil => exact ⟨0, .ErrSyntax, rfl⟩
        | cons b bs =>
          cases hd : digitsVal (b :: bs) 0 with
          | none => exact Atoi_of_nondigit 43 (b :: bs) b bs (if_pos (Or.inl rfl)) hd
          | some un =>
            by_cases hr : 2 ^ 63 ≤ un
            · exact ⟨(2 : Int) ^ 63 - 1, .ErrRange, by
                rw [Atoi_of_digits 43 (b :: bs) b bs un (if_pos (Or.inl rfl)) hd]
                simp only [Nat.reduceEqDiff, decide_False, true_and, if_pos hr]⟩
            · exfalso
              apply h
              refine ⟨(un : Int), by simp [decimalValue, hd], by omega, by omega⟩
      · have hsign : ¬ (c = 43 ∨ c = 45) := fun hh => hh.elim h43 h45
        cases hd : digitsVal (c :: t) 0 with
        | none => exact Atoi_of_nondigit c t c t (if_neg hsign) hd
        | some un =>
          by_cases hr : 2 ^ 63 ≤ un
          · exact ⟨(2 : Int) ^ 63 - 1, .ErrRange, by
              rw [Atoi_of_digits c t c t un (if_neg hsign) hd]
              simp only [h45, decide_False, true_and, if_pos hr]⟩
          · exfalso
            apply h
            refine ⟨(un : Int), by simp [decimalValue, h45, h43, hd], by omega, by omega⟩

theorem DecodeFuel_int (E : Env) (fuel : Nat) (rest : Bytes) (e : Option Error) :
    DecodeFuel E (fuel + 1) ⟨TOKEN_INT :: rest, e⟩ = .ok (decodeNumber E false ⟨rest, e⟩) := by
  simp only [DecodeFuel, ReadRune_ascii TOKEN_INT _ (by simp [TOKEN_INT])]
  simp only [TOKEN_NULL, TOKEN_BOOL, TOKEN_INT, Nat.reduceEqDiff, if_false, if_true]

theorem DecodeFuel_reference (E : Env) (token : Rune)
    (ht : token = TOKEN_REFERENCE ∨ token = TOKEN_REFERENCE_OBJECT) (fuel : Nat) (rest : Bytes)
    (e : Option Error) :
    DecodeFuel E (fuel + 1) ⟨token :: rest, e⟩ = .ok (decodeReference ⟨rest, e⟩) := by
  rcases ht with ht | ht <;> subst ht
  · simp only [DecodeFuel, ReadRune_ascii TOKEN_REFERENCE _ (by simp [TOKEN_REFERENCE])]
    simp only [TOKEN_NULL, TOKEN_BOOL, TOKEN_INT, TOKEN_FLOAT, TOKEN_STRING, TOKEN_ARRAY,
      TOKEN_OBJECT, TOKEN_OBJECT_SERIALIZED, TOKEN_REFERENCE, Nat.reduceEqDiff, if_false,
      true_or, if_true]
  · simp only [DecodeFuel,
      ReadRune_ascii TOKEN_REFERENCE_OBJECT _ (by simp [TOKEN_REFERENCE_OBJECT])]
    simp only [TOKEN_NULL, TOKEN_BOOL, TOKEN_INT, TOKEN_FLOAT, TOKEN_STRING, TOKEN_ARRAY,
      TOKEN_OBJECT, TOKEN_OBJECT_SERIALIZED, TOKEN_REFERENCE, TOKEN_REFERENCE_OBJECT,
      Nat.reduceEqDiff, if_false, or_true, if_true]

/-- C17: for every text `raw` without `;` that is not the decimal
representation of a signed 64-bit integer (any bytes: letters, nothing at all,
a number out of range, bytes that are not ASCII), Decode on `i:<raw>;` followed
by any bytes `t` returns a non-nil error and leaves the reader right after the
`;`, so that what follows is decoded from the correct position. -/
theorem C17_bad_int (E : Env) (raw t : Bytes) (hsemi : SEPARATOR_VALUES ∉ raw)
    (hnot : ¬ IsDecimalInt64 raw) :
    ∃ (v : Value) (err : Error),
      Decode E (NewUnserializer (encIntText raw ++ t)) = .ok (v, ⟨t, some err⟩) := by
  obtain ⟨raw', hread, hascii, hhigh⟩ := readUntil_any SEPARATOR_VALUES
    (by simp [SEPARATOR_VALUES]) raw t none hsemi
  have hbad : ¬ IsDecimalInt64 raw' := by
    by_cases hall : ∀ c ∈ raw, c < 128
    · rw [hascii hall]; exact hnot
    · intro hdec
      obtain ⟨n, hn, _, _⟩ := hdec
      have hlow := decimalValue_ascii raw' n hn
      have hex : ∃ c ∈ raw, 128 ≤ c := by
        by_contra hne
        exact hall (fun c hc => by
          by_contra hcn
          exact hne ⟨c, hc, by omega⟩)
      obtain ⟨c, hc, hc128⟩ := hhigh hex
      have := hlow c hc
      omega
  obtain ⟨z, err, hatoi⟩ := Atoi_error_of_not_decimal raw' hbad
  refine ⟨.int z, .convInt raw' err, ?_⟩
  simp only [Decode, NewUnserializer, encIntText, List.cons_append, List.append_assoc,
    List.singleton_append, List.nil_append]
  rw [DecodeFuel_int]
  simp only [decodeNumber]
  rw [expect_ascii _ _ _ (by simp [SEPARATOR_VALUE_TYPE]), hread]
  simp [hatoi, saveError]

/-- C17, instances: a letter, the empty text and 2^63, each followed by the
value `i:1;`. -/
theorem C17_bad_int_witness :
    (∃ (v : Value) (err : Error),
      Decode sampleEnv (NewUnserializer (encIntText (ascii "x") ++ ascii "i:1;"))
        = .ok (v, ⟨ascii "i:1;", some err⟩)) ∧
    (∃ (v : Value) (err : Error),
      Decode sampleEnv (NewUnserializer (encIntText [] ++ ascii "i:1;"))
        = .ok (v, ⟨ascii "i:1;", some err⟩)) ∧
    (∃ (v : Value) (err : Error),
      Decode sampleEnv (NewUnserializer (encIntText (ascii "9223372036854775808") ++ ascii "i:1;"))
        = .ok (v, ⟨ascii "i:1;", some err⟩)) ∧
    Decode sampleEnv ⟨ascii "i:1;", some (.convInt (ascii "x") .ErrSyntax)⟩
      = .ok (.int 1, ⟨[], some (.convInt (ascii "x") .ErrSyntax)⟩) :=
  ⟨C17_bad_int sampleEnv (ascii "x") (ascii "i:1;") (by decide)
      (by rintro ⟨n, h, _, _⟩; simp [decimalValue, ascii, digitsVal] at h),
    C17_bad_int sampleEnv [] (ascii "i:1;") (by decide)
      (by rintro ⟨n, h, _, _⟩; simp [decimalValue] at h),
    C17_bad_int sampleEnv (ascii "9223372036854775808") (ascii "i:1;") (by decide)
      (by
        rintro ⟨n, h, _, h2⟩
        have hv : decimalValue (ascii "9223372036854775808") = some 9223372036854775808 := by
          rfl
        rw [hv] at h
        cases h
        norm_num at h2),
    rfl⟩

/-- C18: for every text `d` that does not contain `;` (digits or not, any
bytes), Decode on `r:<d>;` and on `R:<d>;`, followed by any bytes `t`, reads
the input through the `;`, returns nil and records no error: no referent is
resolved. -/
theorem C18_reference (E : Env) (token : Rune)
    (ht : token = TOKEN_REFERENCE ∨ token = TOKEN_REFERENCE_OBJECT) (d t : Bytes)
    (hsemi : SEPARATOR_VALUES ∉ d) :
    Decode E (NewUnserializer (encReference token d ++ t)) = .ok (.null, ⟨t, none⟩) := by
  obtain ⟨raw', hread, _, _⟩ := readUntil_any SEPARATOR_VALUES
    (by simp [SEPARATOR_VALUES]) d t none hsemi
  simp only [Decode, NewUnserializer, encReference, List.cons_append, List.append_assoc,
    List.singleton_append, List.nil_append]
  rw [DecodeFuel_reference E token ht]
  simp only [decodeReference]
  rw [expect_ascii _ _ _ (by simp [SEPARATOR_VALUE_TYPE]), hread]

/-- C18, instances: `r:12;` and `R:<d>;` with a text `d` of a letter and a byte
that is not valid UTF-8, each followed by `N;`. -/
theorem C18_reference_witness :
    Decode sampleEnv (NewUnserializer (encReference TOKEN_REFERENCE_OBJECT (ascii "12") ++ ascii "N;"))
      = .ok (.null, ⟨ascii "N;", none⟩) ∧
    Decode sampleEnv (NewUnserializer (encReference TOKEN_REFERENCE [120, 255] ++ ascii "N;"))
      = .ok (.null, ⟨ascii "N;", none⟩) ∧
    encReference TOKEN_REFERENCE_OBJECT (ascii "12") = ascii "r:12;" :=
  ⟨C18_reference sampleEnv TOKEN_REFERENCE_OBJECT (Or.inr rfl) (ascii "12") (ascii "N;")
      (by decide),
    C18_reference sampleEnv TOKEN_REFERENCE (Or.inl rfl) [120, 255] (ascii "N;") (by decide),
    by decide⟩

end BadNumbers

section LastWrite
open Unserializer

theorem IsKey.simple {k : Bytes} {kv : Value} (h : IsKey k kv) : SimpleKey kv := by
  cases h with
  | int n _ _ => trivial
  | str p _ => unfold strValue; split <;> trivial

theorem keyEq_iff_eq {a b : Value} (ha : SimpleKey a) (hb : SimpleKey b) :
    keyEq a b = true ↔ a = b := by
  cases a <;> cases b <;> simp_all [SimpleKey, keyEq]

theorem keyEq_false_of_ne {a b : Value} (ha : SimpleKey a) (hb : SimpleKey b) (h : a ≠ b) :
    keyEq a b = false := by
  cases hk : keyEq a b
  · rfl
  · exact absurd ((keyEq_iff_eq ha hb).mp hk) h

theorem keyEq_refl_simple {a : Value} (ha : SimpleKey a) : keyEq a a = true :=
  (keyEq_iff_eq ha ha).mpr rfl

theorem replaceEntry_some (k v : Value) (hk : SimpleKey k) (m : PArray)
    (hm : ∀ en ∈ m, SimpleKey en.1) (hin : k ∈ m.map Prod.fst) :
    ∃ m', replaceEntry k v m = some m' ∧ m'.map Prod.fst = m.map Prod.fst ∧
      mapaccess m' k = some v ∧
      ∀ k', SimpleKey k' → k' ≠ k → mapaccess m' k' = mapaccess m k' := by
  induction m with
  | nil => simp at hin
  | cons en rest ih =>
    obtain ⟨k0, v0⟩ := en
    have hk0 : SimpleKey k0 := hm (k0, v0) (List.mem_cons_self _ _)
    by_cases he : k0 = k
    · subst he
      refine ⟨(k0, v) :: rest, ?_, rfl, ?_, ?_⟩
      · simp [replaceEntry, keyEq_refl_simple hk0]
      · simp [mapaccess, keyEq_refl_simple hk0]
      · intro k' hk' hne
        simp [mapaccess, keyEq_false_of_ne hk0 hk' (fun h => hne h.symm)]
    · have hin' : k ∈ rest.map Prod.fst := by
        simp only [List.map_cons, List.mem_cons] at hin
        rcases hin with h | h
        · exact absurd h.symm he
        · exact h
      obtain ⟨m', h1, h2, h3, h4⟩ := ih (fun en hen => hm en (List.mem_cons_of_mem _ hen)) hin'
      have hf : keyEq k0 k = false := keyEq_false_of_ne hk0 hk he
      refine ⟨(k0, v0) :: m', ?_, ?_, ?_, ?_⟩
      · simp [replaceEntry, hf, h1]
      · simp [h2]
      · simp [mapaccess, hf, h3]
      · intro k' hk' hne
        simp only [mapaccess]
        rw [h4 k' hk' hne]

theorem mapaccess_append_single (m : PArray) (k v k' : Value) :
    mapaccess (m ++ [(k, v)]) k' =
      match mapaccess m k' with
      | some w => some w
      | none => if keyEq k k' then some v else none := by
  induction m with
  | nil => simp [mapaccess]
  | cons en rest ih =>
    obtain ⟨k0, v0⟩ := en
    simp only [List.cons_append, mapaccess]
    by_cases h : keyEq k0 k' = true
    · simp [h]
    · simp only [h, Bool.false_eq_true, if_false]
      exact ih

theorem mapaccess_none_of_not_mem (m : PArray) (k : Value) (hk : SimpleKey k)
    (hm : ∀ en ∈ m, SimpleKey en.1) (hin : k ∉ m.map Prod.fst) : mapaccess m k = none := by
  induction m with
  | nil => rfl
  | cons en rest ih =>
    obtain ⟨k0, v0⟩ := en
    simp only [List.map_cons, List.mem_cons, not_or] at hin
    have hf : keyEq k0 k = false :=
      keyEq_false_of_ne (hm (k0, v0) (List.mem_cons_self _ _)) hk (fun h => hin.1 h.symm)
    simp only [mapaccess, hf, Bool.false_eq_true, if_false]
    exact ih (fun en hen => hm en (List.mem_cons_of_mem _ hen)) hin.2

theorem put_simple (m : PArray) (k v : Value) (hk : SimpleKey k)
    (hm : ∀ en ∈ m, SimpleKey en.1) (hnd : (m.map Prod.fst).Nodup) :
    (∀ en ∈ put m k v, SimpleKey en.1) ∧ ((put m k v).map Prod.fst).Nodup ∧
      (∀ k', k' ∈ (put m k v).map Prod.fst ↔ k' ∈ m.map Prod.fst ∨ k' = k) ∧
      mapaccess (put m k v) k = some v ∧
      ∀ k', SimpleKey k' → k' ≠ k → mapaccess (put m k v) k' = mapaccess m k' := by
  have hkeys : ∀ (m' : PArray), m'.map Prod.fst = m.map Prod.fst →
      ∀ en ∈ m', SimpleKey en.1 := by
    intro m' hm' en hen
    have : en.1 ∈ m.map Prod.fst := hm' ▸ List.mem_map_of_mem Prod.fst hen
    obtain ⟨en', hen', he⟩ := List.mem_map.mp this
    rw [← he]
    exact hm en' hen'
  by_cases hin : k ∈ m.map Prod.fst
  · obtain ⟨m', h1, h2, h3, h4⟩ := replaceEntry_some k v hk m hm hin
    have hp : put m k v = m' := by simp [put, h1]
    rw [hp]
    refine ⟨hkeys m' h2, h2 ▸ hnd, ?_, h3, h4⟩
    intro k'
    rw [h2]
    constructor
    · exact Or.inl
    · rintro (h | h)
      · exact h
      · exact h ▸ hin
  · have hnone : replaceEntry k v m = none :=
      replaceEntry_none k v m (fun en hen => keyEq_false_of_ne (hm en hen) hk
        (fun h => hin (h ▸ List.mem_map_of_mem Prod.fst hen)))
    have hp : put m k v = m ++ [(k, v)] := by simp [put, hnone]
    rw [hp]
    refine ⟨?_, ?_, ?_, ?_, ?_⟩
    · intro en hen
      rcases List.mem_append.mp hen with h | h
      · exact hm en h
      · simp only [List.mem_singleton] at h
        rw [h]
        exact hk
    · rw [List.map_append, List.nodup_append]
      refine ⟨hnd, by simp, ?_⟩
      intro a ha hb
      simp only [List.map_cons, List.map_nil, List.mem_singleton] at hb
      exact hin (hb ▸ ha)
    · intro k'
      simp
    · rw [mapaccess_append_single, mapaccess_none_of_not_mem m k hk hm hin]
      simp [keyEq_refl_simple hk]
    · intro k' hk' hne
      rw [mapaccess_append_single]
      cases hacc : mapaccess m k' with
      | some w => rfl
      | none => simp [keyEq_false_of_ne hk hk' (fun h => hne h.symm)]

theorem putAll_simple (items : List Pair) (hk : ∀ x ∈ items, SimpleKey x.kval) :
    ∀ (m : PArray), (∀ en ∈ m, SimpleKey en.1) → (m.map Prod.fst).Nodup →
      (∀ en ∈ putAll m items, SimpleKey en.1) ∧ ((putAll m items).map Prod.fst).Nodup ∧
      (∀ k', k' ∈ (putAll m items).map Prod.fst ↔
        k' ∈ m.map Prod.fst ∨ ∃ x ∈ items, x.kval = k') ∧
      (∀ (pre : List Pair) (x : Pair) (post : List Pair), items = pre ++ x :: post →
        (∀ y ∈ post, y.kval ≠ x.kval) → mapaccess (putAll m items) x.kval = some x.vval) ∧
      ∀ k', SimpleKey k' → (∀ x ∈ items, x.kval ≠ k') →
        mapaccess (putAll m items) k' = mapaccess m k' := by
  induction items with
  | nil =>
    intro m hm hnd
    refine ⟨hm, hnd, by simp [putAll], ?_, fun _ _ _ => rfl⟩
    intro pre x post h
    simp at h
  | cons x0 xs ih =>
    intro m hm hnd
    have hk0 := hk x0 (List.mem_cons_self _ _)
    obtain ⟨p1, p2, p3, p4, p5⟩ := put_simple m x0.kval x0.vval hk0 hm hnd
    obtain ⟨q1, q2, q3, q4, q5⟩ := ih (fun y hy => hk y (List.mem_cons_of_mem _ hy))
      (put m x0.kval x0.vval) p1 p2
    simp only [putAll]
    refine ⟨q1, q2, ?_, ?_, ?_⟩
    · intro k'
      rw [q3 k', p3 k']
      constructor
      · rintro ((h | h) | ⟨y, hy, h⟩)
        · exact Or.inl h
        · exact Or.inr ⟨x0, List.mem_cons_self _ _, h.symm⟩
        · exact Or.inr ⟨y, List.mem_cons_of_mem _ hy, h⟩
      · rintro (h | ⟨y, hy, h⟩)
        · exact Or.inl (Or.inl h)
        · rcases List.mem_cons.mp hy with e | e
          · exact Or.inl (Or.inr (by rw [← h, e]))
          · exact Or.inr ⟨y, e, h⟩
    · intro pre x post hsplit hlast
      cases pre with
      | nil =>
        simp only [List.nil_append, List.cons.injEq] at hsplit
        obtain ⟨hx, hpost⟩ := hsplit
        subst hx
        subst hpost
        rw [q5 x0.kval hk0 hlast]
        exact p4
      | cons p pre' =>
        simp only [List.cons_append, List.cons.injEq] at hsplit
        exact q4 pre' x post hsplit.2 hlast
    · intro k' hk' hne
      rw [q5 k' hk' (fun y hy => hne y (List.mem_cons_of_mem _ hy))]
      exact p5 k' hk' (fun h => hne x0 (List.mem_cons_self _ _) h.symm)

theorem filter_key_single (k v : Value) (hk : SimpleKey k) (m : PArray)
    (hm : ∀ en ∈ m, SimpleKey en.1) (hnd : (m.map Prod.fst).Nodup)
    (hacc : mapaccess m k = some v) : m.filter (fun en => keyEq en.1 k) = [(k, v)] := by
  induction m with
  | nil => simp [mapaccess] at hacc
  | cons en rest ih =>
    obtain ⟨k0, v0⟩ := en
    have hk0 : SimpleKey k0 := hm (k0, v0) (List.mem_cons_self _ _)
    simp only [List.map_cons, List.nodup_cons] at hnd
    by_cases he : keyEq k0 k = true
    · have hkk : k0 = k := (keyEq_iff_eq hk0 hk).mp he
      simp only [mapaccess, he, if_true, Option.some.injEq] at hacc
      subst hkk
      subst hacc
      have hrest : rest.filter (fun en => keyEq en.1 k0) = [] := by
        rw [List.filter_eq_nil_iff]
        intro en hen hen2
        have := (keyEq_iff_eq (hm en (List.mem_cons_of_mem _ hen)) hk0).mp hen2
        exact hnd.1 (this ▸ List.mem_map_of_mem Prod.fst hen)
      simp [List.filter, he, hrest]
    · have hf : keyEq k0 k = false := by simpa using he
      simp only [mapaccess, hf, Bool.false_eq_true, if_false] at hacc
      simp only [List.filter, hf]
      exact ih (fun en hen => hm en (List.mem_cons_of_mem _ hen)) hnd.2 hacc

/-- C20: for every well-formed array encoding (keys that are ints or strings,
repeated or not), Decode returns a nil error and an Array in which, for every
pair of the source after which the same key does not occur again, the entries
under that key are exactly one, holding the value of that pair: a repeated key
keeps one entry with the value of its last occurrence. No two entries have the
same key, the keys are those of the source, and an int key never equals a
string key, so `0` and `"0"` have an entry each. -/
theorem C20_last_write_wins (E : Env) (items : List Pair)
    (hn : (items.length : Int) ≤ UNSERIALIZABLE_OBJECT_MAX_LEN)
    (hk : ∀ x ∈ items, IsKey x.key x.kval) (hv : ∀ x ∈ items, Encodes E true x.val x.vval) :
    ∃ m : PArray,
      Decode E (NewUnserializer (encArray items.length (encPairs items)))
        = .ok (.array m, ⟨[], none⟩) ∧
      (∀ (pre : List Pair) (x : Pair) (post : List Pair), items = pre ++ x :: post →
        (∀ y ∈ post, y.kval ≠ x.kval) →
        m.filter (fun en => keyEq en.1 x.kval) = [(x.kval, x.vval)] ∧
        mapaccess m x.kval = some x.vval) ∧
      (m.map Prod.fst).Nodup ∧
      (∀ k, k ∈ m.map Prod.fst ↔ ∃ x ∈ items, x.kval = k) ∧
      ∀ (n : Int) (p : Bytes), keyEq (.int n) (.str p) = false ∧
        keyEq (.str p) (.int n) = false := by
  have hs : ∀ x ∈ items, SimpleKey x.kval := fun x hx => (hk x hx).simple
  obtain ⟨q1, q2, q3, q4, _⟩ := putAll_simple items hs []
    (fun _ hen => absurd hen (List.not_mem_nil _)) List.nodup_nil
  refine ⟨putAll [] items, Decode_of_encodes E (Encodes.array items hn hk hv), ?_, q2, ?_,
    fun _ _ => ⟨rfl, rfl⟩⟩
  · intro pre x post hsplit hlast
    have hacc := q4 pre x post hsplit hlast
    have hx : x ∈ items := by rw [hsplit]; simp
    exact ⟨filter_key_single x.kval x.vval (hs x hx) _ q1 q2 hacc, hacc⟩
  · intro k
    rw [q3 k]
    simp

/-- C20, instance: in `a:3:{i:0;i:1;s:1:"0";i:2;i:0;i:3;}` the key `0`
occurs twice and the key `"0"` once; the Array has the two entries `0 => 3` and
`"0" => 2`. -/
theorem C20_last_write_wins_witness :
    (∃ m : PArray,
      Decode sampleEnv (NewUnserializer (encArray 3
          (encPairs [pairIntZero 1, pairStrZero 2, pairIntZero 3])))
        = .ok (.array m, ⟨[], none⟩) ∧
      (∀ (pre : List Pair) (x : Pair) (post : List Pair),
        [pairIntZero 1, pairStrZero 2, pairIntZero 3] = pre ++ x :: post →
        (∀ y ∈ post, y.kval ≠ x.kval) →
        m.filter (fun en => keyEq en.1 x.kval) = [(x.kval, x.vval)] ∧
        mapaccess m x.kval = some x.vval) ∧
      (m.map Prod.fst).Nodup ∧
      (∀ k, k ∈ m.map Prod.fst ↔
        ∃ x ∈ [pairIntZero 1, pairStrZero 2, pairIntZero 3], x.kval = k) ∧
      ∀ (n : Int) (p : Bytes), keyEq (.int n) (.str p) = false ∧
        keyEq (.str p) (.int n) = false) ∧
    encArray 3 (encPairs [pairIntZero 1, pairStrZero 2, pairIntZero 3])
      = ascii "a:3:\x7bi:0;i:1;s:1:\"0\";i:2;i:0;i:3;\x7d" ∧
    Decode sampleEnv (NewUnserializer (ascii "a:3:\x7bi:0;i:1;s:1:\"0\";i:2;i:0;i:3;\x7d"))
      = .ok (.array [(.int 0, .int 3), (.str (ascii "0"), .int 2)], ⟨[], none⟩) :=
  ⟨C20_last_write_wins sampleEnv [pairIntZero 1, pairStrZero 2, pairIntZero 3]
      (by simp [UNSERIALIZABLE_OBJECT_MAX_LEN])
      (by
        intro x hx
        simp only [List.mem_cons, List.mem_singleton, List.not_mem_nil, or_false] at hx
        rcases hx with h | h | h <;> subst h
        · exact IsKey.int 0 (by norm_num) (by norm_num)
        · exact IsKey.str (ascii "0") (by simp [UNSERIALIZABLE_OBJECT_MAX_LEN, ascii])
        · exact IsKey.int 0 (by norm_num) (by norm_num))
      (by
        intro x hx
        simp only [List.mem_cons, List.mem_singleton, List.not_mem_nil, or_false] at hx
        rcases hx with h | h | h <;> subst h
        · exact Encodes.int 1 (by norm_num) (by norm_num)
        · exact Encodes.int 2 (by norm_num) (by norm_num)
        · exact Encodes.int 3 (by norm_num) (by norm_num)),
    by decide, rfl⟩

end LastWrite

section KeyKinds
open Unserializer

theorem replaceEntry_entries (k v : Value) (hkh : hashable k = true) (hkk : KeysHashable k)
    (hv : KeysHashable v) :
    ∀ (m m' : PArray), EntriesHashable m → replaceEntry k v m = some m' →
      EntriesHashable m' := by
  intro m
  induction m with
  | nil => intro m' _ h; simp [replaceEntry] at h
  | cons en rest ih =>
    intro m' hm h
    obtain ⟨k0, v0⟩ := en
    obtain ⟨h1, h2, h3⟩ := hm
    have hrest : EntriesHashable rest :=
      ⟨fun en hen => h1 en (List.mem_cons_of_mem _ hen),
        fun en hen => h2 en (List.mem_cons_of_mem _ hen),
        fun en hen => h3 en (List.mem_cons_of_mem _ hen)⟩
    unfold replaceEntry at h
    split at h
    · simp only [Option.some.injEq] at h
      subst h
      refine ⟨?_, ?_, ?_⟩
      · intro en hen
        rcases List.mem_cons.mp hen with e | e
        · rw [e]; exact hkh
        · exact hrest.1 en e
      · intro en hen
        rcases List.mem_cons.mp hen with e | e
        · rw [e]; exact hkk
        · exact hrest.2.1 en e
      · intro en hen
        rcases List.mem_cons.mp hen with e | e
        · rw [e]; exact hv
        · exact hrest.2.2 en e
    · cases hr : replaceEntry k v rest with
      | none => rw [hr] at h; simp at h
      | some r' =>
        rw [hr] at h
        simp only [Option.map_some', Option.some.injEq] at h
        subst h
        obtain ⟨r1, r2, r3⟩ := ih r' hrest hr
        refine ⟨?_, ?_, ?_⟩
        · intro en hen
          rcases List.mem_cons.mp hen with e | e
          · rw [e]; exact h1 (k0, v0) (List.mem_cons_self _ _)
          · exact r1 en e
        · intro en hen
          rcases List.mem_cons.mp hen with e | e
          · rw [e]; exact h2 (k0, v0) (List.mem_cons_self _ _)
          · exact r2 en e
        · intro en hen
          rcases List.mem_cons.mp hen with e | e
          · rw [e]; exact h3 (k0, v0) (List.mem_cons_self _ _)
          · exact r3 en e

theorem mapassign_entries (m m' : PArray) (k v : Value) (hm : EntriesHashable m)
    (hk : KeysHashable k) (hv : KeysHashable v) (h : mapassign m k v = .ok m') :
    EntriesHashable m' := by
  unfold mapassign at h
  split at h
  · rename_i hhash
    split at h
    · rename_i r hr
      simp only [Except.ok.injEq] at h
      subst h
      exact replaceEntry_entries k v hhash hk hv m _ hm hr
    · simp only [Except.ok.injEq] at h
      subst h
      obtain ⟨h1, h2, h3⟩ := hm
      refine ⟨?_, ?_, ?_⟩
      · intro en hen
        rcases List.mem_append.mp hen with e | e
        · exact h1 en e
        · simp only [List.mem_singleton] at e; rw [e]; exact hhash
      · intro en hen
        rcases List.mem_append.mp hen with e | e
        · exact h2 en e
        · simp only [List.mem_singleton] at e; rw [e]; exact hk
      · intro en hen
        rcases List.mem_append.mp hen with e | e
        · exact h3 en e
        · simp only [List.mem_singleton] at e; rw [e]; exact hv
  · cases h

theorem decodeArrayLoop_entries (dec : Unserializer → Except Fault (Value × Unserializer))
    (hdec : ∀ u v u', dec u = .ok (v, u') → KeysHashable v) :
    ∀ (n : Nat) (val : PArray) (u : Unserializer) (val' : PArray) (u' : Unserializer),
      EntriesHashable val → decodeArrayLoop dec n val u = .ok (val', u') →
      EntriesHashable val' := by
  intro n
  induction n with
  | zero =>
    intro val u val' u' hval h
    simp only [decodeArrayLoop, Except.ok.injEq, Prod.mk.injEq] at h
    rw [← h.1]
    exact hval
  | succ n ih =>
    intro val u val' u' hval h
    unfold decodeArrayLoop at h
    split at h
    · cases h
    · rename_i k u1 hk
      split at h
      · cases h
      · rename_i v u2 hv
        split at h
        · split at h
          · cases h
          · rename_i m' hm
            exact ih _ _ _ _ (mapassign_entries _ _ _ _ hval (hdec _ _ _ hk) (hdec _ _ _ hv) hm) h
        · exact ih _ _ _ _ hval h

theorem decodeArrayMap_entries (dec : Unserializer → Except Fault (Value × Unserializer))
    (hdec : ∀ u v u', dec u = .ok (v, u') → KeysHashable v)
    (u : Unserializer) (val : PArray) (u' : Unserializer)
    (h : decodeArrayMap dec u = .ok (val, u')) : EntriesHashable val := by
  unfold decodeArrayMap at h
  rcases hr : readLen u with ⟨arrLen, u1⟩
  simp only [hr] at h
  split at h
  · cases h
  · rename_i val1 u2 hloop
    simp only [Except.ok.injEq, Prod.mk.injEq] at h
    rw [← h.1]
    exact decodeArrayLoop_entries dec hdec _ _ _ _ _
      ⟨fun _ hen => absurd hen (List.not_mem_nil _),
        fun _ hen => absurd hen (List.not_mem_nil _),
        fun _ hen => absurd hen (List.not_mem_nil _)⟩ hloop

theorem decodeNumber_hashable (E : Env) (isFloat : Bool) (u : Unserializer) :
    KeysHashable (decodeNumber E isFloat u).1 := by
  unfold decodeNumber
  simp only
  split
  · exact KeysHashable.null
  · split
    · split <;> exact KeysHashable.float _
    · split <;> exact KeysHashable.int _

theorem decodeBool_hashable (u : Unserializer) : KeysHashable (decodeBool u).1 := by
  unfold decodeBool
  simp only
  split <;> exact KeysHashable.bool _

theorem decodeReference_hashable (u : Unserializer) : KeysHashable (decodeReference u).1 := by
  unfold decodeReference
  simp only
  split <;> exact KeysHashable.null

theorem decodeString_hashable (u : Unserializer) (left right : Rune) (isFinal : Bool)
    (v : Value) (u' : Unserializer) (h : decodeString u left right isFinal = .ok (v, u')) :
    KeysHashable v := by
  unfold decodeString at h
  rcases hr : readLen u with ⟨strLen, u1⟩
  simp only [hr] at h
  split at h
  · split at h
    · cases h
    · split at h
      · simp only [Except.ok.injEq, Prod.mk.injEq] at h
        rw [← h.1]; exact KeysHashable.null
      · split at h
        · simp only [Except.ok.injEq, Prod.mk.injEq] at h
          rw [← h.1]; exact KeysHashable.null
        · simp only [Except.ok.injEq, Prod.mk.injEq] at h
          rw [← h.1]; exact KeysHashable.str _
  · simp only [Except.ok.injEq, Prod.mk.injEq] at h
    rw [← h.1]; exact KeysHashable.null

theorem decodeSerialized_hashable (E : Env) (u : Unserializer) (v : Value) (u' : Unserializer)
    (h : decodeSerialized E u = .ok (v, u')) : KeysHashable v := by
  unfold decodeSerialized at h
  split at h
  · cases h
  · split at h
    · cases h
    · simp only at h
      split at h
      · simp only [Except.ok.injEq, Prod.mk.injEq] at h
        rw [← h.1]; exact KeysHashable.objectSerialized _ _ _
      · split at h
        · split at h
          · cases h
          · simp only [Except.ok.injEq, Prod.mk.injEq] at h
            rw [← h.1]; exact KeysHashable.objectSerialized _ _ _
          · simp only [Except.ok.injEq, Prod.mk.injEq] at h
            rw [← h.1]; exact KeysHashable.objectSerialized _ _ _
        · simp only [Except.ok.injEq, Prod.mk.injEq] at h
          rw [← h.1]; exact KeysHashable.objectSerialized _ _ _

theorem decodeSplArray_hashable (E : Env)
    (dec : Unserializer → Except Fault (Value × Unserializer))
    (hdec : ∀ u v u', dec u = .ok (v, u') → KeysHashable v)
    (u : Unserializer) (v : Value) (u' : Unserializer)
    (h : decodeSplArray E dec u = .ok (v, u')) : KeysHashable v := by
  unfold decodeSplArray at h
  simp only at h
  rcases hn : decodeNumber E false (expect (expect u SEPARATOR_VALUE_TYPE) TOKEN_INT)
    with ⟨flags, u1⟩
  rw [hn] at h
  cases flags with
  | null =>
    dsimp only at h
    simp only [Except.ok.injEq, Prod.mk.injEq] at h
    rw [← h.1]; exact KeysHashable.null
  | int n =>
    dsimp only at h
    split at h
    · cases h
    · rename_i arr u2 harr
      split at h
      · simp only [Except.ok.injEq, Prod.mk.injEq] at h
        rw [← h.1]; exact KeysHashable.null
      · split at h
        · cases h
        · rename_i props u3 hprops
          split at h
          · simp only [Except.ok.injEq, Prod.mk.injEq] at h
            rw [← h.1]; exact KeysHashable.null
          · simp only [Except.ok.injEq, Prod.mk.injEq] at h
            rw [← h.1]
            exact KeysHashable.splArray _ _ _ (hdec _ _ _ harr) (hdec _ _ _ hprops)
  | _ => simp at h

theorem DecodeFuel_hashable (E : Env) :
    ∀ (fuel : Nat) (u : Unserializer) (v : Value) (u' : Unserializer),
      DecodeFuel E fuel u = .ok (v, u') → KeysHashable v := by
  intro fuel
  induction fuel with
  | zero => intro u v u' h; cases h
  | succ fuel ih =>
    intro u v u' h
    unfold DecodeFuel at h
    split at h
    · simp only [Except.ok.injEq, Prod.mk.injEq] at h
      rw [← h.1]; exact KeysHashable.null
    · rename_i token rest hread
      simp only at h
      split at h
      · simp only [Except.ok.injEq, decodeNull, Prod.mk.injEq] at h
        rw [← h.1]; exact KeysHashable.null
      split at h
      · simp only [Except.ok.injEq] at h
        have hv : v = (decodeBool ⟨rest, u.lastErr⟩).1 := by rw [h]
        rw [hv]; exact decodeBool_hashable _
      split at h
      · simp only [Except.ok.injEq] at h
        have hv : v = (decodeNumber E false ⟨rest, u.lastErr⟩).1 := by rw [h]
        rw [hv]; exact decodeNumber_hashable E false _
      split at h
      · simp only [Except.ok.injEq] at h
        have hv : v = (decodeNumber E true ⟨rest, u.lastErr⟩).1 := by rw [h]
        rw [hv]; exact decodeNumber_hashable E true _
      split at h
      · exact decodeString_hashable _ _ _ _ _ _ h
      split at h
      · unfold decodeArray at h
        split at h
        · cases h
        · rename_i val u1 hmap
          simp only [Except.ok.injEq, Prod.mk.injEq] at h
          rw [← h.1]
          obtain ⟨h1, h2, h3⟩ := decodeArrayMap_entries _ ih _ _ _ hmap
          exact KeysHashable.array _ h1 h2 h3
      split at h
      · unfold decodeObject at h
        split at h
        · cases h
        · split at h
          · cases h
          · rename_i val u2 hmap
            simp only [Except.ok.injEq, Prod.mk.injEq] at h
            rw [← h.1]
            obtain ⟨h1, h2, h3⟩ := decodeArrayMap_entries _ ih _ _ _ hmap
            exact KeysHashable.object _ _ h1 h2 h3
      split at h
      · exact decodeSerialized_hashable E _ _ _ h
      split at h
      · simp only [Except.ok.injEq] at h
        have hv : v = (decodeReference ⟨rest, u.lastErr⟩).1 := by rw [h]
        rw [hv]; exact decodeReference_hashable _
      split at h
      · exact decodeSplArray_hashable E _ ih _ _ _ h
      · simp only [Except.ok.injEq, Prod.mk.injEq] at h
        rw [← h.1]; exact KeysHashable.null

/-- C15 as stated fails: the pair of `a:1:{b:1;i:5;}` has a Bool key and
the pair of `a:1:{N;i:5;}` a nil key, and Decode stores both with a nil
error. -/
theorem C15_bool_key_stored :
    Decode sampleEnv (NewUnserializer (ascii "a:1:\x7bb:1;i:5;\x7d"))
      = .ok (.array [(.bool true, .int 5)], ⟨[], none⟩) ∧
    Decode sampleEnv (NewUnserializer (ascii "a:1:\x7bN;i:5;\x7d"))
      = .ok (.array [(.null, .int 5)], ⟨[], none⟩) ∧
    Decode sampleEnv (NewUnserializer (ascii "a:1:\x7bO:1:\"A\":0:\x7b\x7di:5;\x7d"))
      = .ok (.array [(.object (ascii "A") [], .int 5)], ⟨[], none⟩) :=
  ⟨rfl, rfl, rfl⟩

/-- C15, amended: for every input and every state, every key of every Array
(and of the members of every Object) inside a value Decode returns, at any
depth, is a value that can be hashed, that is any value but an Array: decodeArray
stores the pair under whatever key was decoded without an error, be it nil, a
bool, an int, a float, a string or an object. The value a decode hook supplied
for a `C`-tagged object is not covered. -/
theorem C15_keys_hashable (E : Env) (u : Unserializer) (v : Value) (u' : Unserializer)
    (h : Decode E u = .ok (v, u')) : KeysHashable v :=
  DecodeFuel_hashable E _ u v u' h

/-- C15, instance: the array inside the key of `a:1:{O:1:"A":1:{b:0;N;}i:5;}`. -/
theorem C15_keys_hashable_witness :
    Decode sampleEnv (NewUnserializer (ascii "a:1:\x7bO:1:\"A\":1:\x7bb:0;N;\x7di:5;\x7d"))
      = .ok (.array [(.object (ascii "A") [(.bool false, .null)], .int 5)], ⟨[], none⟩) ∧
    KeysHashable (.array [(.object (ascii "A") [(.bool false, .null)], .int 5)]) :=
  ⟨rfl, C15_keys_hashable sampleEnv
    (NewUnserializer (ascii "a:1:\x7bO:1:\"A\":1:\x7bb:0;N;\x7di:5;\x7d")) _ ⟨[], none⟩ rfl⟩

end KeyKinds

section Order
open Unserializer

theorem putAll_entries (items : List Pair) (hk : ∀ x ∈ items, IsKey x.key x.kval)
    (hd : (items.map Pair.key).Nodup) : putAll [] items = items.map Pair.entry := by
  have h := putAll_distinct items hk hd [] (fun _ _ en hen => absurd hen (List.not_mem_nil _))
  rw [List.nil_append] at h
  exact h

/-- C16 as stated fails: the Array decoded from
`a:2:{s:4:"test";b:1;i:0;i:5;}` is a map with the two entries, and a range over
it may visit `0 => 5` before `"test" => true`. -/
theorem C16_order_not_kept :
    ∃ m : PArray,
      Decode sampleEnv (NewUnserializer (ascii "a:2:\x7bs:4:\"test\";b:1;i:0;i:5;\x7d"))
        = .ok (.array m, ⟨[], none⟩) ∧
      Ranges m [(.int 0, .int 5), (.str (ascii "test"), .bool true)] ∧
      Ranges m [(.str (ascii "test"), .bool true), (.int 0, .int 5)] :=
  ⟨[(.str (ascii "test"), .bool true), (.int 0, .int 5)], rfl, List.Perm.swap _ _ _,
    List.Perm.refl _⟩

/-- C16, amended: the decoded Array holds the pairs of the source and no order
among them. For every well-formed array encoding with pairwise distinct keys,
and every rearrangement of its pairs, Decode returns for both encodings a nil
error and an Array; the runs of a range over the first Array are exactly the
arrangements of the source pairs (the source order is one of them), and they
are the same runs as those over the second Array. -/
theorem C16_array_unordered (E : Env) (items items' : List Pair) (hperm : items.Perm items')
    (hn : (items.length : Int) ≤ UNSERIALIZABLE_OBJECT_MAX_LEN)
    (hk : ∀ x ∈ items, IsKey x.key x.kval) (hv : ∀ x ∈ items, Encodes E true x.val x.vval)
    (hd : (items.map Pair.key).Nodup) :
    ∃ m m' : PArray,
      Decode E (NewUnserializer (encArray items.length (encPairs items)))
        = .ok (.array m, ⟨[], none⟩) ∧
      Decode E (NewUnserializer (encArray items'.length (encPairs items')))
        = .ok (.array m', ⟨[], none⟩) ∧
      (∀ visit, Ranges m visit ↔ visit.Perm (items.map Pair.entry)) ∧
      Ranges m (items.map Pair.entry) ∧
      ∀ visit, Ranges m visit ↔ Ranges m' visit := by
  have hn' : (items'.length : Int) ≤ UNSERIALIZABLE_OBJECT_MAX_LEN := by
    rw [← hperm.length_eq]; exact hn
  have hk' : ∀ x ∈ items', IsKey x.key x.kval := fun x hx => hk x (hperm.mem_iff.mpr hx)
  have hv' : ∀ x ∈ items', Encodes E true x.val x.vval :=
    fun x hx => hv x (hperm.mem_iff.mpr hx)
  have hd' : (items'.map Pair.key).Nodup := (hperm.map Pair.key).nodup_iff.mp hd
  refine ⟨putAll [] items, putAll [] items',
    Decode_of_encodes E (Encodes.array items hn hk hv),
    Decode_of_encodes E (Encodes.array items' hn' hk' hv'), ?_, ?_, ?_⟩
  · intro visit
    rw [putAll_entries items hk hd]
    exact Iff.rfl
  · rw [putAll_entries items hk hd]
    exact List.Perm.refl _
  · intro visit
    rw [putAll_entries items hk hd, putAll_entries items' hk' hd']
    have hp : (items.map Pair.entry).Perm (items'.map Pair.entry) := hperm.map Pair.entry
    exact ⟨fun h => List.Perm.trans h hp, fun h => List.Perm.trans h hp.symm⟩

/-- C16, instance: `a:2:{s:4:"test";b:1;i:0;i:5;}` and
`a:2:{i:0;i:5;s:4:"test";b:1;}`. -/
theorem C16_array_unordered_witness :
    (∃ m m' : PArray,
      Decode sampleEnv (NewUnserializer (encArray 2 (encPairs [pairTest, pairZeroFive])))
        = .ok (.array m, ⟨[], none⟩) ∧
      Decode sampleEnv (NewUnserializer (encArray 2 (encPairs [pairZeroFive, pairTest])))
        = .ok (.array m', ⟨[], none⟩) ∧
      (∀ visit, Ranges m visit ↔ visit.Perm ([pairTest, pairZeroFive].map Pair.entry)) ∧
      Ranges m ([pairTest, pairZeroFive].map Pair.entry) ∧
      ∀ visit, Ranges m visit ↔ Ranges m' visit) ∧
    encArray 2 (encPairs [pairTest, pairZeroFive])
      = ascii "a:2:\x7bs:4:\"test\";b:1;i:0;i:5;\x7d" ∧
    encArray 2 (encPairs [pairZeroFive, pairTest])
      = ascii "a:2:\x7bi:0;i:5;s:4:\"test\";b:1;\x7d" :=
  ⟨C16_array_unordered sampleEnv [pairTest, pairZeroFive] [pairZeroFive, pairTest]
      (List.Perm.swap _ _ _)
      (by simp [UNSERIALIZABLE_OBJECT_MAX_LEN])
      (by
        intro x hx
        simp only [List.mem_cons, List.mem_singleton, List.not_mem_nil, or_false] at hx
        rcases hx with h | h <;> subst h
        · exact IsKey.str (ascii "test") (by simp [UNSERIALIZABLE_OBJECT_MAX_LEN, ascii])
        · exact IsKey.int 0 (by norm_num) (by norm_num))
      (by
        intro x hx
        simp only [List.mem_cons, List.mem_singleton, List.not_mem_nil, or_false] at hx
        rcases hx with h | h <;> subst h
        · exact Encodes.bool true
        · exact Encodes.int 5 (by norm_num) (by norm_num))
      (by decide),
    by decide, by decide⟩

end Order

section Panics
open Unserializer

/-- C22, the failing inputs: on `a:1:{a:0:{}i:1;}` the key of the pair decodes
to an Array without an error, so decodeArray executes `val[k] = v` with a key
Go cannot hash and the program panics; on `s:9223372036854775808:"";` readLen
returns the largest int and `make([]byte, strLen)` panics. Both hold with any
bytes after the value and for any hook. -/
theorem C22_decode_panics (E : Env) :
    Decode E (NewUnserializer (ascii "a:1:\x7ba:0:\x7b\x7di:1;\x7d")) = .error .unhashable ∧
    Decode E (NewUnserializer (ascii "s:9223372036854775808:\"\";")) = .error .makeslice ∧
    DecodeFuel E 1 ⟨ascii "a:0:\x7b\x7d", none⟩ = .ok (.array [], ⟨[], none⟩) ∧
    mapassign [] (.array []) (.int 1) = .error .unhashable :=
  ⟨rfl, rfl, rfl, rfl⟩

end Panics

section NegativeLengths
open Unserializer

theorem itoa_neg_chars (n : Int) (c : Nat) (h : c ∈ itoa n) :
    c < 128 ∧ c ≠ SEPARATOR_VALUE_TYPE := by
  unfold itoa at h
  split at h
  · rcases List.mem_cons.mp h with h | h
    · subst h; simp [SEPARATOR_VALUE_TYPE]
    · have := decimal_digit _ _ h
      simp [SEPARATOR_VALUE_TYPE]; omega
  · have := decimal_digit _ _ h
    simp [SEPARATOR_VALUE_TYPE]; omega

theorem Atoi_itoa_below (n : Int) (h : n < -(2 : Int) ^ 63) :
    Atoi (itoa n) = (-(2 : Int) ^ 63, some .ErrRange) := by
  have hneg : n < 0 := by omega
  unfold itoa
  rw [if_pos hneg]
  have hne := decimal_ne_nil n.natAbs
  have hv := digitsVal_decimal n.natAbs
  cases hs : decimal n.natAbs with
  | nil => exact absurd hs hne
  | cons c t =>
    rw [hs] at hv
    rw [Atoi_of_digits 45 (c :: t) c t n.natAbs (if_pos (Or.inr rfl)) hv]
    have h3 : 2 ^ 63 < n.natAbs := by omega
    simp only [decide_True, Bool.true_eq_false, false_and, if_false, true_and, if_pos h3]

theorem readLen_negative (n : Int) (hneg : n < 0) (rest : Bytes) :
    readLen ⟨SEPARATOR_VALUE_TYPE :: (itoa n ++ SEPARATOR_VALUE_TYPE :: rest), none⟩
      = (negLenValue n, ⟨rest, negLenError n⟩) := by
  simp only [readLen]
  rw [expect_ascii _ _ _ (by simp [SEPARATOR_VALUE_TYPE]),
    readUntil_ascii _ _ _ _ (itoa_neg_chars n) (by simp [SEPARATOR_VALUE_TYPE])]
  by_cases hlo : -(2 : Int) ^ 63 ≤ n
  · simp only [Atoi_itoa n hlo (by omega), negLenValue, negLenError, if_pos hlo]
    rw [if_neg (by simp [UNSERIALIZABLE_OBJECT_MAX_LEN]; omega)]
  · simp only [Atoi_itoa_below n (by omega), negLenValue, negLenError, if_neg hlo, saveError]

theorem negLenValue_nonpos (n : Int) (hneg : n < 0) : ¬ (negLenValue n > 0) := by
  unfold negLenValue
  split <;> omega

theorem negLenValue_toNat (n : Int) (hneg : n < 0) : (negLenValue n).toNat = 0 := by
  have := negLenValue_nonpos n hneg
  omega

/-- C24 as stated fails: for the negative length -9223372036854775809, which
does not fit a 64-bit int, readLen returns the smallest int and records the
range error of strconv.Atoi, and Decode returns that error with the nil value
and with the empty Array. -/
theorem C24_length_below_int64 :
    readLen ⟨ascii ":-9223372036854775809:\"\";", none⟩
      = (-9223372036854775808,
          ⟨ascii "\"\";", some (.convInt (ascii "-9223372036854775809") .ErrRange)⟩) ∧
    Decode sampleEnv (NewUnserializer (ascii "s:-9223372036854775809:\"\";"))
      = .ok (.null, ⟨[], some (.convInt (ascii "-9223372036854775809") .ErrRange)⟩) ∧
    Decode sampleEnv (NewUnserializer (ascii "a:-9223372036854775809:\x7b\x7d"))
      = .ok (.array [], ⟨[], some (.convInt (ascii "-9223372036854775809") .ErrRange)⟩) :=
  ⟨rfl, rfl, rfl⟩

/-- C24, amended: for every negative integer `n` and any bytes `t` after the
value, readLen on `:<n>:` returns `n` and records no error when `n` fits a
signed 64-bit int, and returns the smallest int and records the range error of
strconv.Atoi when it does not; in both cases Decode on `s:<n>:"";` returns nil
and Decode on `a:<n>:{}` returns an empty Array, each with the error readLen
recorded (none in the first case) and with the reader left at `t`. -/
theorem C24_negative_length (E : Env) (n : Int) (hneg : n < 0) (t : Bytes) :
    readLen ⟨SEPARATOR_VALUE_TYPE :: (itoa n ++ SEPARATOR_VALUE_TYPE :: t), none⟩
      = (negLenValue n, ⟨t, negLenError n⟩) ∧
    Decode E (NewUnserializer (encLenString n ++ t)) = .ok (.null, ⟨t, negLenError n⟩) ∧
    Decode E (NewUnserializer (encLenArray n ++ t)) = .ok (.array [], ⟨t, negLenError n⟩) ∧
    (-(2 : Int) ^ 63 ≤ n → negLenValue n = n ∧ negLenError n = none) ∧
    (n < -(2 : Int) ^ 63 → negLenValue n = -(2 : Int) ^ 63 ∧
      negLenError n = some (.convInt (itoa n) .ErrRange)) := by
  refine ⟨readLen_negative n hneg t, ?_, ?_, ?_, ?_⟩
  · simp only [Decode, NewUnserializer, encLenString, List.cons_append, List.append_assoc]
    simp only [DecodeFuel, ReadRune_ascii TOKEN_STRING _ (by simp [TOKEN_STRING])]
    simp only [TOKEN_NULL, TOKEN_BOOL, TOKEN_INT, TOKEN_FLOAT, TOKEN_STRING, Nat.reduceEqDiff,
      if_false, if_true]
    have h := readLen_negative n hneg
      (DELIMITER_STRING_LEFT :: DELIMITER_STRING_RIGHT :: SEPARATOR_VALUES :: t)
    simp only [decodeString, List.cons_append, List.nil_append]
    rw [h]
    simp only [if_neg (negLenValue_nonpos n hneg)]
    rw [expect_ascii _ _ _ (by simp [DELIMITER_STRING_LEFT]),
      expect_ascii _ _ _ (by simp [DELIMITER_STRING_RIGHT]),
      expect_ascii _ _ _ (by simp [SEPARATOR_VALUES])]
    rfl
  · simp only [Decode, NewUnserializer, encLenArray, List.cons_append, List.append_assoc]
    rw [DecodeFuel_array]
    have h := readLen_negative n hneg (DELIMITER_OBJECT_LEFT :: DELIMITER_OBJECT_RIGHT :: t)
    simp only [decodeArray, decodeArrayMap, List.cons_append, List.nil_append]
    rw [h]
    simp only [negLenValue_toNat n hneg, decodeArrayLoop]
    rw [expect_ascii _ _ _ (by simp [DELIMITER_OBJECT_LEFT]),
      expect_ascii _ _ _ (by simp [DELIMITER_OBJECT_RIGHT])]
  · intro h
    unfold negLenValue negLenError
    rw [if_pos h, if_pos h]
    exact ⟨rfl, rfl⟩
  · intro h
    have hn : ¬ (-(2 : Int) ^ 63 ≤ n) := by omega
    unfold negLenValue negLenError
    rw [if_neg hn, if_neg hn]
    exact ⟨rfl, rfl⟩

/-- C24, instances: the lengths -5 and -9223372036854775809, each followed by
`N;`. -/
theorem C24_negative_length_witness :
    (readLen ⟨SEPARATOR_VALUE_TYPE :: (itoa (-5) ++ SEPARATOR_VALUE_TYPE :: ascii "N;"), none⟩
      = (negLenValue (-5), ⟨ascii "N;", negLenError (-5)⟩) ∧
    Decode sampleEnv (NewUnserializer (encLenString (-5) ++ ascii "N;"))
      = .ok (.null, ⟨ascii "N;", negLenError (-5)⟩) ∧
    Decode sampleEnv (NewUnserializer (encLenArray (-5) ++ ascii "N;"))
      = .ok (.array [], ⟨ascii "N;", negLenError (-5)⟩) ∧
    (-(2 : Int) ^ 63 ≤ -5 → negLenValue (-5) = -5 ∧ negLenError (-5) = none) ∧
    ((-5 : Int) < -(2 : Int) ^ 63 → negLenValue (-5) = -(2 : Int) ^ 63 ∧
      negLenError (-5) = some (.convInt (itoa (-5)) .ErrRange))) ∧
    encLenString (-5) = ascii "s:-5:\"\";" ∧
    encLenArray (-5) = ascii "a:-5:\x7b\x7d" ∧
    negLenError (-5) = none :=
  ⟨C24_negative_length sampleEnv (-5) (by decide) (ascii "N;"), by decide, by decide,
    by decide⟩

end NegativeLengths

section SessionStart

theorem getFromCookies_find (m : SessionManager) (cookies : List Cookie) (c : Cookie)
    (hc : cookies.find? (fun k => decide (k.Name = m.SessionName)) = some c) :
    m.getFromCookies cookies = c.Value := by
  induction cookies with
  | nil => simp at hc
  | cons k rest ih =>
    unfold SessionManager.getFromCookies
    by_cases hk : k.Name = m.SessionName
    · simp only [List.find?, hk, decide_True, Option.some.injEq] at hc
      rw [if_pos hk, hc]
    · simp only [List.find?, hk, decide_False] at hc
      rw [if_neg hk]
      exact ih hc

end SessionStart

section Termination
open Unserializer

theorem ReadRune_lt (r : Bytes) (c : Rune) (rest : Bytes) (h : ReadRune r = some (c, rest)) :
    rest.length < r.length := by
  cases r with
  | nil => simp [ReadRune] at h
  | cons c0 t =>
    by_cases hc : c0 < 128
    · rw [ReadRune_ascii c0 t hc] at h
      simp only [Option.some.injEq, Prod.mk.injEq] at h
      rw [← h.2]
      simp
    · obtain ⟨r', n, hr, _, hn, _⟩ := ReadRune_high c0 t (by omega)
      rw [hr] at h
      simp only [Option.some.injEq, Prod.mk.injEq] at h
      rw [← h.2]
      simp only [List.length_drop, List.length_cons]
      omega

theorem ReadRune_none (r : Bytes) (h : ReadRune r = none) : r = [] := by
  cases r with
  | nil => rfl
  | cons c t =>
    by_cases hc : c < RuneSelf
    · simp [ReadRune, hc] at h
    · simp [ReadRune, hc] at h

theorem saveError_r (u : Unserializer) (e : Error) : (saveError u e).r = u.r := by
  unfold saveError
  split <;> rfl

theorem expect_le (u : Unserializer) (c : Rune) : (expect u c).r.length ≤ u.r.length := by
  unfold expect
  cases hr : ReadRune u.r with
  | none => simp only [saveError_r]; exact Nat.le_refl _
  | some p =>
    obtain ⟨token, rest⟩ := p
    have := ReadRune_lt _ _ _ hr
    simp only
    split
    · rw [saveError_r]; exact Nat.le_of_lt this
    · exact Nat.le_of_lt this

theorem readUntilLoop_le (stop : Rune) :
    ∀ (f : Nat) (buf r : Bytes), (readUntilLoop stop f buf r).2.1.length ≤ r.length := by
  intro f
  induction f with
  | zero => intro buf r; simp [readUntilLoop]
  | succ f ih =>
    intro buf r
    unfold readUntilLoop
    cases hr : ReadRune r with
    | none => simp
    | some p =>
      obtain ⟨token, rest⟩ := p
      have hlt := ReadRune_lt _ _ _ hr
      simp only
      split
      · exact Nat.le_of_lt hlt
      · exact Nat.le_trans (ih _ rest) (Nat.le_of_lt hlt)

/-- The loop of readUntil ends before its budget does: any budget above the
number of unread bytes gives the same result. -/
theorem readUntilLoop_fuel (stop : Rune) :
    ∀ (f f' : Nat) (buf r : Bytes), r.length < f → r.length < f' →
      readUntilLoop stop f buf r = readUntilLoop stop f' buf r := by
  intro f
  induction f with
  | zero => intro f' buf r h; exact absurd h (Nat.not_lt_zero _)
  | succ f ih =>
    intro f' buf r h1 h2
    cases f' with
    | zero => exact absurd h2 (Nat.not_lt_zero _)
    | succ f' =>
      unfold readUntilLoop
      cases hr : ReadRune r with
      | none => rfl
      | some p =>
        obtain ⟨token, rest⟩ := p
        have hlt := ReadRune_lt _ _ _ hr
        simp only
        split
        · rfl
        · exact ih f' _ rest (by omega) (by omega)

theorem readUntil_le (u : Unserializer) (stop : Rune) :
    (readUntil u stop).2.2.r.length ≤ u.r.length :=
  readUntilLoop_le stop _ _ _

theorem readLen_le (u : Unserializer) : (readLen u).2.r.length ≤ u.r.length := by
  have h1 := expect_le u SEPARATOR_VALUE_TYPE
  have h2 := readUntil_le (expect u SEPARATOR_VALUE_TYPE) SEPARATOR_VALUE_TYPE
  unfold readLen
  generalize expect u SEPARATOR_VALUE_TYPE = u1 at h1 h2 ⊢
  rcases hr : readUntil u1 SEPARATOR_VALUE_TYPE with ⟨raw, eof, u2⟩
  rw [hr] at h2
  have h12 : u2.r.length ≤ u.r.length := Nat.le_trans h2 h1
  cases eof with
  | true => simp only [hr, saveError_r]; exact h12
  | false =>
    simp only [hr]
    rcases ha : Atoi raw with ⟨val, err⟩
    cases err with
    | some e => simp only [saveError_r]; exact h12
    | none =>
      simp only
      split
      · simp only [saveError_r]; exact h12
      · exact h12

theorem decodeNull_le (u : Unserializer) : (decodeNull u).2.r.length ≤ u.r.length :=
  expect_le u _

theorem decodeBool_le (u : Unserializer) : (decodeBool u).2.r.length ≤ u.r.length := by
  have h1 := expect_le u SEPARATOR_VALUE_TYPE
  unfold decodeBool
  generalize expect u SEPARATOR_VALUE_TYPE = u1 at h1 ⊢
  cases hr : ReadRune u1.r with
  | none =>
    simp only [hr]
    have := expect_le (saveError u1 .readBool) SEPARATOR_VALUES
    rw [saveError_r] at this
    exact Nat.le_trans this h1
  | some p =>
    obtain ⟨raw, rest⟩ := p
    have hlt := ReadRune_lt _ _ _ hr
    simp only [hr]
    have := expect_le ⟨rest, u1.lastErr⟩ SEPARATOR_VALUES
    simp only at this
    omega

theorem decodeNumber_le (E : Env) (isFloat : Bool) (u : Unserializer) :
    (decodeNumber E isFloat u).2.r.length ≤ u.r.length := by
  have h1 := expect_le u SEPARATOR_VALUE_TYPE
  have h2 := readUntil_le (expect u SEPARATOR_VALUE_TYPE) SEPARATOR_VALUES
  unfold decodeNumber
  generalize expect u SEPARATOR_VALUE_TYPE = u1 at h1 h2 ⊢
  rcases hr : readUntil u1 SEPARATOR_VALUES with ⟨raw, eof, u2⟩
  rw [hr] at h2
  have h12 : u2.r.length ≤ u.r.length := Nat.le_trans h2 h1
  cases eof with
  | true => simp only [hr, saveError_r]; exact h12
  | false =>
    simp only [hr]
    cases isFloat with
    | true =>
      simp only [if_true]
      rcases hp : E.ParseFloat raw with ⟨val, err⟩
      cases err with
      | some e => simp only [saveError_r]; exact h12
      | none => exact h12
    | false =>
      simp only [Bool.false_eq_true, if_false]
      rcases ha : Atoi raw with ⟨val, err⟩
      cases err with
      | some e => simp only [saveError_r]; exact h12
      | none => exact h12

theorem decodeNumber_env (E1 E2 : Env) (h : E1.ParseFloat = E2.ParseFloat) (isFloat : Bool)
    (u : Unserializer) : decodeNumber E1 isFloat u = decodeNumber E2 isFloat u := by
  unfold decodeNumber
  rw [h]

theorem decodeReference_le (u : Unserializer) : (decodeReference u).2.r.length ≤ u.r.length := by
  have h1 := expect_le u SEPARATOR_VALUE_TYPE
  have h2 := readUntil_le (expect u SEPARATOR_VALUE_TYPE) SEPARATOR_VALUES
  unfold decodeReference
  generalize expect u SEPARATOR_VALUE_TYPE = u1 at h1 h2 ⊢
  rcases hr : readUntil u1 SEPARATOR_VALUES with ⟨raw, eof, u2⟩
  rw [hr] at h2
  have h12 : u2.r.length ≤ u.r.length := Nat.le_trans h2 h1
  cases eof with
  | true => simp only [hr, saveError_r]; exact h12
  | false => simp only [hr]; exact h12

theorem Read_le (n : Nat) (r buf rest : Bytes) (h : Read n r = some (buf, rest)) :
    buf.length ≤ r.length ∧ rest.length ≤ r.length := by
  cases r with
  | nil => simp [Read] at h
  | cons c t =>
    simp only [Read, Option.some.injEq, Prod.mk.injEq] at h
    rw [← h.1, ← h.2]
    simp only [List.length_take, List.length_drop]
    omega

theorem decodeString_le (u : Unserializer) (left right : Rune) (isFinal : Bool)
    (v : Value) (u' : Unserializer) (h : decodeString u left right isFinal = .ok (v, u')) :
    u'.r.length ≤ u.r.length ∧ ∀ d, v = .str d → d.length ≤ u.r.length := by
  have h1 := readLen_le u
  unfold decodeString at h
  rcases hr : readLen u with ⟨strLen, u1⟩
  rw [hr] at h1
  simp only [hr] at h
  have h2 : (expect u1 left).r.length ≤ u.r.length := Nat.le_trans (expect_le _ _) h1
  generalize expect u1 left = u2 at h h2
  have hfin : ∀ w : Unserializer, w.r.length ≤ u.r.length →
      (if isFinal = true then expect (expect w right) SEPARATOR_VALUES
        else expect w right).r.length ≤ u.r.length := by
    intro w hw
    split
    · exact Nat.le_trans (expect_le _ _) (Nat.le_trans (expect_le _ _) hw)
    · exact Nat.le_trans (expect_le _ _) hw
  split at h
  · split at h
    · cases h
    · split at h
      · simp only [Except.ok.injEq, Prod.mk.injEq] at h
        rw [← h.2, ← h.1]
        exact ⟨hfin _ (by rw [saveError_r]; exact h2), fun d hd => by cases hd⟩
      · rename_i buf rest hread
        have hb := Read_le _ _ _ _ hread
        split at h
        · simp only [Except.ok.injEq, Prod.mk.injEq] at h
          rw [← h.2, ← h.1]
          exact ⟨hfin _ (by rw [saveError_r]; exact Nat.le_trans hb.2 h2),
            fun d hd => by cases hd⟩
        · simp only [Except.ok.injEq, Prod.mk.injEq] at h
          rw [← h.2, ← h.1]
          refine ⟨hfin _ (Nat.le_trans hb.2 h2), ?_⟩
          intro d hd
          simp only [Value.str.injEq] at hd
          rw [← hd]
          exact Nat.le_trans hb.1 h2
  · simp only [Except.ok.injEq, Prod.mk.injEq] at h
    rw [← h.2, ← h.1]
    exact ⟨hfin _ h2, fun d hd => by cases hd⟩

theorem decodeString_fault (u : Unserializer) (left right : Rune) (isFinal : Bool) (f : Fault)
    (h : decodeString u left right isFinal = .error f) : f = .makeslice := by
  unfold decodeString at h
  rcases hr : readLen u with ⟨strLen, u1⟩
  simp only [hr] at h
  split at h
  · split at h
    · simp only [Except.error.injEq] at h
      exact h.symm
    · split at h
      · cases h
      · split at h <;> cases h
  · cases h

theorem StepOk.pure {α : Type} (Q : Fault → Prop) (n : Nat) (p : α × Unserializer)
    (h : p.2.r.length ≤ n) : StepOk Q n (.ok p) (.ok p) := by
  unfold StepOk
  refine ⟨rfl, fun f hf => (by cases hf), ?_⟩
  intro x u' hx
  simp only [Except.ok.injEq] at hx
  rw [hx] at h
  exact h

theorem StepOk.fault {α : Type} (Q : Fault → Prop) (n : Nat) (f : Fault) (hf : Q f) :
    StepOk Q n (.error f : Except Fault (α × Unserializer)) (.error f) := by
  unfold StepOk
  refine ⟨rfl, ?_, fun x u' hx => by cases hx⟩
  intro g hg
  simp only [Except.error.injEq] at hg
  rw [← hg]
  exact hf

theorem StepOk.mono {α : Type} {Q : Fault → Prop} {n m : Nat}
    {a b : Except Fault (α × Unserializer)} (h : StepOk Q n a b) (hnm : n ≤ m) :
    StepOk Q m a b := by
  obtain ⟨e, q, s⟩ := h
  exact ⟨e, q, fun x u' hx => Nat.le_trans (s x u' hx) hnm⟩

theorem decodeString_step (Q : Fault → Prop) (hQ : Q .makeslice) (u : Unserializer)
    (left right : Rune) (isFinal : Bool) :
    StepOk Q u.r.length (decodeString u left right isFinal)
      (decodeString u left right isFinal) := by
  unfold StepOk
  exact ⟨rfl, fun f hf => by rw [decodeString_fault _ _ _ _ _ hf]; exact hQ,
    fun v u' hv => (decodeString_le _ _ _ _ _ _ hv).1⟩

theorem readClassName_step (Q : Fault → Prop) (hQ : Q .makeslice) (u : Unserializer) :
    StepOk Q u.r.length (readClassName u) (readClassName u) := by
  unfold StepOk
  refine ⟨rfl, ?_, ?_⟩
  · intro f h
    unfold readClassName at h
    split at h
    · rename_i f' heq
      simp only [Except.error.injEq] at h
      rw [← h, decodeString_fault _ _ _ _ _ heq]
      exact hQ
    · cases h
    · cases h
  · intro cls u' h
    unfold readClassName at h
    split at h
    · cases h
    · rename_i res u1 heq
      simp only [Except.ok.injEq, Prod.mk.injEq] at h
      rw [← h.2]
      exact (decodeString_le _ _ _ _ _ _ heq).1
    · rename_i v1 u1 hne heq
      simp only [Except.ok.injEq, Prod.mk.injEq] at h
      rw [← h.2]
      exact (decodeString_le _ _ _ _ _ _ heq).1

theorem replaceEntry_length (k v : Value) :
    ∀ (m m' : PArray), replaceEntry k v m = some m' → m'.length = m.length := by
  intro m
  induction m with
  | nil => intro m' h; simp [replaceEntry] at h
  | cons en rest ih =>
    intro m' h
    obtain ⟨k0, v0⟩ := en
    unfold replaceEntry at h
    split at h
    · simp only [Option.some.injEq] at h
      rw [← h]
      rfl
    · cases hr : replaceEntry k v rest with
      | none => rw [hr] at h; simp at h
      | some r' =>
        rw [hr] at h
        simp only [Option.map_some', Option.some.injEq] at h
        rw [← h]
        simp only [List.length_cons, ih r' hr]

theorem mapassign_length (val : PArray) (k v : Value) (val' : PArray)
    (h : mapassign val k v = .ok val') : val'.length ≤ val.length + 1 := by
  unfold mapassign at h
  split at h
  · split at h
    · rename_i r hr
      simp only [Except.ok.injEq] at h
      rw [← h, replaceEntry_length k v val r hr]
      omega
    · simp only [Except.ok.injEq] at h
      rw [← h]
      simp
  · cases h

theorem mapassign_fault (val : PArray) (k v : Value) (f : Fault)
    (h : mapassign val k v = .error f) : f = .unhashable := by
  unfold mapassign at h
  split at h
  · split at h <;> cases h
  · simp only [Except.error.injEq] at h
    exact h.symm

/-- The loop of decodeArray adds at most one entry in each of its `n` turns. -/
theorem decodeArrayLoop_length (dec : Unserializer → Except Fault (Value × Unserializer)) :
    ∀ (n : Nat) (val : PArray) (u : Unserializer) (val' : PArray) (u' : Unserializer),
      decodeArrayLoop dec n val u = .ok (val', u') → val'.length ≤ val.length + n := by
  intro n
  induction n with
  | zero =>
    intro val u val' u' h
    simp only [decodeArrayLoop, Except.ok.injEq, Prod.mk.injEq] at h
    rw [← h.1]
    omega
  | succ n ih =>
    intro val u val' u' h
    unfold decodeArrayLoop at h
    split at h
    · cases h
    · split at h
      · cases h
      · split at h
        · split at h
          · cases h
          · rename_i m' hm
            have h1 := mapassign_length _ _ _ _ hm
            have h2 := ih _ _ _ _ h
            omega
        · have h2 := ih _ _ _ _ h
          omega

theorem decodeArrayLoop_stable (Q : Fault → Prop) (hQ : Q .unhashable) (K : Nat)
    (dec dec' : Unserializer → Except Fault (Value × Unserializer))
    (hdec : Stable Q K dec dec') :
    ∀ (n : Nat) (val : PArray) (u : Unserializer), u.r.length ≤ K →
      StepOk Q u.r.length (decodeArrayLoop dec n val u) (decodeArrayLoop dec' n val u) := by
  intro n
  induction n with
  | zero =>
    intro val u _
    simp only [decodeArrayLoop]
    exact StepOk.pure Q _ (val, u) (Nat.le_refl _)
  | succ n ih =>
    intro val u hu
    obtain ⟨e1, q1, s1⟩ := hdec u hu
    simp only [decodeArrayLoop]
    rw [← e1]
    cases hk : dec u with
    | error f => exact StepOk.fault Q _ f (q1 f hk)
    | ok p =>
      obtain ⟨k, u1⟩ := p
      have hu1 : u1.r.length ≤ u.r.length := s1 k u1 hk
      obtain ⟨e2, q2, s2⟩ := hdec u1 (Nat.le_trans hu1 hu)
      simp only
      rw [← e2]
      cases hv : dec u1 with
      | error f => exact StepOk.fault Q _ f (q2 f hv)
      | ok p2 =>
        obtain ⟨v, u2⟩ := p2
        have hu2 : u2.r.length ≤ u1.r.length := s2 v u2 hv
        simp only
        by_cases hnone : u1.lastErr = none ∧ u2.lastErr = none
        · simp only [if_pos hnone]
          cases hm : mapassign val k v with
          | error f =>
            rw [mapassign_fault _ _ _ _ hm]
            exact StepOk.fault Q _ _ hQ
          | ok val1 =>
            simp only
            exact (ih val1 u2 (by omega)).mono (by omega)
        · simp only [if_neg hnone]
          have hs : (saveError u2 .arrayKeyOrValue).r.length ≤ u.r.length := by
            rw [saveError_r]; omega
          exact (ih val (saveError u2 .arrayKeyOrValue) (by omega)).mono hs

theorem decodeArrayMap_stable (Q : Fault → Prop) (hQ : Q .unhashable) (K : Nat)
    (dec dec' : Unserializer → Except Fault (Value × Unserializer))
    (hdec : Stable Q K dec dec') (u : Unserializer) (hu : u.r.length ≤ K) :
    StepOk Q u.r.length (decodeArrayMap dec u) (decodeArrayMap dec' u) := by
  have h1 := readLen_le u
  unfold decodeArrayMap
  rcases hr : readLen u with ⟨arrLen, u1⟩
  rw [hr] at h1
  simp only
  have h2 : (expect u1 DELIMITER_OBJECT_LEFT).r.length ≤ u.r.length :=
    Nat.le_trans (expect_le _ _) h1
  generalize expect u1 DELIMITER_OBJECT_LEFT = u2 at h2 ⊢
  obtain ⟨e, q, s⟩ := decodeArrayLoop_stable Q hQ K dec dec' hdec arrLen.toNat [] u2
    (Nat.le_trans h2 hu)
  rw [← e]
  cases hl : decodeArrayLoop dec arrLen.toNat [] u2 with
  | error f => exact StepOk.fault Q _ f (q f hl)
  | ok p =>
    obtain ⟨val, u3⟩ := p
    have h3 := s val u3 hl
    simp only
    exact StepOk.pure Q _ (val, expect u3 DELIMITER_OBJECT_RIGHT)
      (Nat.le_trans (expect_le _ _) (Nat.le_trans h3 h2))

theorem decodeArray_stable (Q : Fault → Prop) (hQ : Q .unhashable) (K : Nat)
    (dec dec' : Unserializer → Except Fault (Value × Unserializer))
    (hdec : Stable Q K dec dec') (u : Unserializer) (hu : u.r.length ≤ K) :
    StepOk Q u.r.length (decodeArray dec u) (decodeArray dec' u) := by
  obtain ⟨e, q, s⟩ := decodeArrayMap_stable Q hQ K dec dec' hdec u hu
  unfold decodeArray
  rw [← e]
  cases hm : decodeArrayMap dec u with
  | error f => exact StepOk.fault Q _ f (q f hm)
  | ok p =>
    obtain ⟨val, u1⟩ := p
    simp only
    exact StepOk.pure Q _ (Value.array val, u1) (s val u1 hm)

theorem decodeObject_stable (Q : Fault → Prop) (hQm : Q .makeslice) (hQ : Q .unhashable)
    (K : Nat) (dec dec' : Unserializer → Except Fault (Value × Unserializer))
    (hdec : Stable Q K dec dec') (u : Unserializer) (hu : u.r.length ≤ K) :
    StepOk Q u.r.length (decodeObject dec u) (decodeObject dec' u) := by
  obtain ⟨_, qc, sc⟩ := readClassName_step Q hQm u
  unfold decodeObject
  cases hc : readClassName u with
  | error f => exact StepOk.fault Q _ f (qc f hc)
  | ok p =>
    obtain ⟨cls, u1⟩ := p
    have h1 := sc cls u1 hc
    obtain ⟨e, q, s⟩ := decodeArrayMap_stable Q hQ K dec dec' hdec u1 (Nat.le_trans h1 hu)
    simp only
    rw [← e]
    cases hm : decodeArrayMap dec u1 with
    | error f => exact StepOk.fault Q _ f (q f hm)
    | ok p2 =>
      obtain ⟨val, u2⟩ := p2
      simp only
      exact StepOk.pure Q _ (Value.object cls val, u2) (Nat.le_trans (s val u2 hm) h1)

theorem payload_length (rawData : Value) (n : Nat)
    (hd : ∀ d, rawData = .str d → d.length ≤ n) :
    (match rawData with
      | .str d => d
      | _ => ([] : Bytes)).length ≤ n := by
  cases rawData with
  | str d => exact hd d rfl
  | _ => exact Nat.zero_le _

theorem hookStep_stable (Q : Fault → Prop) (L : Nat) (h1 h2 : Option DecodeFunc)
    (cls data : Bytes) (hlen : data.length < L)
    (u : Unserializer) (n : Nat) (hu : u.r.length ≤ n) :
    HookStable Q L h1 h2 → StepOk (α := Value) Q n
      (match h1 with
        | none => Except.ok (Value.objectSerialized cls data .null, u)
        | some f =>
          if data ≠ [] then
            match f data with
            | .error p => Except.error p
            | .ok (v, some err) => Except.ok (Value.objectSerialized cls data v, saveError u err)
            | .ok (v, none) => Except.ok (Value.objectSerialized cls data v, u)
          else Except.ok (Value.objectSerialized cls data .null, u))
      (match h2 with
        | none => Except.ok (Value.objectSerialized cls data .null, u)
        | some f =>
          if data ≠ [] then
            match f data with
            | .error p => Except.error p
            | .ok (v, some err) => Except.ok (Value.objectSerialized cls data v, saveError u err)
            | .ok (v, none) => Except.ok (Value.objectSerialized cls data v, u)
          else Except.ok (Value.objectSerialized cls data .null, u)) := by
  intro hhook
  cases h1 with
  | none =>
    cases h2 with
    | none => exact StepOk.pure Q _ (Value.objectSerialized cls data .null, u) hu
    | some g' => exact absurd hhook (by simp [HookStable])
  | some g =>
    cases h2 with
    | none => exact absurd hhook (by simp [HookStable])
    | some g' =>
      simp only
      by_cases hne : data ≠ []
      · simp only [if_pos hne]
        obtain ⟨eg, qg⟩ := hhook data hlen
        rw [← eg]
        cases hres : g data with
        | error f => exact StepOk.fault Q _ f (qg f hres)
        | ok res =>
          obtain ⟨v, err⟩ := res
          cases err with
          | some x =>
            exact StepOk.pure Q _ (Value.objectSerialized cls data v, saveError u x)
              (by rw [saveError_r]; exact hu)
          | none => exact StepOk.pure Q _ (Value.objectSerialized cls data v, u) hu
      · simp only [if_neg hne]
        exact StepOk.pure Q _ (Value.objectSerialized cls data .null, u) hu

theorem decodeSerialized_stable (Q : Fault → Prop) (hQm : Q .makeslice) (L : Nat)
    (E1 E2 : Env) (hE : EnvStable Q L E1 E2) (u : Unserializer) (hu : u.r.length < L) :
    StepOk Q u.r.length (decodeSerialized E1 u) (decodeSerialized E2 u) := by
  obtain ⟨_, qc, sc⟩ := readClassName_step Q hQm u
  unfold decodeSerialized
  cases hc : readClassName u with
  | error f => exact StepOk.fault Q _ f (qc f hc)
  | ok p =>
    obtain ⟨cls, u1⟩ := p
    have h1 := sc cls u1 hc
    simp only
    cases hs : decodeString u1 DELIMITER_OBJECT_LEFT DELIMITER_OBJECT_RIGHT false with
    | error f =>
      rw [decodeString_fault _ _ _ _ _ hs]
      exact StepOk.fault Q _ _ hQm
    | ok p2 =>
      obtain ⟨rawData, u2⟩ := p2
      obtain ⟨h2, hd⟩ := decodeString_le _ _ _ _ _ _ hs
      have hu2 : u2.r.length ≤ u.r.length := Nat.le_trans h2 h1
      have hlen := payload_length rawData u1.r.length hd
      exact hookStep_stable Q L E1.DecodeFunc E2.DecodeFunc cls _
        (Nat.lt_of_le_of_lt hlen (Nat.lt_of_le_of_lt h1 hu)) u2 _ hu2 hE.2.2.2

theorem decodeSplArray_stable (Q : Fault → Prop) (hQ : Q .typeAssertion) (K : Nat)
    (E1 E2 : Env) (hpf : E1.ParseFloat = E2.ParseFloat)
    (hm : E1.TOKEN_SPL_ARRAY_MEMBERS = E2.TOKEN_SPL_ARRAY_MEMBERS)
    (dec dec' : Unserializer → Except Fault (Value × Unserializer))
    (hdec : Stable Q K dec dec') (u : Unserializer) (hu : u.r.length ≤ K) :
    StepOk Q u.r.length (decodeSplArray E1 dec u) (decodeSplArray E2 dec' u) := by
  unfold decodeSplArray
  simp only
  rw [decodeNumber_env E1 E2 hpf, hm]
  have h0 : (expect (expect u SEPARATOR_VALUE_TYPE) TOKEN_INT).r.length ≤ u.r.length :=
    Nat.le_trans (expect_le _ _) (expect_le _ _)
  have h1 := decodeNumber_le E2 false (expect (expect u SEPARATOR_VALUE_TYPE) TOKEN_INT)
  rcases hn : decodeNumber E2 false (expect (expect u SEPARATOR_VALUE_TYPE) TOKEN_INT)
    with ⟨flags, u1⟩
  rw [hn] at h1
  have hu1 : u1.r.length ≤ u.r.length := Nat.le_trans h1 h0
  cases flags with
  | null =>
    exact StepOk.pure Q _ (Value.null, saveError u1 .splFlags) (by rw [saveError_r]; exact hu1)
  | int n =>
    dsimp only
    obtain ⟨e1, q1, s1⟩ := hdec u1 (Nat.le_trans hu1 hu)
    rw [← e1]
    cases ha : dec u1 with
    | error f => exact StepOk.fault Q _ f (q1 f ha)
    | ok p =>
      obtain ⟨arr, u2⟩ := p
      have hu2 : u2.r.length ≤ u.r.length := Nat.le_trans (s1 arr u2 ha) hu1
      simp only
      cases he : u2.lastErr with
      | some err =>
        exact StepOk.pure Q _ (Value.null, saveError u2 (.splArray err))
          (by rw [saveError_r]; exact hu2)
      | none =>
        simp only
        have hu3 : (expect (expect (expect u2 SEPARATOR_VALUES) E2.TOKEN_SPL_ARRAY_MEMBERS)
            SEPARATOR_VALUE_TYPE).r.length ≤ u.r.length :=
          Nat.le_trans (expect_le _ _) (Nat.le_trans (expect_le _ _)
            (Nat.le_trans (expect_le _ _) hu2))
        generalize expect (expect (expect u2 SEPARATOR_VALUES) E2.TOKEN_SPL_ARRAY_MEMBERS)
            SEPARATOR_VALUE_TYPE = u3 at hu3 ⊢
        obtain ⟨e2, q2, s2⟩ := hdec u3 (Nat.le_trans hu3 hu)
        rw [← e2]
        cases hp : dec u3 with
        | error f => exact StepOk.fault Q _ f (q2 f hp)
        | ok p2 =>
          obtain ⟨props, u4⟩ := p2
          have hu4 : u4.r.length ≤ u.r.length := Nat.le_trans (s2 props u4 hp) hu3
          simp only
          cases he4 : u4.lastErr with
          | some err =>
            exact StepOk.pure Q _ (Value.null, saveError u4 (.splProperties err))
              (by rw [saveError_r]; exact hu4)
          | none => exact StepOk.pure Q _ (Value.splArray n arr props, u4) hu4
  | _ => exact StepOk.fault Q _ _ hQ

/-- The budget of Decode is never the reason a run ends: with any two budgets
above the number of unread bytes, and hooks that agree on the payloads shorter
than `L`, the runs give the same result; a run that returns has found the
reader at its end or has read at least one byte. -/
theorem DecodeFuel_stable (Q : Fault → Prop) (hQm : Q .makeslice) (hQu : Q .unhashable)
    (hQt : Q .typeAssertion) (L : Nat) (E1 E2 : Env) (hE : EnvStable Q L E1 E2) :
    ∀ (f f' : Nat) (u : Unserializer), u.r.length < f → u.r.length < f' → u.r.length ≤ L →
      DecodeFuel E1 f u = DecodeFuel E2 f' u ∧
      (∀ x, DecodeFuel E1 f u = .error x → Q x) ∧
      ∀ v u', DecodeFuel E1 f u = .ok (v, u') →
        (u.r = [] ∧ v = .null ∧ u' = u) ∨ u'.r.length < u.r.length := by
  intro f
  induction f with
  | zero => intro f' u h; exact absurd h (Nat.not_lt_zero _)
  | succ f ih =>
    intro f' u hf hf' hL
    cases f' with
    | zero => exact absurd hf' (Nat.not_lt_zero _)
    | succ f' =>
      simp only [DecodeFuel]
      cases hr : ReadRune u.r with
      | none =>
        refine ⟨rfl, fun x hx => (by cases hx), ?_⟩
        intro v u' h
        simp only [Except.ok.injEq, Prod.mk.injEq] at h
        exact Or.inl ⟨ReadRune_none _ hr, h.1.symm, h.2.symm⟩
      | some p =>
        obtain ⟨token, rest⟩ := p
        have hlt := ReadRune_lt _ _ _ hr
        have hdec : Stable Q rest.length (DecodeFuel E1 f) (DecodeFuel E2 f') := by
          intro u1 hu1
          obtain ⟨a, b, c⟩ := ih f' u1 (by omega) (by omega) (by omega)
          refine ⟨a, b, ?_⟩
          intro v u' h
          rcases c v u' h with ⟨_, _, h3⟩ | h3
          · rw [h3]
          · exact Nat.le_of_lt h3
        obtain ⟨hpf, htok, hmem, hhook⟩ := hE
        simp only
        rw [decodeNumber_env E1 E2 hpf, decodeNumber_env E1 E2 hpf, htok]
        suffices hstep : StepOk Q rest.length
            (if token = TOKEN_NULL then .ok (decodeNull ⟨rest, u.lastErr⟩)
              else if token = TOKEN_BOOL then .ok (decodeBool ⟨rest, u.lastErr⟩)
              else if token = TOKEN_INT then .ok (decodeNumber E2 false ⟨rest, u.lastErr⟩)
              else if token = TOKEN_FLOAT then .ok (decodeNumber E2 true ⟨rest, u.lastErr⟩)
              else if token = TOKEN_STRING then
                decodeString ⟨rest, u.lastErr⟩ DELIMITER_STRING_LEFT DELIMITER_STRING_RIGHT true
              else if token = TOKEN_ARRAY then decodeArray (DecodeFuel E1 f) ⟨rest, u.lastErr⟩
              else if token = TOKEN_OBJECT then decodeObject (DecodeFuel E1 f) ⟨rest, u.lastErr⟩
              else if token = TOKEN_OBJECT_SERIALIZED then decodeSerialized E1 ⟨rest, u.lastErr⟩
              else if token = TOKEN_REFERENCE ∨ token = TOKEN_REFERENCE_OBJECT then
                .ok (decodeReference ⟨rest, u.lastErr⟩)
              else if token = E2.TOKEN_SPL_ARRAY then
                decodeSplArray E1 (DecodeFuel E1 f) ⟨rest, u.lastErr⟩
              else .ok (.null, saveError ⟨rest, u.lastErr⟩ (.unknownToken token)))
            (if token = TOKEN_NULL then .ok (decodeNull ⟨rest, u.lastErr⟩)
              else if token = TOKEN_BOOL then .ok (decodeBool ⟨rest, u.lastErr⟩)
              else if token = TOKEN_INT then .ok (decodeNumber E2 false ⟨rest, u.lastErr⟩)
              else if token = TOKEN_FLOAT then .ok (decodeNumber E2 true ⟨rest, u.lastErr⟩)
              else if token = TOKEN_STRING then
                decodeString ⟨rest, u.lastErr⟩ DELIMITER_STRING_LEFT DELIMITER_STRING_RIGHT true
              else if token = TOKEN_ARRAY then decodeArray (DecodeFuel E2 f') ⟨rest, u.lastErr⟩
              else if token = TOKEN_OBJECT then decodeObject (DecodeFuel E2 f') ⟨rest, u.lastErr⟩
              else if token = TOKEN_OBJECT_SERIALIZED then decodeSerialized E2 ⟨rest, u.lastErr⟩
              else if token = TOKEN_REFERENCE ∨ token = TOKEN_REFERENCE_OBJECT then
                .ok (decodeReference ⟨rest, u.lastErr⟩)
              else if token = E2.TOKEN_SPL_ARRAY then
                decodeSplArray E2 (DecodeFuel E2 f') ⟨rest, u.lastErr⟩
              else .ok (.null, saveError ⟨rest, u.lastErr⟩ (.unknownToken token))) by
          obtain ⟨a, b, c⟩ := hstep
          exact ⟨a, b, fun v u' h => Or.inr (Nat.lt_of_le_of_lt (c v u' h) hlt)⟩
        have hrest : (⟨rest, u.lastErr⟩ : Unserializer).r.length ≤ rest.length := Nat.le_refl _
        have hrestL : (⟨rest, u.lastErr⟩ : Unserializer).r.length < L :=
          Nat.lt_of_lt_of_le hlt hL
        by_cases h1 : token = TOKEN_NULL
        · simp only [if_pos h1]
          exact StepOk.pure Q _ _ (decodeNull_le ⟨rest, u.lastErr⟩)
        simp only [if_neg h1]
        by_cases h2 : token = TOKEN_BOOL
        · simp only [if_pos h2]
          exact StepOk.pure Q _ _ (decodeBool_le ⟨rest, u.lastErr⟩)
        simp only [if_neg h2]
        by_cases h3 : token = TOKEN_INT
        · simp only [if_pos h3]
          exact StepOk.pure Q _ _ (decodeNumber_le E2 false ⟨rest, u.lastErr⟩)
        simp only [if_neg h3]
        by_cases h4 : token = TOKEN_FLOAT
        · simp only [if_pos h4]
          exact StepOk.pure Q _ _ (decodeNumber_le E2 true ⟨rest, u.lastErr⟩)
        simp only [if_neg h4]
        by_cases h5 : token = TOKEN_STRING
        · simp only [if_pos h5]
          exact decodeString_step Q hQm ⟨rest, u.lastErr⟩ _ _ _
        simp only [if_neg h5]
        by_cases h6 : token = TOKEN_ARRAY
        · simp only [if_pos h6]
          exact decodeArray_stable Q hQu _ _ _ hdec ⟨rest, u.lastErr⟩ hrest
        simp only [if_neg h6]
        by_cases h7 : token = TOKEN_OBJECT
        · simp only [if_pos h7]
          exact decodeObject_stable Q hQm hQu _ _ _ hdec ⟨rest, u.lastErr⟩ hrest
        simp only [if_neg h7]
        by_cases h8 : token = TOKEN_OBJECT_SERIALIZED
        · simp only [if_pos h8]
          exact decodeSerialized_stable Q hQm L E1 E2 ⟨hpf, htok, hmem, hhook⟩
            ⟨rest, u.lastErr⟩ hrestL
        simp only [if_neg h8]
        by_cases h9 : token = TOKEN_REFERENCE ∨ token = TOKEN_REFERENCE_OBJECT
        · simp only [if_pos h9]
          exact StepOk.pure Q _ _ (decodeReference_le ⟨rest, u.lastErr⟩)
        simp only [if_neg h9]
        by_cases h10 : token = E2.TOKEN_SPL_ARRAY
        · simp only [if_pos h10]
          exact decodeSplArray_stable Q hQt _ E1 E2 hpf hmem _ _ hdec ⟨rest, u.lastErr⟩ hrest
        simp only [if_neg h10]
        exact StepOk.pure Q _ (Value.null, saveError ⟨rest, u.lastErr⟩ (.unknownToken token))
          (Nat.le_of_eq (congrArg List.length (saveError_r _ _)))

theorem envStable_self (E : Env) (L : Nat) : EnvStable (fun _ => True) L E E := by
  refine ⟨rfl, rfl, rfl, ?_⟩
  cases h : E.DecodeFunc with
  | none => trivial
  | some g => exact fun data _ => ⟨rfl, fun _ _ => trivial⟩

/-- The budget of UnSerialize is never the reason a run ends, neither in the
outer call nor in a call the hook makes. -/
theorem UnSerializeFuel_stable (E : Env) :
    ∀ (f f' : Nat) (s : Bytes), s.length < f → s.length < f' →
      UnSerializeFuel E f s = UnSerializeFuel E f' s ∧ UnSerializeFuel E f s ≠ .error .fuel := by
  intro f
  induction f with
  | zero => intro f' s h; exact absurd h (Nat.not_lt_zero _)
  | succ f ih =>
    intro f' s h1 h2
    cases f' with
    | zero => exact absurd h2 (Nat.not_lt_zero _)
    | succ f' =>
      have hE : EnvStable (fun x => x ≠ Fault.fuel) s.length
          { E with DecodeFunc := some (UnSerializeFuel E f) }
          { E with DecodeFunc := some (UnSerializeFuel E f') } := by
        refine ⟨rfl, rfl, rfl, ?_⟩
        intro data hd
        obtain ⟨a, b⟩ := ih f' data (by omega) (by omega)
        exact ⟨a, fun x hx hfuel => b (by rw [hx, hfuel])⟩
      obtain ⟨e, q, _⟩ := DecodeFuel_stable (fun x => x ≠ Fault.fuel) (by decide) (by decide)
        (by decide) s.length _ _ hE (s.length + 1) (s.length + 1) ⟨s, none⟩
        (Nat.lt_succ_self _) (Nat.lt_succ_self _) (Nat.le_refl _)
      simp only [UnSerializeFuel, Decode, NewUnserializer]
      rw [← e]
      cases hd : DecodeFuel { E with DecodeFunc := some (UnSerializeFuel E f) } (s.length + 1)
          ⟨s, none⟩ with
      | error x =>
        refine ⟨rfl, ?_⟩
        intro h
        simp only [Except.error.injEq] at h
        exact q x hd h
      | ok p => exact ⟨rfl, fun h => (by cases h)⟩

/-- C23: UnSerialize terminates on every input string `s`. The recursion of
Decode and of the hook UnSerialize installs never uses up the budget the model
gives it (the length of the input plus one), and any larger budget gives the
same result. The hook is only applied to payloads shorter than `s`: two hooks
that agree on all shorter texts give the same result on `s`. Every Decode call
that returns has found the reader at its end, returning nil at once, or has
read at least one byte; a call with any budget above the number of unread
bytes gives the result of Decode. The loop of decodeArray runs its declared
count of turns and adds at most one entry per turn, and the loop of readUntil
ends within the number of unread bytes. -/
theorem C23_unserialize_terminates (E : Env) (s : Bytes) :
    UnSerialize E s ≠ .error .fuel ∧
    (∀ fuel, s.length < fuel → UnSerializeFuel E fuel s = UnSerialize E s) ∧
    (∀ g g' : DecodeFunc, (∀ data : Bytes, data.length < s.length → g data = g' data) →
      Decode { E with DecodeFunc := some g } (NewUnserializer s)
        = Decode { E with DecodeFunc := some g' } (NewUnserializer s)) ∧
    (∀ (u : Unserializer) (v : Value) (u' : Unserializer), Decode E u = .ok (v, u') →
      (u.r = [] ∧ v = .null ∧ u' = u) ∨ u'.r.length < u.r.length) ∧
    (∀ (u : Unserializer) (fuel : Nat), u.r.length < fuel → DecodeFuel E fuel u = Decode E u) ∧
    (∀ (dec : Unserializer → Except Fault (Value × Unserializer)) (n : Nat) (val : PArray)
      (u : Unserializer) (val' : PArray) (u' : Unserializer),
      decodeArrayLoop dec n val u = .ok (val', u') → val'.length ≤ val.length + n) ∧
    (∀ (stop : Rune) (u : Unserializer) (fuel : Nat), u.r.length < fuel →
      readUntilLoop stop fuel [] u.r = readUntilLoop stop (u.r.length + 1) [] u.r) := by
  refine ⟨(UnSerializeFuel_stable E _ _ s (Nat.lt_succ_self _) (Nat.lt_succ_self _)).2, ?_, ?_,
    ?_, ?_, fun dec => decodeArrayLoop_length dec, ?_⟩
  · intro fuel hf
    exact (UnSerializeFuel_stable E fuel (s.length + 1) s hf (Nat.lt_succ_self _)).1
  · intro g g' hg
    have hE : EnvStable (fun _ => True) s.length { E with DecodeFunc := some g }
        { E with DecodeFunc := some g' } :=
      ⟨rfl, rfl, rfl, fun data hd => ⟨hg data hd, fun _ _ => trivial⟩⟩
    exact (DecodeFuel_stable (fun _ => True) trivial trivial trivial s.length _ _ hE
      (s.length + 1) (s.length + 1) ⟨s, none⟩ (Nat.lt_succ_self _) (Nat.lt_succ_self _)
      (Nat.le_refl _)).1
  · intro u v u' h
    exact (DecodeFuel_stable (fun _ => True) trivial trivial trivial u.r.length E E
      (envStable_self E _) (u.r.length + 1) (u.r.length + 1) u (Nat.lt_succ_self _)
      (Nat.lt_succ_self _) (Nat.le_refl _)).2.2 v u' h
  · intro u fuel hf
    exact (DecodeFuel_stable (fun _ => True) trivial trivial trivial u.r.length E E
      (envStable_self E _) fuel (u.r.length + 1) u hf (Nat.lt_succ_self _) (Nat.le_refl _)).1
  · intro stop u fuel hf
    exact readUntilLoop_fuel stop fuel (u.r.length + 1) [] u.r hf (Nat.lt_succ_self _)

/-- C23, instance: a `C`-tagged object whose payload is again a `C`-tagged
object, so that the hook UnSerialize installs calls itself once more. -/
theorem C23_unserialize_terminates_witness :
    UnSerialize sampleEnv (ascii "C:1:\"A\":14:\x7bC:1:\"B\":2:\x7bN;\x7d\x7d") ≠ .error .fuel ∧
    UnSerialize sampleEnv (ascii "C:1:\"A\":14:\x7bC:1:\"B\":2:\x7bN;\x7d\x7d")
      = .ok (.objectSerialized (ascii "A") (ascii "C:1:\"B\":2:\x7bN;\x7d")
          (.objectSerialized (ascii "B") (ascii "N;") .null), none) :=
  ⟨(C23_unserialize_terminates sampleEnv
      (ascii "C:1:\"A\":14:\x7bC:1:\"B\":2:\x7bN;\x7d\x7d")).1, rfl⟩

end Termination

section FirstErrorMet
open Unserializer

theorem Decode_int_text (E : Env) (raw rest : Bytes) (e : Option Error) (fuel : Nat)
    (hraw : ∀ c ∈ raw, c < 128 ∧ c ≠ SEPARATOR_VALUES) :
    DecodeFuel E (fuel + 1) ⟨encIntText raw ++ rest, e⟩
      = .ok (.int (Atoi raw).1, ⟨rest, firstOf e (intTextError raw)⟩) := by
  simp only [DecodeFuel, encIntText, List.cons_append, List.append_assoc, List.singleton_append,
    List.nil_append, ReadRune_ascii TOKEN_INT _ (by simp [TOKEN_INT])]
  simp only [TOKEN_NULL, TOKEN_BOOL, TOKEN_INT, Nat.reduceEqDiff, if_false, if_true]
  simp only [decodeNumber]
  rw [expect_ascii _ _ _ (by simp [SEPARATOR_VALUE_TYPE]),
    readUntil_ascii _ _ _ _ hraw (by simp [SEPARATOR_VALUES])]
  rcases ha : Atoi raw with ⟨val, err⟩
  cases err <;> cases e <;> simp [intTextError, firstOf, ha, saveError]

theorem firstOf_assoc (e a b : Option Error) : firstOf (firstOf e a) b = firstOf e (firstOf a b) := by
  cases e <;> rfl

theorem firstRejected_cons (raw : Bytes) (rest : List Bytes) :
    firstRejected (raw :: rest) = firstOf (intTextError raw) (firstRejected rest) := by
  simp only [firstRejected, firstOf]

/-- The loop of decodeArray over pairs of int texts: it reads them all, and the
error slot ends with the error it held or else the error of the first text, in
cursor order, that strconv.Atoi rejects. -/
theorem decodeArrayLoop_intTexts (E : Env) (fuel : Nat) (items : List (Bytes × Bytes))
    (hraw : ∀ txt ∈ cursorTexts items, ∀ c ∈ txt, c < 128 ∧ c ≠ SEPARATOR_VALUES) :
    ∀ (val : PArray) (t : Bytes) (e : Option Error), ∃ val' : PArray,
      decodeArrayLoop (DecodeFuel E (fuel + 1)) items.length val ⟨encIntTexts items ++ t, e⟩
        = .ok (val', ⟨t, firstOf e (firstRejected (cursorTexts items))⟩) := by
  induction items with
  | nil =>
    intro val t e
    refine ⟨val, ?_⟩
    cases e <;> simp [decodeArrayLoop, encIntTexts, cursorTexts, firstRejected, firstOf]
  | cons p ps ih =>
    intro val t e
    have h1 := hraw p.1 (by simp [cursorTexts])
    have h2 := hraw p.2 (by simp [cursorTexts])
    have hps : ∀ txt ∈ cursorTexts ps, ∀ c ∈ txt, c < 128 ∧ c ≠ SEPARATOR_VALUES :=
      fun txt htxt => hraw txt (by simp [cursorTexts, htxt])
    simp only [List.length_cons, decodeArrayLoop, encIntTexts, List.append_assoc,
      Decode_int_text E p.1 _ e fuel h1, Decode_int_text E p.2 _ _ fuel h2]
    simp only [cursorTexts, firstRejected_cons]
    by_cases hnone : firstOf e (intTextError p.1) = none ∧
        firstOf (firstOf e (intTextError p.1)) (intTextError p.2) = none
    · rw [if_pos hnone,
        mapassign_hashable val (.int (Atoi p.1).1) (.int (Atoi p.2).1) rfl]
      obtain ⟨val', hv⟩ := ih hps (put val (.int (Atoi p.1).1) (.int (Atoi p.2).1)) t
        (firstOf (firstOf e (intTextError p.1)) (intTextError p.2))
      refine ⟨val', ?_⟩
      simp only [hv]
      rw [firstOf_assoc, firstOf_assoc]
    · rw [if_neg hnone]
      have hsome : ∃ x, firstOf (firstOf e (intTextError p.1)) (intTextError p.2) = some x := by
        cases h : firstOf (firstOf e (intTextError p.1)) (intTextError p.2) with
        | some x => exact ⟨x, rfl⟩
        | none =>
          exfalso
          apply hnone
          refine ⟨?_, h⟩
          cases h' : firstOf e (intTextError p.1) with
          | none => rfl
          | some y => rw [h'] at h; simp [firstOf] at h
      obtain ⟨x, hx⟩ := hsome
      rw [hx, saveError_some]
      obtain ⟨val', hv⟩ := ih hps val t (some x)
      refine ⟨val', ?_⟩
      rw [hv, ← hx, firstOf_assoc, firstOf_assoc]

theorem encIntTexts_length (items : List (Bytes × Bytes)) :
    items.length ≤ (encIntTexts items).length := by
  induction items with
  | nil => simp
  | cons p ps ih =>
    simp only [encIntTexts, encIntText, List.length_append, List.length_cons]
    omega

theorem Decode_array_eq (E : Env) (X : Bytes) :
    Decode E (NewUnserializer (TOKEN_ARRAY :: X))
      = decodeArray (DecodeFuel E (X.length + 1)) ⟨X, none⟩ := by
  simp only [Decode, NewUnserializer, List.length_cons]
  rw [DecodeFuel_array]

theorem decodeArrayMap_first (E : Env) (fuel : Nat) (pre : List Pair) (k : Bytes) (kv : Value)
    (raw : Bytes) (z : Int) (e : NumError) (n : Nat) (rest : Bytes)
    (hprek : ∀ x ∈ pre, IsKey x.key x.kval) (hprev : ∀ x ∈ pre, Encodes E true x.val x.vval)
    (hfuel : ∀ x ∈ pre, x.val.length ≤ fuel + 1)
    (hk : IsKey k kv) (hraw : ∀ c ∈ raw, c < 128 ∧ c ≠ SEPARATOR_VALUES)
    (hbad : Atoi raw = (z, some e)) (hlt : pre.length < n)
    (hn : (n : Int) ≤ UNSERIALIZABLE_OBJECT_MAX_LEN) (val : PArray) (u' : Unserializer)
    (h : decodeArrayMap (DecodeFuel E (fuel + 1))
        ⟨SEPARATOR_VALUE_TYPE :: (decimal n ++ SEPARATOR_VALUE_TYPE :: DELIMITER_OBJECT_LEFT ::
          (encPairs pre ++ (k ++ (encIntText raw ++ rest)))), none⟩ = .ok (val, u')) :
    u'.lastErr = some (.convInt raw e) := by
  have hpre := decodeArrayLoop_pairs (DecodeFuel E (fuel + 1)) none pre
    (fun x hx t' => Decode_isKey E (hprek x hx) t' none fuel)
    (fun x hx => (hprek x hx).hashable)
    (fun x hx t' => DecodeFuel_encodes E true (hprev x hx) (fuel + 1) t' none
      (hfuel x hx) (Or.inl rfl)) []
  obtain ⟨m, hm⟩ : ∃ m, n = pre.length + (1 + m) := ⟨n - pre.length - 1, by omega⟩
  simp only [decodeArrayMap] at h
  rw [readLen_decimal _ _ _ hn] at h
  simp only [expect_ascii DELIMITER_OBJECT_LEFT _ _ (by simp [DELIMITER_OBJECT_LEFT]),
    Int.toNat_ofNat] at h
  rw [hm, decodeArrayLoop_add, hpre] at h
  simp only [if_true] at h
  rw [decodeArrayLoop_add] at h
  simp only [decodeArrayLoop, Decode_isKey E hk _ none fuel,
    Decode_int_bad E raw z e _ fuel hraw hbad] at h
  simp only [reduceCtorEq, and_false, if_false, saveError_some] at h
  cases hl : decodeArrayLoop (DecodeFuel E (fuel + 1)) m (putAll [] pre)
      ⟨rest, some (.convInt raw e)⟩ with
  | error f => rw [hl] at h; cases h
  | ok p =>
    obtain ⟨val1, u1⟩ := p
    rw [hl] at h
    simp only [Except.ok.injEq, Prod.mk.injEq] at h
    rw [← h.2]
    have k1 := (decodeArrayLoop_keeps _ (DecodeFuel_keeps E (fuel + 1)) _ _ _ _ _ hl).1
    exact expect_keeps _ _ _ (k1 _ rfl)

/-- C8: first error wins. saveError sets the error only while it is nil, and
then it does set it. On a fresh instance over an array of int texts, whatever
they are, Decode reads the whole array and returns the error of the first text
in cursor order that strconv.Atoi rejects (nil when there is none): errors met
later never replace it. On a fresh instance over an array that starts with
well-formed pairs, a well-formed key and an int text strconv.Atoi rejects,
followed by any bytes at all, a Decode call that returns, returns the error of
that text. And an error an instance holds is the error every later Decode call
on that instance returns. -/
theorem C8_first_error_wins (E : Env) :
    (∀ (u : Unserializer) (err : Error),
      (saveError u err).lastErr = some (u.lastErr.getD err)) ∧
    (∀ (items : List (Bytes × Bytes)) (t : Bytes),
      (∀ txt ∈ cursorTexts items, ∀ c ∈ txt, c < 128 ∧ c ≠ SEPARATOR_VALUES) →
      (items.length : Int) ≤ UNSERIALIZABLE_OBJECT_MAX_LEN →
      ∃ val : PArray,
        Decode E (NewUnserializer (encArray items.length (encIntTexts items) ++ t))
          = .ok (.array val, ⟨t, firstRejected (cursorTexts items)⟩)) ∧
    (∀ (pre : List Pair) (k : Bytes) (kv : Value) (raw : Bytes) (z : Int) (e : NumError)
      (n : Nat) (rest : Bytes) (v : Value) (u' : Unserializer),
      (∀ x ∈ pre, IsKey x.key x.kval) → (∀ x ∈ pre, Encodes E true x.val x.vval) →
      IsKey k kv → (∀ c ∈ raw, c < 128 ∧ c ≠ SEPARATOR_VALUES) → Atoi raw = (z, some e) →
      pre.length < n → (n : Int) ≤ UNSERIALIZABLE_OBJECT_MAX_LEN →
      Decode E (NewUnserializer (TOKEN_ARRAY :: SEPARATOR_VALUE_TYPE :: (decimal n ++
        SEPARATOR_VALUE_TYPE :: DELIMITER_OBJECT_LEFT ::
          (encPairs pre ++ (k ++ (encIntText raw ++ rest)))))) = .ok (v, u') →
      u'.lastErr = some (.convInt raw e)) ∧
    (∀ (u : Unserializer) (x : Error), u.lastErr = some x →
      ∀ (v : Value) (u' : Unserializer), Decode E u = .ok (v, u') → u'.lastErr = some x) := by
  refine ⟨?_, ?_, ?_, ?_⟩
  · intro u err
    unfold saveError
    cases h : u.lastErr <;> simp [h]
  · intro items t hraw hn
    obtain ⟨val, hv⟩ := decodeArrayLoop_intTexts E
      (encCounted items.length (encIntTexts items) ++ t).length items hraw []
      (DELIMITER_OBJECT_RIGHT :: t) none
    refine ⟨val, ?_⟩
    simp only [encArray, List.cons_append]
    rw [Decode_array_eq]
    simp only [decodeArray, decodeArrayMap, encCounted, List.cons_append, List.append_assoc,
      List.singleton_append, List.nil_append] at hv ⊢
    rw [readLen_decimal _ _ _ hn]
    simp only [expect_ascii DELIMITER_OBJECT_LEFT _ _ (by simp [DELIMITER_OBJECT_LEFT]),
      Int.toNat_ofNat]
    rw [hv]
    simp only [expect_ascii DELIMITER_OBJECT_RIGHT _ _ (by simp [DELIMITER_OBJECT_RIGHT]),
      firstOf]
  · intro pre k kv raw z e n rest v u' hprek hprev hk hraw hbad hlt hn h
    rw [Decode_array_eq] at h
    have hfuel : ∀ x ∈ pre, x.val.length ≤ (SEPARATOR_VALUE_TYPE :: (decimal n ++
        SEPARATOR_VALUE_TYPE :: DELIMITER_OBJECT_LEFT ::
          (encPairs pre ++ (k ++ (encIntText raw ++ rest))))).length + 1 := by
      intro x hx
      have := encPairs_length_ge pre x hx
      simp only [List.length_cons, List.length_append]
      omega
    unfold decodeArray at h
    cases hmap : decodeArrayMap (DecodeFuel E ((SEPARATOR_VALUE_TYPE :: (decimal n ++
        SEPARATOR_VALUE_TYPE :: DELIMITER_OBJECT_LEFT ::
          (encPairs pre ++ (k ++ (encIntText raw ++ rest))))).length + 1))
        ⟨SEPARATOR_VALUE_TYPE :: (decimal n ++ SEPARATOR_VALUE_TYPE :: DELIMITER_OBJECT_LEFT ::
          (encPairs pre ++ (k ++ (encIntText raw ++ rest)))), none⟩ with
    | error f' => rw [hmap] at h; cases h
    | ok p =>
      obtain ⟨val, u1⟩ := p
      rw [hmap] at h
      simp only [Except.ok.injEq, Prod.mk.injEq] at h
      rw [← h.2]
      exact decodeArrayMap_first E _ pre k kv raw z e n rest hprek hprev hfuel hk hraw hbad hlt hn
        val u1 hmap
  · intro u x hx v u' h
    exact DecodeFuel_keeps E _ u v u' h x hx

/-- C8, instances: on a fresh instance over `a:2:{i:x;i:y;i:1;i:2;}` the texts
`x` and `y` are both rejected and Decode returns the error of `x`; the same
with any bytes in place of `i:y;i:1;i:2;}`, here `i:y;?`; and a second Decode
call on the instance, over what follows the array, returns that error again. -/
theorem C8_first_error_wins_witness :
    (∃ val : PArray,
      Decode sampleEnv (NewUnserializer (encArray 2
          (encIntTexts [(ascii "x", ascii "y"), (ascii "1", ascii "2")]) ++ ascii "i:z;"))
        = .ok (.array val, ⟨ascii "i:z;",
            firstRejected (cursorTexts [(ascii "x", ascii "y"), (ascii "1", ascii "2")])⟩)) ∧
    firstRejected (cursorTexts [(ascii "x", ascii "y"), (ascii "1", ascii "2")])
      = some (.convInt (ascii "x") .ErrSyntax) ∧
    encArray 2 (encIntTexts [(ascii "x", ascii "y"), (ascii "1", ascii "2")])
      = ascii "a:2:\x7bi:x;i:y;i:1;i:2;\x7d" ∧
    Decode sampleEnv (NewUnserializer (ascii "a:2:\x7bi:x;i:y;i:1;i:2;\x7di:z;"))
      = .ok (.array [], ⟨ascii "i:z;", some (.convInt (ascii "x") .ErrSyntax)⟩) ∧
    Decode sampleEnv ⟨ascii "i:z;", some (.convInt (ascii "x") .ErrSyntax)⟩
      = .ok (.int 0, ⟨[], some (.convInt (ascii "x") .ErrSyntax)⟩) ∧
    Decode sampleEnv (NewUnserializer (ascii "a:2:\x7bi:0;i:x;i:y;?"))
      = .ok (.array [], ⟨[], some (.convInt (ascii "x") .ErrSyntax)⟩) ∧
    (saveError (NewUnserializer []) .readBool).lastErr = some .readBool :=
  ⟨(C8_first_error_wins sampleEnv).2.1 [(ascii "x", ascii "y"), (ascii "1", ascii "2")]
      (ascii "i:z;") (by decide) (by simp [UNSERIALIZABLE_OBJECT_MAX_LEN]),
    rfl, by decide, rfl, rfl, rfl, rfl⟩

end FirstErrorMet

section SessionStartErrors

/-- C21 as stated fails for a cookie named SessionName whose value is empty:
Start takes it for no cookie. With a handler whose Read returns `some-error`,
Start returns no error, calls the session-ID creator, gives the Session the new
ID, sets the cookie, and never calls Read. -/
theorem C21_empty_cookie_value :
    [emptyCookie].find? (fun k => decide (k.Name
        = (testManager ([], some (ascii "some-error"))).SessionName)) = some emptyCookie ∧
    ((testManager ([], some (ascii "some-error"))).Handler.Read emptyCookie.Value).2
      = some (ascii "some-error") ∧
    ((testManager ([], some (ascii "some-error"))).Start
        (fun _ => ((none : Option PArray), none)) ⟨[], none⟩ [emptyCookie]).err = none ∧
    ((testManager ([], some (ascii "some-error"))).Start
        (fun _ => ((none : Option PArray), none)) ⟨[], none⟩ [emptyCookie]).session.SessionID
      = ascii "random-hash" ∧
    ((testManager ([], some (ascii "some-error"))).Start
        (fun _ => ((none : Option PArray), none)) ⟨[], none⟩ [emptyCookie]).calls
      = [.CreateSID, .SetCookie (ascii "some-session-name") (ascii "random-hash")] :=
  ⟨by decide, rfl, rfl, rfl, rfl⟩

/-- C21, amended: Start on a request whose first cookie named SessionName is
`c`, with a value that is not empty. Start calls Handler.Read with the value of
the cookie. If Read returns an error, Start returns that same error and calls
nothing else. If Read returns a raw string and no error, Start calls the
session decoder on that string, and if the decoder returns an error, Start
returns that same error. In both cases the returned Session has the value of
the cookie as its SessionID and the Value NewSession gave it, and the
session-ID creator is not called. -/
theorem C21_start_error {σ : Type} (m : SessionManager) (decode : Bytes → σ × Option GoError)
    (fresh : Session σ) (cookies : List Cookie) (c : Cookie)
    (hc : cookies.find? (fun k => decide (k.Name = m.SessionName)) = some c)
    (hne : c.Value ≠ []) :
    (∀ e : GoError, (m.Handler.Read c.Value).2 = some e →
      (m.Start decode fresh cookies).err = some e ∧
      (m.Start decode fresh cookies).session.SessionID = c.Value ∧
      (m.Start decode fresh cookies).session.Value = fresh.Value ∧
      (m.Start decode fresh cookies).calls = [.Read c.Value]) ∧
    (∀ e : GoError, (m.Handler.Read c.Value).2 = none →
      (decode (m.Handler.Read c.Value).1).2 = some e →
      (m.Start decode fresh cookies).err = some e ∧
      (m.Start decode fresh cookies).session.SessionID = c.Value ∧
      (m.Start decode fresh cookies).session.Value = fresh.Value ∧
      (m.Start decode fresh cookies).calls
        = [.Read c.Value, .Decode (m.Handler.Read c.Value).1]) ∧
    Call.Read c.Value ∈ (m.Start decode fresh cookies).calls ∧
    Call.CreateSID ∉ (m.Start decode fresh cookies).calls := by
  have hget := getFromCookies_find m cookies c hc
  unfold SessionManager.Start
  simp only [hget, if_neg hne]
  rcases hread : m.Handler.Read c.Value with ⟨raw, rerr⟩
  cases rerr with
  | some err =>
    refine ⟨?_, ?_, by simp, by simp⟩
    · intro e he
      simp only [Option.some.injEq] at he
      subst he
      exact ⟨rfl, rfl, rfl, rfl⟩
    · intro e he
      simp at he
  | none =>
    simp only
    rcases hdec : decode raw with ⟨v, derr⟩
    cases derr with
    | some err =>
      refine ⟨?_, ?_, by simp, by simp⟩
      · intro e he
        simp at he
      · intro e _ he
        simp only [Option.some.injEq] at he
        subst he
        exact ⟨rfl, rfl, rfl, rfl⟩
    | none =>
      refine ⟨?_, ?_, by simp, by simp⟩
      · intro e he
        simp at he
      · intro e _ he
        simp at he

/-- C21, instances: the request of the test with the cookie
`some-session-name=some-session-id`; first the handler fails with `some-error`,
then the handler returns `some-data` and the decoder fails with `bad-data`. -/
theorem C21_start_error_witness :
    ((testManager ([], some (ascii "some-error"))).Start
        (fun _ => ((none : Option PArray), none)) ⟨[], none⟩ [testCookie]).err
      = some (ascii "some-error") ∧
    ((testManager ([], some (ascii "some-error"))).Start
        (fun _ => ((none : Option PArray), none)) ⟨[], none⟩ [testCookie]).calls
      = [.Read (ascii "some-session-id")] ∧
    ((testManager (ascii "some-data", none)).Start
        (fun _ => ((some [] : Option PArray), some (ascii "bad-data"))) ⟨[], none⟩
        [testCookie]).err = some (ascii "bad-data") ∧
    ((testManager (ascii "some-data", none)).Start
        (fun _ => ((some [] : Option PArray), some (ascii "bad-data"))) ⟨[], none⟩
        [testCookie]).session.Value = none ∧
    ((testManager (ascii "some-data", none)).Start
        (fun _ => ((some [] : Option PArray), some (ascii "bad-data"))) ⟨[], none⟩
        [testCookie]).calls = [.Read (ascii "some-session-id"), .Decode (ascii "some-data")] :=
  ⟨((C21_start_error (testManager ([], some (ascii "some-error")))
      (fun _ => ((none : Option PArray), none)) ⟨[], none⟩ [testCookie] testCookie (by decide)
      (by decide)).1 (ascii "some-error") rfl).1,
    ((C21_start_error (testManager ([], some (ascii "some-error")))
      (fun _ => ((none : Option PArray), none)) ⟨[], none⟩ [testCookie] testCookie (by decide)
      (by decide)).1 (ascii "some-error") rfl).2.2.2,
    ((C21_start_error (testManager (ascii "some-data", none))
      (fun _ => ((some [] : Option PArray), some (ascii "bad-data"))) ⟨[], none⟩ [testCookie]
      testCookie (by decide) (by decide)).2.1 (ascii "bad-data") rfl rfl).1,
    ((C21_start_error (testManager (ascii "some-data", none))
      (fun _ => ((some [] : Option PArray), some (ascii "bad-data"))) ⟨[], none⟩ [testCookie]
      testCookie (by decide) (by decide)).2.1 (ascii "bad-data") rfl rfl).2.2.1,
    ((C21_start_error (testManager (ascii "some-data", none))
      (fun _ => ((some [] : Option PArray), some (ascii "bad-data"))) ⟨[], none⟩ [testCookie]
      testCookie (by decide) (by decide)).2.1 (ascii "bad-data") rfl rfl).2.2.2⟩

end SessionStartErrors

end PhpSerialize
